import Mathlib

/-!
# Verification of the gheap paged d-ary heap library

This file gives a shallow embedding of the index algebra and the heap
algorithms of the gheap repository and proves the central contracts of its
specification against that embedding.

Two C dialects of the heap live in the repository and both are embedded here:

* `gheap_c.c` — closed-form parent/child index formulas (`_get_parent_index`,
  `_get_child_index`) plus sift-up / sift-down / make-heap / sort-heap built
  on them.  `size_t` arithmetic is modelled faithfully: every addition,
  subtraction and multiplication wraps modulo `2 ^ 64`, and the child
  computation saturates to `SIZE_MAX` exactly where the source checks for
  overflow.
* `gheap.h` — the incremental intra-page / cross-page walk woven into
  `_gheap_sift_up`, `_gheap_sift_down` and `gheap_is_heap_until`, and the
  algorithm layer `galgorithm.h` (heapsort, partial sort, N-way merge) that
  is compiled against it.

Elements are opaque; the comparator is an arbitrary Boolean relation, with
strict-weak-order assumptions added exactly where a claim quantifies over
strict-weak-order comparators.  Buffers are lists, reads are `List.getD`,
and the element mover is the byte-faithful relocation `List.set`.
-/

set_option autoImplicit false

namespace Gheap

/-! ## Machine arithmetic (`size_t`, 64-bit) -/

/-- Number of values of the C `size_t` type modelled throughout (64 bits). -/
def W : Nat := 2 ^ 64

/-- The C constant `SIZE_MAX`. -/
def SZ : Nat := W - 1

/-- Wrap-around (`mod 2 ^ 64`) addition of `size_t` values. -/
def wadd (a b : Nat) : Nat := (a + b) % W

/-- Wrap-around (`mod 2 ^ 64`) subtraction of `size_t` values. -/
def wsub (a b : Nat) : Nat := (a + W - b % W) % W

/-- Wrap-around (`mod 2 ^ 64`) multiplication of `size_t` values. -/
def wmul (a b : Nat) : Nat := a * b % W

theorem W_pos : 0 < W := by decide

theorem SZ_lt_W : SZ < W := by decide

theorem wadd_eq {a b : Nat} (h : a + b < W) : wadd a b = a + b := by
  unfold wadd
  exact Nat.mod_eq_of_lt h

theorem wsub_eq {a b : Nat} (hb : b ≤ a) (ha : a < W) : wsub a b = a - b := by
  unfold wsub
  have hbW : b < W := Nat.lt_of_le_of_lt hb ha
  rw [Nat.mod_eq_of_lt hbW]
  have h1 : a + W - b = (a - b) + W := by omega
  rw [h1, Nat.add_mod_right]
  exact Nat.mod_eq_of_lt (by omega)

theorem wmul_eq {a b : Nat} (h : a * b < W) : wmul a b = a * b := by
  unfold wmul
  exact Nat.mod_eq_of_lt h

/-! ## Index algebra of `gheap_c.c` (closed-form formulas)

`getParentIndex` and `getChildIndex` transcribe `_get_parent_index` and
`_get_child_index` of `gheap_c.c` with faithful `size_t` semantics.
`parentI` and `childI` are the same algorithms in unbounded natural
arithmetic, without wrap-around and without the saturation checks; the
bridge lemmas below show where the faithful versions agree with them. -/

/-- Embedding of `_get_parent_index` (`gheap_c.c`), wrap-around `size_t`
semantics.  Source precondition: `u > 0`. -/
def getParentIndex (fanout page_chunks u0 : Nat) : Nat :=
  let u := wsub u0 1
  if page_chunks = 1 then
    u / fanout
  else if u < fanout then
    0
  else
    let page_size := wmul fanout page_chunks
    let v := u % page_size
    if fanout ≤ v then
      wadd (wsub u v) (v / fanout)
    else
      let v1 := wsub (u / page_size) 1
      let page_leaves := wadd (wmul (wsub fanout 1) page_chunks) 1
      let u1 := wadd (v1 / page_leaves) 1
      wadd (wsub (wadd (wmul u1 page_size) (v1 % page_leaves)) page_leaves) 1

/-- Embedding of `_get_child_index` (`gheap_c.c`), wrap-around `size_t`
semantics with the source's saturation-to-`SIZE_MAX` overflow checks.
Source preconditions: `u < SIZE_MAX` and `page_chunks ≤ SIZE_MAX / fanout`. -/
def getChildIndex (fanout page_chunks u0 : Nat) : Nat :=
  if page_chunks = 1 then
    if (SZ - 1) / fanout < u0 then SZ
    else wadd (wmul u0 fanout) 1
  else if u0 = 0 then
    1
  else
    let page_size := wmul fanout page_chunks
    let u := wsub u0 1
    let v := wadd (u % page_size) 1
    if v < page_size / fanout then
      let v2 := wmul v (wsub fanout 1)
      if wsub (wsub SZ 2) v2 < u then SZ
      else wadd (wadd u v2) 2
    else
      let page_leaves := wadd (wmul (wsub fanout 1) page_chunks) 1
      let v3 := wadd v (wsub (wmul (wadd (u / page_size) 1) page_leaves) page_size)
      if (SZ - 1) / page_size < v3 then SZ
      else wadd (wmul v3 page_size) 1

theorem mulAddDiv {ps q o : Nat} (hps : 0 < ps) (ho : o < ps) :
    (q * ps + o) / ps = q := by
  rw [Nat.mul_comm, Nat.mul_add_div hps, Nat.div_eq_of_lt ho, Nat.add_zero]

theorem mulAddMod {ps q o : Nat} (ho : o < ps) : (q * ps + o) % ps = o := by
  rw [Nat.mul_comm, Nat.mul_add_mod, Nat.mod_eq_of_lt ho]

/-- Parent index of the `gheap_c.c` layout in ideal (unbounded) natural
arithmetic: the same algorithm as `getParentIndex` without wrap-around. -/
def parentI (d p u : Nat) : Nat :=
  let x := u - 1
  if p = 1 then x / d
  else if x < d then 0
  else
    let ps := d * p
    let v := x % ps
    if d ≤ v then x - v + v / d
    else
      let v1 := x / ps - 1
      let pl := (d - 1) * p + 1
      (v1 / pl + 1) * ps + v1 % pl - pl + 1

/-- First-child index of the `gheap_c.c` layout in ideal (unbounded) natural
arithmetic: the same algorithm as `getChildIndex` without wrap-around and
without saturation. -/
def childI (d p u : Nat) : Nat :=
  if p = 1 then u * d + 1
  else if u = 0 then 1
  else
    let x := u - 1
    let ps := d * p
    let v := x % ps + 1
    if v < ps / d then x + v * (d - 1) + 2
    else
      let pl := (d - 1) * p + 1
      (v + (x / ps + 1) * pl - ps) * ps + 1


/-! ### Case characterizations of the ideal index algebra -/

theorem childI_p1 (d u : Nat) : childI d 1 u = u * d + 1 := by
  unfold childI; simp

theorem childI_zero (d p : Nat) : childI d p 0 = 1 := by
  unfold childI
  by_cases hp : p = 1 <;> simp [hp]

theorem parentI_p1 (d u : Nat) : parentI d 1 u = (u - 1) / d := by
  unfold parentI; simp

theorem parentI_root (d p u : Nat) (hp : 2 ≤ p) (hu : u - 1 < d) :
    parentI d p u = 0 := by
  unfold parentI
  have hp1 : ¬ p = 1 := by omega
  simp only [hp1, if_false, hu, if_true]

theorem parentI_fast (d p u : Nat) (hd : 1 ≤ d) (hp : 2 ≤ p)
    (hfa : d ≤ (u - 1) % (d * p)) :
    parentI d p u = d * p * ((u - 1) / (d * p)) + (u - 1) % (d * p) / d := by
  unfold parentI
  have hp1 : ¬ p = 1 := by omega
  have hxd : ¬ (u - 1 < d) := by
    have := Nat.mod_le (u - 1) (d * p)
    omega
  simp only [hp1, if_false, hxd, hfa, if_true]
  have hdm := Nat.div_add_mod (u - 1) (d * p)
  omega

theorem parentI_slow (d p u : Nat) (hd : 1 ≤ d) (hp : 2 ≤ p)
    (hdu : d ≤ u - 1) (hsl : (u - 1) % (d * p) < d) :
    parentI d p u =
      ((u - 1) / (d * p) - 1) / ((d - 1) * p + 1) * (d * p) +
        ((u - 1) / (d * p) - 1) % ((d - 1) * p + 1) + p := by
  unfold parentI
  have hp1 : ¬ p = 1 := by omega
  have hxd : ¬ (u - 1 < d) := by omega
  have hns : ¬ (d ≤ (u - 1) % (d * p)) := by omega
  simp only [hp1, if_false, hxd, hns]
  -- abbreviations
  have hps0 : 0 < d * p := by positivity
  have hpl : (d - 1) * p + p = d * p := by
    have h1 : (d - 1) * p = d * p - p := Nat.sub_one_mul d p
    have h2 : p ≤ d * p := Nat.le_mul_of_pos_left p (by omega)
    omega
  -- `(v1/pl + 1) * ps + v1 % pl - pl + 1 = (v1/pl) * ps + v1 % pl + p`
  have hexp : ((u - 1) / (d * p) - 1) / ((d - 1) * p + 1) * (d * p) + (d * p) =
      (((u - 1) / (d * p) - 1) / ((d - 1) * p + 1) + 1) * (d * p) := by
    rw [Nat.add_mul, Nat.one_mul]
  omega


theorem childI_fast (d p u : Nat) (hd : 1 ≤ d) (hp : 2 ≤ p) (hu : 1 ≤ u)
    (hf : (u - 1) % (d * p) + 1 < p) :
    childI d p u = d * p * ((u - 1) / (d * p)) + ((u - 1) % (d * p) + 1) * d + 1 := by
  unfold childI
  have hp1 : ¬ p = 1 := by omega
  have hu0 : ¬ u = 0 := by omega
  have hdpd : d * p / d = p := Nat.mul_div_cancel_left p (by omega)
  simp only [hp1, if_false, hu0, hdpd, hf, if_true]
  have hdm := Nat.div_add_mod (u - 1) (d * p)
  have hmd : ((u - 1) % (d * p) + 1) * (d - 1) + ((u - 1) % (d * p) + 1) =
      ((u - 1) % (d * p) + 1) * d := by
    have h1 : ((u - 1) % (d * p) + 1) * (d - 1) =
        ((u - 1) % (d * p) + 1) * d - ((u - 1) % (d * p) + 1) := Nat.mul_sub_one ..
    have h2 : (u - 1) % (d * p) + 1 ≤ ((u - 1) % (d * p) + 1) * d :=
      Nat.le_mul_of_pos_right _ (by omega)
    omega
  omega

theorem childI_slow (d p u : Nat) (hd : 1 ≤ d) (hp : 2 ≤ p) (hu : 1 ≤ u)
    (hs : p ≤ (u - 1) % (d * p) + 1) :
    childI d p u =
      ((u - 1) / (d * p) * ((d - 1) * p + 1) + ((u - 1) % (d * p) + 1 - p) + 1) *
        (d * p) + 1 := by
  unfold childI
  have hp1 : ¬ p = 1 := by omega
  have hu0 : ¬ u = 0 := by omega
  have hdpd : d * p / d = p := Nat.mul_div_cancel_left p (by omega)
  have hnf : ¬ ((u - 1) % (d * p) + 1 < d * p / d) := by omega
  simp only [hp1, if_false, hu0, hnf]
  have hpl : (d - 1) * p + p = d * p := by
    have h1 : (d - 1) * p = d * p - p := Nat.sub_one_mul d p
    have h2 : p ≤ d * p := Nat.le_mul_of_pos_left p (by omega)
    omega
  have hq1 : ((u - 1) / (d * p) + 1) * ((d - 1) * p + 1) =
      (u - 1) / (d * p) * ((d - 1) * p + 1) + ((d - 1) * p + 1) := by
    rw [Nat.add_mul, Nat.one_mul]
  have hinner : (u - 1) % (d * p) + 1 + ((u - 1) / (d * p) + 1) * ((d - 1) * p + 1)
      - d * p =
      (u - 1) / (d * p) * ((d - 1) * p + 1) + ((u - 1) % (d * p) + 1 - p) + 1 := by
    omega
  rw [hinner]


/-! ### Structural facts about the ideal index algebra -/

theorem parentI_lt (d p u : Nat) (hd : 1 ≤ d) (hp : 1 ≤ p) (hu : 1 ≤ u) :
    parentI d p u < u := by
  by_cases hp1 : p = 1
  · subst hp1
    rw [parentI_p1]
    have := Nat.div_le_self (u - 1) d
    omega
  · have hp2 : 2 ≤ p := by omega
    by_cases hroot : u - 1 < d
    · rw [parentI_root d p u hp2 hroot]; omega
    · by_cases hfa : d ≤ (u - 1) % (d * p)
      · rw [parentI_fast d p u hd hp2 hfa]
        have hdm := Nat.div_add_mod (u - 1) (d * p)
        have := Nat.div_le_self ((u - 1) % (d * p)) d
        omega
      · have hsl : (u - 1) % (d * p) < d := by omega
        rw [parentI_slow d p u hd hp2 (by omega) hsl]
        -- q ≥ 1 because u - 1 ≥ d and (u-1) % ps < d force u - 1 ≥ ps
        have hps0 : 0 < d * p := by positivity
        have hdm := Nat.div_add_mod (u - 1) (d * p)
        have hq1 : 1 ≤ (u - 1) / (d * p) := by
          rcases Nat.eq_zero_or_pos ((u - 1) / (d * p)) with h0 | h1
          · rw [h0, Nat.mul_zero] at hdm; omega
          · exact h1
        have hdm2 := Nat.div_add_mod ((u - 1) / (d * p) - 1) ((d - 1) * p + 1)
        have hble : ((u - 1) / (d * p) - 1) % ((d - 1) * p + 1) ≤ (d - 1) * p :=
          Nat.le_of_lt_succ (Nat.mod_lt _ (by omega))
        have hpl : (d - 1) * p + p = d * p := by
          have h1 : (d - 1) * p = d * p - p := Nat.sub_one_mul d p
          have h2 : p ≤ d * p := Nat.le_mul_of_pos_left p (by omega)
          omega
        -- a * ps ≤ (q - 1) * ps
        have ha : ((u - 1) / (d * p) - 1) / ((d - 1) * p + 1) ≤ (u - 1) / (d * p) - 1 :=
          Nat.div_le_self ..
        have hmul : ((u - 1) / (d * p) - 1) / ((d - 1) * p + 1) * (d * p) ≤
            ((u - 1) / (d * p) - 1) * (d * p) := Nat.mul_le_mul_right _ ha
        have hmul2 : ((u - 1) / (d * p) - 1) * (d * p) + d * p =
            ((u - 1) / (d * p)) * (d * p) := by
          have h1 : ((u - 1) / (d * p) - 1) * (d * p) =
              ((u - 1) / (d * p)) * (d * p) - d * p := Nat.sub_one_mul ..
          have h2 : d * p ≤ ((u - 1) / (d * p)) * (d * p) :=
            Nat.le_mul_of_pos_left _ (by omega)
          omega
        have hcm : ((u - 1) / (d * p)) * (d * p) = (d * p) * ((u - 1) / (d * p)) :=
          Nat.mul_comm ..
        omega

theorem childI_gt (d p u : Nat) (hd : 1 ≤ d) (hp : 1 ≤ p) :
    u < childI d p u := by
  by_cases hp1 : p = 1
  · subst hp1
    rw [childI_p1]
    have : u ≤ u * d := Nat.le_mul_of_pos_right u (by omega)
    omega
  · have hp2 : 2 ≤ p := by omega
    by_cases hu0 : u = 0
    · subst hu0; rw [childI_zero]; omega
    · have hu : 1 ≤ u := by omega
      by_cases hf : (u - 1) % (d * p) + 1 < p
      · rw [childI_fast d p u hd hp2 hu hf]
        have hdm := Nat.div_add_mod (u - 1) (d * p)
        have hle : (u - 1) % (d * p) + 1 ≤ ((u - 1) % (d * p) + 1) * d :=
          Nat.le_mul_of_pos_right _ (by omega)
        omega
      · rw [childI_slow d p u hd hp2 hu (by omega)]
        have hdm := Nat.div_add_mod (u - 1) (d * p)
        have hmod := Nat.mod_lt (u - 1) (show 0 < d * p by positivity)
        -- v2 ≥ q + 1, hence v2 * ps + 1 > q * ps + r + 1 = u
        have hq : (u - 1) / (d * p) ≤ (u - 1) / (d * p) * ((d - 1) * p + 1) :=
          Nat.le_mul_of_pos_right _ (by omega)
        have hv2 : (u - 1) / (d * p) + 1 ≤
            (u - 1) / (d * p) * ((d - 1) * p + 1) + ((u - 1) % (d * p) + 1 - p) + 1 := by
          omega
        have hmul : ((u - 1) / (d * p) + 1) * (d * p) ≤
            ((u - 1) / (d * p) * ((d - 1) * p + 1) + ((u - 1) % (d * p) + 1 - p) + 1) *
              (d * p) := Nat.mul_le_mul_right _ hv2
        have hmul2 : ((u - 1) / (d * p) + 1) * (d * p) =
            (u - 1) / (d * p) * (d * p) + d * p := by
          rw [Nat.add_mul, Nat.one_mul]
        have hcm : ((u - 1) / (d * p)) * (d * p) = (d * p) * ((u - 1) / (d * p)) :=
          Nat.mul_comm ..
        omega


theorem divPs {ps q o : Nat} (hps : 0 < ps) (ho : o < ps) : (ps * q + o) / ps = q := by
  rw [Nat.mul_comm]; exact mulAddDiv hps ho

theorem modPs {ps q o : Nat} (ho : o < ps) : (ps * q + o) % ps = o := by
  rw [Nat.mul_comm]; exact mulAddMod ho

theorem pl_add (d p : Nat) (hd : 1 ≤ d) : (d - 1) * p + p = d * p := by
  have h1 : (d - 1) * p = d * p - p := Nat.sub_one_mul d p
  have h2 : p ≤ d * p := Nat.le_mul_of_pos_left p (by omega)
  omega

theorem childI_mod (d p u : Nat) (hd : 1 ≤ d) (hp : 1 ≤ p) :
    childI d p u % d = 1 % d := by
  by_cases hp1 : p = 1
  · subst hp1
    rw [childI_p1, Nat.mul_comm, Nat.mul_add_mod]
  · have hp2 : 2 ≤ p := by omega
    by_cases hu0 : u = 0
    · subst hu0; rw [childI_zero]
    · have hu : 1 ≤ u := by omega
      by_cases hf : (u - 1) % (d * p) + 1 < p
      · rw [childI_fast d p u hd hp2 hu hf]
        have h1 : d * p * ((u - 1) / (d * p)) + ((u - 1) % (d * p) + 1) * d + 1 =
            d * (p * ((u - 1) / (d * p)) + ((u - 1) % (d * p) + 1)) + 1 := by ring
        rw [h1, Nat.mul_add_mod]
      · rw [childI_slow d p u hd hp2 hu (by omega)]
        have h1 : ((u - 1) / (d * p) * ((d - 1) * p + 1) + ((u - 1) % (d * p) + 1 - p)
              + 1) * (d * p) + 1 =
            d * (((u - 1) / (d * p) * ((d - 1) * p + 1) + ((u - 1) % (d * p) + 1 - p)
              + 1) * p) + 1 := by ring
        rw [h1, Nat.mul_add_mod]

theorem parentI_childI (d p u k : Nat) (hd : 1 ≤ d) (hp : 1 ≤ p) (hk : k < d) :
    parentI d p (childI d p u + k) = u := by
  by_cases hp1 : p = 1
  · subst hp1
    rw [childI_p1, parentI_p1]
    have h1 : u * d + 1 + k - 1 = u * d + k := by omega
    rw [h1, mulAddDiv (by omega) hk]
  · have hp2 : 2 ≤ p := by omega
    have hps0 : 0 < d * p := by positivity
    by_cases hu0 : u = 0
    · subst hu0
      rw [childI_zero]
      exact parentI_root d p (1 + k) hp2 (by omega)
    · have hu : 1 ≤ u := by omega
      have hdm := Nat.div_add_mod (u - 1) (d * p)
      have hmod := Nat.mod_lt (u - 1) hps0
      by_cases hf : (u - 1) % (d * p) + 1 < p
      · -- fast path: the child sits in the same page, offset (r+1)*d + k
        rw [childI_fast d p u hd hp2 hu hf]
        have hpd : (p - 1) * d + d = d * p := by
          have h1 := Nat.sub_one_mul p d
          have h2 : d ≤ p * d := Nat.le_mul_of_pos_left d (by omega)
          have h3 : p * d = d * p := Nat.mul_comm ..
          omega
        have hoff : ((u - 1) % (d * p) + 1) * d + k < d * p := by
          have h2 : ((u - 1) % (d * p) + 1) * d ≤ (p - 1) * d :=
            Nat.mul_le_mul_right d (by omega)
          omega
        have hoffd : d ≤ ((u - 1) % (d * p) + 1) * d + k := by
          have : d ≤ ((u - 1) % (d * p) + 1) * d := Nat.le_mul_of_pos_left d (by omega)
          omega
        have hw : d * p * ((u - 1) / (d * p)) + ((u - 1) % (d * p) + 1) * d + 1 + k - 1
            = d * p * ((u - 1) / (d * p)) + (((u - 1) % (d * p) + 1) * d + k) := by
          omega
        have hwm : (d * p * ((u - 1) / (d * p)) + ((u - 1) % (d * p) + 1) * d + 1 + k
            - 1) % (d * p) = ((u - 1) % (d * p) + 1) * d + k := by
          rw [hw, modPs hoff]
        have hwd : (d * p * ((u - 1) / (d * p)) + ((u - 1) % (d * p) + 1) * d + 1 + k
            - 1) / (d * p) = (u - 1) / (d * p) := by
          rw [hw, divPs hps0 hoff]
        rw [parentI_fast d p _ hd hp2 (by rw [hwm]; exact hoffd), hwm, hwd]
        rw [mulAddDiv (by omega) hk]
        omega
      · -- slow path: the child starts a new page, offset k
        rw [childI_slow d p u hd hp2 hu (by omega)]
        have hpl := pl_add d p hd
        have hV1 : 1 ≤ (u - 1) / (d * p) * ((d - 1) * p + 1) +
            ((u - 1) % (d * p) + 1 - p) + 1 := by omega
        have hkps : k < d * p := by
          have : d ≤ d * p := Nat.le_mul_of_pos_right d (by omega)
          omega
        have hw : ((u - 1) / (d * p) * ((d - 1) * p + 1) + ((u - 1) % (d * p) + 1 - p)
              + 1) * (d * p) + 1 + k - 1 =
            ((u - 1) / (d * p) * ((d - 1) * p + 1) + ((u - 1) % (d * p) + 1 - p) + 1)
              * (d * p) + k := by omega
        have hwm : (((u - 1) / (d * p) * ((d - 1) * p + 1) + ((u - 1) % (d * p) + 1 - p)
              + 1) * (d * p) + 1 + k - 1) % (d * p) = k := by
          rw [hw, mulAddMod hkps]
        have hwd : (((u - 1) / (d * p) * ((d - 1) * p + 1) + ((u - 1) % (d * p) + 1 - p)
              + 1) * (d * p) + 1 + k - 1) / (d * p) =
            (u - 1) / (d * p) * ((d - 1) * p + 1) + ((u - 1) % (d * p) + 1 - p) + 1 := by
          rw [hw, mulAddDiv hps0 hkps]
        have hwge : d ≤ ((u - 1) / (d * p) * ((d - 1) * p + 1) +
              ((u - 1) % (d * p) + 1 - p) + 1) * (d * p) + 1 + k - 1 := by
          have h2 : 1 * (d * p) ≤ ((u - 1) / (d * p) * ((d - 1) * p + 1) +
              ((u - 1) % (d * p) + 1 - p) + 1) * (d * p) := Nat.mul_le_mul_right _ hV1
          have h3 : d ≤ d * p := Nat.le_mul_of_pos_right d (by omega)
          omega
        rw [parentI_slow d p _ hd hp2 hwge (by rw [hwm]; omega), hwd]
        have hsub : (u - 1) / (d * p) * ((d - 1) * p + 1) +
            ((u - 1) % (d * p) + 1 - p) + 1 - 1 =
            (u - 1) / (d * p) * ((d - 1) * p + 1) + ((u - 1) % (d * p) + 1 - p) := by
          omega
        rw [hsub]
        have hrpl : (u - 1) % (d * p) + 1 - p < (d - 1) * p + 1 := by omega
        rw [mulAddDiv (by omega) hrpl, mulAddMod hrpl]
        have hcm : (u - 1) / (d * p) * (d * p) = d * p * ((u - 1) / (d * p)) :=
          Nat.mul_comm ..
        omega


theorem childI_parentI (d p u : Nat) (hd : 1 ≤ d) (hp : 1 ≤ p) (hu : 1 ≤ u) :
    childI d p (parentI d p u) ≤ u ∧ u < childI d p (parentI d p u) + d := by
  by_cases hp1 : p = 1
  · subst hp1
    rw [parentI_p1, childI_p1]
    have hdm := Nat.div_add_mod (u - 1) d
    have hmod := Nat.mod_lt (u - 1) (show 0 < d by omega)
    have hcm : (u - 1) / d * d = d * ((u - 1) / d) := Nat.mul_comm ..
    omega
  · have hp2 : 2 ≤ p := by omega
    have hps0 : 0 < d * p := by positivity
    have hdm := Nat.div_add_mod (u - 1) (d * p)
    have hmod := Nat.mod_lt (u - 1) hps0
    have hpl := pl_add d p hd
    by_cases hroot : u - 1 < d
    · rw [parentI_root d p u hp2 hroot, childI_zero]
      omega
    · by_cases hfa : d ≤ (u - 1) % (d * p)
      · -- parent on same page at offset r / d - 1
        rw [parentI_fast d p u hd hp2 hfa]
        -- offset of the parent within its page
        have hrd : (u - 1) % (d * p) / d ≤ p - 1 := by
          have h1 : (u - 1) % (d * p) / d < p := by
            rw [Nat.div_lt_iff_lt_mul (by omega)]
            have : p * d = d * p := Nat.mul_comm ..
            omega
          omega
        have hrd1 : 1 ≤ (u - 1) % (d * p) / d := by
          rw [Nat.le_div_iff_mul_le (by omega)]; omega
        have ht1 : d * p * ((u - 1) / (d * p)) + (u - 1) % (d * p) / d - 1 =
            d * p * ((u - 1) / (d * p)) + ((u - 1) % (d * p) / d - 1) := by omega
        have htm : (d * p * ((u - 1) / (d * p)) + (u - 1) % (d * p) / d - 1) % (d * p)
            = (u - 1) % (d * p) / d - 1 := by
          rw [ht1, modPs (by omega)]
        have htd : (d * p * ((u - 1) / (d * p)) + (u - 1) % (d * p) / d - 1) / (d * p)
            = (u - 1) / (d * p) := by
          rw [ht1, divPs hps0 (by omega)]
        have htpos : 1 ≤ d * p * ((u - 1) / (d * p)) + (u - 1) % (d * p) / d := by
          omega
        rw [childI_fast d p _ hd hp2 htpos (by rw [htm]; omega), htm, htd]
        have hsub : (u - 1) % (d * p) / d - 1 + 1 = (u - 1) % (d * p) / d := by omega
        rw [hsub]
        have hdm2 := Nat.div_add_mod ((u - 1) % (d * p)) d
        have hmod2 := Nat.mod_lt ((u - 1) % (d * p)) (show 0 < d by omega)
        have hcm : (u - 1) % (d * p) / d * d = d * ((u - 1) % (d * p) / d) :=
          Nat.mul_comm ..
        omega
      · -- parent across pages
        have hsl : (u - 1) % (d * p) < d := by omega
        rw [parentI_slow d p u hd hp2 (by omega) hsl]
        have hq1 : 1 ≤ (u - 1) / (d * p) := by
          rcases Nat.eq_zero_or_pos ((u - 1) / (d * p)) with h0 | h1
          · rw [h0, Nat.mul_zero] at hdm; omega
          · exact h1
        have hdm2 := Nat.div_add_mod ((u - 1) / (d * p) - 1) ((d - 1) * p + 1)
        have hmod2 := Nat.mod_lt ((u - 1) / (d * p) - 1)
          (show 0 < (d - 1) * p + 1 by omega)
        -- the parent t = a * ps + (b + p) with page offset b + p - 1
        have ht1 : ((u - 1) / (d * p) - 1) / ((d - 1) * p + 1) * (d * p) +
              ((u - 1) / (d * p) - 1) % ((d - 1) * p + 1) + p - 1 =
            d * p * (((u - 1) / (d * p) - 1) / ((d - 1) * p + 1)) +
              (((u - 1) / (d * p) - 1) % ((d - 1) * p + 1) + p - 1) := by
          have hcm : ((u - 1) / (d * p) - 1) / ((d - 1) * p + 1) * (d * p) =
              d * p * (((u - 1) / (d * p) - 1) / ((d - 1) * p + 1)) := Nat.mul_comm ..
          omega
        have hoblt : ((u - 1) / (d * p) - 1) % ((d - 1) * p + 1) + p - 1 < d * p := by
          omega
        have htm : (((u - 1) / (d * p) - 1) / ((d - 1) * p + 1) * (d * p) +
              ((u - 1) / (d * p) - 1) % ((d - 1) * p + 1) + p - 1) % (d * p) =
            ((u - 1) / (d * p) - 1) % ((d - 1) * p + 1) + p - 1 := by
          rw [ht1, modPs hoblt]
        have htd : (((u - 1) / (d * p) - 1) / ((d - 1) * p + 1) * (d * p) +
              ((u - 1) / (d * p) - 1) % ((d - 1) * p + 1) + p - 1) / (d * p) =
            ((u - 1) / (d * p) - 1) / ((d - 1) * p + 1) := by
          rw [ht1, divPs hps0 hoblt]
        have htpos : 1 ≤ ((u - 1) / (d * p) - 1) / ((d - 1) * p + 1) * (d * p) +
            ((u - 1) / (d * p) - 1) % ((d - 1) * p + 1) + p := by omega
        rw [childI_slow d p _ hd hp2 htpos (by rw [htm]; omega), htm, htd]
        -- childI(parent) = q * ps + 1
        have hsimp : ((u - 1) / (d * p) - 1) / ((d - 1) * p + 1) * ((d - 1) * p + 1) +
              (((u - 1) / (d * p) - 1) % ((d - 1) * p + 1) + p - 1 + 1 - p) + 1 =
            (u - 1) / (d * p) := by
          have hcm : ((u - 1) / (d * p) - 1) / ((d - 1) * p + 1) * ((d - 1) * p + 1) =
              ((d - 1) * p + 1) * (((u - 1) / (d * p) - 1) / ((d - 1) * p + 1)) :=
            Nat.mul_comm ..
          omega
        rw [hsimp]
        have hcm2 : (u - 1) / (d * p) * (d * p) = d * p * ((u - 1) / (d * p)) :=
          Nat.mul_comm ..
        omega

/-- Combined characterization: for `w ≥ 1`, `parentI w = u` exactly when `w`
lies in the fanout-chunk starting at `childI u`. -/
theorem parentI_eq_iff (d p u w : Nat) (hd : 1 ≤ d) (hp : 1 ≤ p) (hw : 1 ≤ w) :
    parentI d p w = u ↔ childI d p u ≤ w ∧ w < childI d p u + d := by
  constructor
  · intro h
    have := childI_parentI d p w hd hp hw
    rw [h] at this
    exact this
  · intro h
    obtain ⟨h1, h2⟩ := h
    have hk : w = childI d p u + (w - childI d p u) := by omega
    rw [hk, parentI_childI d p u (w - childI d p u) hd hp (by omega)]



theorem waddWsubWmul (v A pl ps : Nat) (h1 : ps ≤ v + A * pl)
    (h2 : v + A * pl - ps < W) (hv : v < W) (hps : ps < W) (h3 : A * pl < 2 * W) :
    wadd v (wsub (wmul A pl) ps) = v + A * pl - ps := by
  unfold wadd wsub wmul W at *
  generalize A * pl = M at *
  omega

/-- Where the faithful `size_t` parent computation agrees with the ideal one:
whenever the source preconditions (`u > 0` and `page_chunks ≤ SIZE_MAX / fanout`)
hold, no intermediate wrap-around affects the result. -/
theorem getParentIndex_eq (d p u : Nat) (hd : 1 ≤ d) (hp : 1 ≤ p)
    (hdp : d * p ≤ SZ) (hu : 1 ≤ u) (huW : u < W) :
    getParentIndex d p u = parentI d p u := by
  have hWZ : SZ < W := by decide
  have hdW : d < W := by
    have : d ≤ d * p := Nat.le_mul_of_pos_right d (by omega)
    omega
  unfold getParentIndex parentI
  rw [wsub_eq (by omega) huW]
  by_cases hp1 : p = 1
  · simp [hp1]
  · simp only [hp1, if_false]
    by_cases hroot : u - 1 < d
    · simp only [hroot, if_true]
    · simp only [hroot, if_false]
      rw [wmul_eq (by omega)]
      by_cases hfa : d ≤ (u - 1) % (d * p)
      · simp only [hfa, if_true]
        have hvx : (u - 1) % (d * p) ≤ u - 1 := Nat.mod_le ..
        rw [wsub_eq hvx (by omega), wadd_eq (by
          have := Nat.div_le_self ((u - 1) % (d * p)) d
          omega)]
      · simp only [hfa, if_false]
        -- slow path
        have hp2 : 2 ≤ p := by omega
        have hps0 : 0 < d * p := by positivity
        have hdm := Nat.div_add_mod (u - 1) (d * p)
        have hq1 : 1 ≤ (u - 1) / (d * p) := by
          rcases Nat.eq_zero_or_pos ((u - 1) / (d * p)) with h0 | h1
          · rw [h0, Nat.mul_zero] at hdm; omega
          · exact h1
        have hqW : (u - 1) / (d * p) < W := by
          have := Nat.div_le_self (u - 1) (d * p)
          omega
        have hpl := pl_add d p hd
        have hple : (d - 1) * p + 1 ≤ d * p := by omega
        have ha : ((u - 1) / (d * p) - 1) / ((d - 1) * p + 1) ≤ (u - 1) / (d * p) - 1 :=
          Nat.div_le_self ..
        have hb := Nat.mod_lt ((u - 1) / (d * p) - 1)
          (show 0 < (d - 1) * p + 1 by omega)
        have hqx : d * p * ((u - 1) / (d * p)) ≤ u - 1 := by omega
        have hu1ps : (((u - 1) / (d * p) - 1) / ((d - 1) * p + 1) + 1) * (d * p) ≤
            (u - 1) / (d * p) * (d * p) := Nat.mul_le_mul_right _ (by omega)
        have hqcm : (u - 1) / (d * p) * (d * p) = d * p * ((u - 1) / (d * p)) :=
          Nat.mul_comm ..
        have hsum : (((u - 1) / (d * p) - 1) / ((d - 1) * p + 1) + 1) * (d * p) +
            ((u - 1) / (d * p) - 1) % ((d - 1) * p + 1) < W := by
          rcases Nat.lt_or_ge (((u - 1) / (d * p) - 1) / ((d - 1) * p + 1) + 1)
            ((u - 1) / (d * p)) with hlt | hge
          · have h1 : (((u - 1) / (d * p) - 1) / ((d - 1) * p + 1) + 1) * (d * p) +
                (d * p) ≤ (u - 1) / (d * p) * (d * p) := by
              have := Nat.mul_le_mul_right (d * p) (show
                ((u - 1) / (d * p) - 1) / ((d - 1) * p + 1) + 1 + 1 ≤
                  (u - 1) / (d * p) from by omega)
              rw [Nat.add_mul, Nat.one_mul] at this
              omega
            omega
          · have haq : ((u - 1) / (d * p) - 1) / ((d - 1) * p + 1) =
                (u - 1) / (d * p) - 1 := by omega
            have hmm := Nat.div_mul_le_self ((u - 1) / (d * p) - 1) ((d - 1) * p + 1)
            rw [haq] at hmm
            rcases Nat.eq_zero_or_pos ((u - 1) / (d * p) - 1) with hq0 | hqpos
            · rw [hq0, Nat.zero_div, Nat.zero_mod]
              omega
            · have h3 : ((u - 1) / (d * p) - 1) * ((d - 1) * p + 1) ≤
                  ((u - 1) / (d * p) - 1) * 1 := by
                rw [Nat.mul_one]; exact hmm
              have h4 : (d - 1) * p + 1 ≤ 1 := Nat.le_of_mul_le_mul_left h3 hqpos
              have hpl1 : (d - 1) * p + 1 = 1 := by omega
              have hq' : (u - 1) / (d * p) - 1 + 1 = (u - 1) / (d * p) := by omega
              rw [hpl1, Nat.div_one, Nat.mod_one, hq']
              omega
        have e1 : wsub d 1 = d - 1 := wsub_eq hd hdW
        have e2 : wmul (d - 1) p = (d - 1) * p := wmul_eq (by omega)
        have e3 : wadd ((d - 1) * p) 1 = (d - 1) * p + 1 := wadd_eq (by omega)
        have e4 : wsub ((u - 1) / (d * p)) 1 = (u - 1) / (d * p) - 1 :=
          wsub_eq hq1 hqW
        have e5 : wadd (((u - 1) / (d * p) - 1) / ((d - 1) * p + 1)) 1 =
            ((u - 1) / (d * p) - 1) / ((d - 1) * p + 1) + 1 := wadd_eq (by omega)
        have e6 : wmul (((u - 1) / (d * p) - 1) / ((d - 1) * p + 1) + 1) (d * p) =
            (((u - 1) / (d * p) - 1) / ((d - 1) * p + 1) + 1) * (d * p) :=
          wmul_eq (by omega)
        have e7 : wadd ((((u - 1) / (d * p) - 1) / ((d - 1) * p + 1) + 1) * (d * p))
              (((u - 1) / (d * p) - 1) % ((d - 1) * p + 1)) =
            (((u - 1) / (d * p) - 1) / ((d - 1) * p + 1) + 1) * (d * p) +
              ((u - 1) / (d * p) - 1) % ((d - 1) * p + 1) := wadd_eq hsum
        have hpsle : 1 * (d * p) ≤
            (((u - 1) / (d * p) - 1) / ((d - 1) * p + 1) + 1) * (d * p) :=
          Nat.mul_le_mul_right (d * p) (Nat.le_add_left 1 _)
        have e8 : wsub ((((u - 1) / (d * p) - 1) / ((d - 1) * p + 1) + 1) * (d * p) +
              ((u - 1) / (d * p) - 1) % ((d - 1) * p + 1)) ((d - 1) * p + 1) =
            (((u - 1) / (d * p) - 1) / ((d - 1) * p + 1) + 1) * (d * p) +
              ((u - 1) / (d * p) - 1) % ((d - 1) * p + 1) - ((d - 1) * p + 1) :=
          wsub_eq (by omega) (by omega)
        have e9 : wadd ((((u - 1) / (d * p) - 1) / ((d - 1) * p + 1) + 1) * (d * p) +
              ((u - 1) / (d * p) - 1) % ((d - 1) * p + 1) - ((d - 1) * p + 1)) 1 =
            (((u - 1) / (d * p) - 1) / ((d - 1) * p + 1) + 1) * (d * p) +
              ((u - 1) / (d * p) - 1) % ((d - 1) * p + 1) - ((d - 1) * p + 1) + 1 :=
          wadd_eq (by omega)
        rw [e4, e1, e2, e3, e5, e6, e7, e8, e9]


/-- Where the faithful `size_t` child computation agrees with the ideal one:
under the source preconditions it returns the ideal first-child index,
saturated to `SIZE_MAX` exactly when that index does not fit `size_t`. -/
theorem getChildIndex_eq (d p u : Nat) (hd : 1 ≤ d) (hp : 1 ≤ p)
    (hdp : d * p ≤ SZ) (hu : u < SZ) :
    getChildIndex d p u = if SZ < childI d p u then SZ else childI d p u := by
  have hWZ : SZ < W := by decide
  unfold getChildIndex childI
  by_cases hp1 : p = 1
  · subst hp1
    rw [if_pos rfl, if_pos rfl]
    by_cases hg : (SZ - 1) / d < u
    · have h2 : SZ - 1 < u * d := (Nat.div_lt_iff_lt_mul (by omega)).mp hg
      rw [if_pos hg, if_pos (by omega)]
    · have h2 : ¬ (SZ - 1 < u * d) := fun hc =>
        hg ((Nat.div_lt_iff_lt_mul (by omega)).mpr hc)
      rw [if_neg hg, if_neg (by omega), wmul_eq (by omega), wadd_eq (by omega)]
  · simp only [hp1, if_false]
    by_cases hu0 : u = 0
    · simp only [hu0, if_true]
      rw [if_neg (by decide)]
    · simp only [hu0, if_false]
      have hps0 : 0 < d * p := by positivity
      have hdW : d < W := by
        have : d ≤ d * p := Nat.le_mul_of_pos_right d (by omega)
        omega
      have hp2 : 2 ≤ p := by omega
      have hdm := Nat.div_add_mod (u - 1) (d * p)
      have hmod := Nat.mod_lt (u - 1) hps0
      have hpl := pl_add d p hd
      have c1 : wmul d p = d * p := wmul_eq (by omega)
      have c2 : wsub u 1 = u - 1 := wsub_eq (by omega) (by omega)
      have c3 : wadd ((u - 1) % (d * p)) 1 = (u - 1) % (d * p) + 1 :=
        wadd_eq (by omega)
      have hdpd : d * p / d = p := Nat.mul_div_cancel_left p (by omega)
      rw [c1, c2, c3, hdpd]
      by_cases hf : (u - 1) % (d * p) + 1 < p
      · simp only [hf, if_true]
        have f1 : wsub d 1 = d - 1 := wsub_eq hd hdW
        -- (p - 1) * (d - 1) and friends
        have hm1 : p * (d - 1) = p * d - p := Nat.mul_sub_one ..
        have hm2 : (p - 1) * (d - 1) + (d - 1) = p * (d - 1) := by
          have := Nat.sub_one_mul p (d - 1)
          have h3 : d - 1 ≤ p * (d - 1) := Nat.le_mul_of_pos_left _ (by omega)
          omega
        have hpdc : p * d = d * p := Nat.mul_comm ..
        have hvb : ((u - 1) % (d * p) + 1) * (d - 1) ≤ (p - 1) * (d - 1) :=
          Nat.mul_le_mul_right _ (by omega)
        have hv2b : ((u - 1) % (d * p) + 1) * (d - 1) ≤ SZ - 2 := by omega
        have f2 : wmul ((u - 1) % (d * p) + 1) (d - 1) =
            ((u - 1) % (d * p) + 1) * (d - 1) := wmul_eq (by omega)
        have f3 : wsub SZ 2 = SZ - 2 := wsub_eq (by omega) (by omega)
        have f4 : wsub (SZ - 2) (((u - 1) % (d * p) + 1) * (d - 1)) =
            SZ - 2 - ((u - 1) % (d * p) + 1) * (d - 1) := wsub_eq hv2b (by omega)
        rw [f1, f2, f3, f4]
        by_cases hg : SZ - 2 - ((u - 1) % (d * p) + 1) * (d - 1) < u - 1
        · rw [if_pos hg, if_pos (by omega)]
        · rw [if_neg hg, if_neg (by omega)]
          have g1 : wadd (u - 1) (((u - 1) % (d * p) + 1) * (d - 1)) =
              u - 1 + ((u - 1) % (d * p) + 1) * (d - 1) := wadd_eq (by omega)
          have g2 : wadd (u - 1 + ((u - 1) % (d * p) + 1) * (d - 1)) 2 =
              u - 1 + ((u - 1) % (d * p) + 1) * (d - 1) + 2 := wadd_eq (by omega)
          rw [g1, g2]
      · simp only [hf, if_false]
        have s1 : wsub d 1 = d - 1 := wsub_eq hd hdW
        have hplps : (d - 1) * p + 1 ≤ d * p := by omega
        have s2 : wmul (d - 1) p = (d - 1) * p := wmul_eq (by omega)
        have s3 : wadd ((d - 1) * p) 1 = (d - 1) * p + 1 := wadd_eq (by omega)
        have s4 : wadd ((u - 1) / (d * p)) 1 = (u - 1) / (d * p) + 1 :=
          wadd_eq (by
            have := Nat.div_le_self (u - 1) (d * p)
            omega)
        rw [s1, s2, s3, s4]
        -- the combined wrap expression equals the ideal value
        have hqpl : (u - 1) / (d * p) * ((d - 1) * p + 1) ≤
            (u - 1) / (d * p) * (d * p) := Nat.mul_le_mul_left _ hplps
        have hqcm : (u - 1) / (d * p) * (d * p) = d * p * ((u - 1) / (d * p)) :=
          Nat.mul_comm ..
        have hq1pl : ((u - 1) / (d * p) + 1) * ((d - 1) * p + 1) =
            (u - 1) / (d * p) * ((d - 1) * p + 1) + ((d - 1) * p + 1) := by
          rw [Nat.add_mul, Nat.one_mul]
        have s5 : wadd ((u - 1) % (d * p) + 1)
              (wsub (wmul ((u - 1) / (d * p) + 1) ((d - 1) * p + 1)) (d * p)) =
            (u - 1) % (d * p) + 1 + ((u - 1) / (d * p) + 1) * ((d - 1) * p + 1)
              - d * p :=
          waddWsubWmul _ _ _ _ (by omega) (by omega) (by omega) (by omega)
            (by omega)
        rw [s5]
        by_cases hg : (SZ - 1) / (d * p) <
            (u - 1) % (d * p) + 1 + ((u - 1) / (d * p) + 1) * ((d - 1) * p + 1)
              - d * p
        · have h2 := (Nat.div_lt_iff_lt_mul hps0).mp hg
          rw [if_pos hg, if_pos (by omega)]
        · have h2 : ¬ (SZ - 1 < ((u - 1) % (d * p) + 1 +
              ((u - 1) / (d * p) + 1) * ((d - 1) * p + 1) - d * p) * (d * p)) :=
            fun hc => hg ((Nat.div_lt_iff_lt_mul hps0).mpr hc)
          rw [if_neg hg, if_neg (by omega), wmul_eq (by omega), wadd_eq (by omega)]



/-! ## Claims C3 and C9: the index algebra contracts -/

/-- Claim C9, counterexample.  With `fanout = 2 ^ 61`, `page_chunks = 3` and
`u = 2 ^ 64 - 2` — all satisfying the source preconditions
(`page_chunks ≤ SIZE_MAX / fanout` and `u < SIZE_MAX`) — `_get_child_index`
takes its cross-page branch and there the C expression
`(u / page_size + 1) * page_leaves` exceeds `SIZE_MAX`: the multiplication
wraps modulo `2 ^ 64`, contradicting the claim that the explicit pre-checks
keep every computation from wrapping. -/
theorem childOverflow_cex :
    1 ≤ (2 ^ 61 : Nat) ∧ 2 ≤ (3 : Nat) ∧ (2 ^ 61 : Nat) * 3 ≤ SZ ∧
      (2 ^ 64 - 2 : Nat) < SZ ∧
      ¬ (((2 ^ 64 - 2 : Nat) - 1) % (2 ^ 61 * 3) + 1 < 2 ^ 61 * 3 / 2 ^ 61) ∧
      wmul (((2 ^ 64 - 2 : Nat) - 1) / (2 ^ 61 * 3) + 1) ((2 ^ 61 - 1) * 3 + 1) ≠
        (((2 ^ 64 - 2 : Nat) - 1) / (2 ^ 61 * 3) + 1) * ((2 ^ 61 - 1) * 3 + 1) := by
  refine ⟨by norm_num, by norm_num, by norm_num [SZ, W], by norm_num [SZ, W],
    by norm_num, ?_⟩
  norm_num [wmul, W]


/-- Claim C9, amended.  For `p = 1` the child index is `u·d + 1`, saturated to
`SIZE_MAX` exactly when `u > (SIZE_MAX - 1) / d`; for every shape the faithful
computation returns the ideal first-child index `childI`, saturated to
`SIZE_MAX` exactly when that index exceeds `SIZE_MAX` — even though one
intermediate product of the cross-page branch may wrap modulo `2 ^ 64`
(`childOverflow_cex`), the final result is unaffected. -/
theorem childOverflow_saturates (d p u : Nat) (hd : 1 ≤ d) (hp : 1 ≤ p)
    (hdp : d * p ≤ SZ) (hu : u < SZ) :
    (p = 1 → getChildIndex d p u =
      if (SZ - 1) / d < u then SZ else u * d + 1) ∧
    getChildIndex d p u = if SZ < childI d p u then SZ else childI d p u := by
  refine ⟨?_, getChildIndex_eq d p u hd hp hdp hu⟩
  intro hp1
  subst hp1
  rw [getChildIndex_eq d 1 u hd (by omega) hdp hu, childI_p1]
  by_cases hg : (SZ - 1) / d < u
  · have h2 : SZ - 1 < u * d := (Nat.div_lt_iff_lt_mul (by omega)).mp hg
    rw [if_pos (by omega), if_pos hg]
  · have h2 : ¬ (SZ - 1 < u * d) := fun hc =>
      hg ((Nat.div_lt_iff_lt_mul (by omega)).mpr hc)
    rw [if_neg (by omega), if_neg hg]

theorem childOverflow_saturates_witness :
    1 ≤ (2 : Nat) ∧ 1 ≤ (1 : Nat) ∧ (2 : Nat) * 1 ≤ SZ ∧ (10 : Nat) < SZ ∧
      ((1 = 1 → getChildIndex 2 1 10 =
        if (SZ - 1) / 2 < 10 then SZ else 10 * 2 + 1) ∧
       getChildIndex 2 1 10 = if SZ < childI 2 1 10 then SZ else childI 2 1 10) :=
  ⟨by norm_num, by norm_num, by decide, by decide,
    childOverflow_saturates 2 1 10 (by norm_num) (by norm_num) (by decide)
      (by decide)⟩

/-- Claim C3, counterexample.  With `d = 6`, `p = 1`, `u = 3074457345618258602`
and `k = 4` the source preconditions hold and `child(u) = SIZE_MAX - 2 ≠
SIZE_MAX`, yet `child(u) + k` overflows `size_t`, and `_get_parent_index`
applied to the wrapped sum returns `0`, not `u`: the claimed inverse law fails
without the extra condition `child(u) + k ≤ SIZE_MAX`. -/
theorem parentChild_cex :
    1 ≤ (6 : Nat) ∧ 1 ≤ (1 : Nat) ∧ (6 : Nat) * 1 ≤ SZ ∧
      1 ≤ (3074457345618258602 : Nat) ∧ (3074457345618258602 : Nat) < SZ ∧
      (4 : Nat) < 6 ∧
      getChildIndex 6 1 3074457345618258602 ≠ SZ ∧
      getParentIndex 6 1 ((getChildIndex 6 1 3074457345618258602 + 4) % W) ≠
        3074457345618258602 := by
  refine ⟨by norm_num, by norm_num, by decide, by norm_num, by decide,
    by norm_num, ?_, ?_⟩ <;> decide

/-- Claim C3, amended.  Under the source preconditions: (1) whenever
`child(u) ≠ SIZE_MAX` **and the sibling index `child(u) + k` itself fits
`size_t`**, `parent(child(u) + k) = u` for every `k < d`; (2) for every
`u > 0`, if `child(parent(u))` is not saturated then
`child(parent(u)) ≤ u < child(parent(u)) + d`. -/
theorem parentChild_inverse (d p u : Nat) (hd : 1 ≤ d) (hp : 1 ≤ p)
    (hdp : d * p ≤ SZ) (hu : 1 ≤ u) (huS : u < SZ) :
    (∀ k, k < d → getChildIndex d p u ≠ SZ → getChildIndex d p u + k ≤ SZ →
      getParentIndex d p (getChildIndex d p u + k) = u) ∧
    (getChildIndex d p (getParentIndex d p u) ≠ SZ →
      getChildIndex d p (getParentIndex d p u) ≤ u ∧
      u < getChildIndex d p (getParentIndex d p u) + d) := by
  have hWZ : SZ < W := by decide
  constructor
  · intro k hk hne hle
    have hc := getChildIndex_eq d p u hd hp hdp (by omega)
    have hcval : getChildIndex d p u = childI d p u := by
      rcases Nat.lt_or_ge SZ (childI d p u) with h1 | h1
      · rw [hc, if_pos h1] at hne; exact absurd rfl hne
      · rw [hc, if_neg (by omega)]
    rw [hcval] at hle ⊢
    have hc1 : 1 ≤ childI d p u + k := by
      have := childI_gt d p u hd hp
      omega
    rw [getParentIndex_eq d p (childI d p u + k) hd hp hdp hc1 (by omega)]
    exact parentI_childI d p u k hd hp hk
  · intro hne
    have hpar := getParentIndex_eq d p u hd hp hdp hu (by omega)
    have hplt : parentI d p u < u := parentI_lt d p u hd hp hu
    have hsand := childI_parentI d p u hd hp hu
    have hc := getChildIndex_eq d p (getParentIndex d p u) hd hp hdp
      (by omega)
    have hcval : getChildIndex d p (getParentIndex d p u) =
        childI d p (parentI d p u) := by
      rw [hc, hpar, if_neg (by omega)]
    rw [hcval]
    exact hsand

theorem parentChild_inverse_witness :
    1 ≤ (2 : Nat) ∧ 1 ≤ (2 : Nat) ∧ (2 : Nat) * 2 ≤ SZ ∧ 1 ≤ (5 : Nat) ∧
      (5 : Nat) < SZ ∧
      ((∀ k, k < 2 → getChildIndex 2 2 5 ≠ SZ → getChildIndex 2 2 5 + k ≤ SZ →
        getParentIndex 2 2 (getChildIndex 2 2 5 + k) = 5) ∧
       (getChildIndex 2 2 (getParentIndex 2 2 5) ≠ SZ →
        getChildIndex 2 2 (getParentIndex 2 2 5) ≤ 5 ∧
        5 < getChildIndex 2 2 (getParentIndex 2 2 5) + 2)) :=
  ⟨by norm_num, by norm_num, by decide, by norm_num, by decide,
    parentChild_inverse 2 2 5 (by norm_num) (by norm_num) (by decide) (by norm_num)
      (by decide)⟩



/-! ## Buffers, comparators, heap predicates

A buffer is a `List α`; `lget` is the read `base[i]` and `List.set` is the
element mover's relocation `base[i] ← v`.  The comparator is an arbitrary
`lt : α → α → Bool`; `IsSWO` packages the strict-weak-order laws assumed by
the specification. -/

/-- Read of `base[index]`. -/
def lget {α : Type} [Inhabited α] (a : List α) (i : Nat) : α := a.getD i default

/-- Strict weak order laws for a Boolean comparator: irreflexivity,
transitivity, and transitivity of the derived `is not below` relation. -/
structure IsSWO {α : Type} (lt : α → α → Bool) : Prop where
  irrefl : ∀ x, lt x x = false
  lt_trans : ∀ x y z, lt x y = true → lt y z = true → lt x z = true
  nlt_trans : ∀ x y z, lt x y = false → lt y z = false → lt x z = false

theorem IsSWO.asymm {α : Type} {lt : α → α → Bool} (h : IsSWO lt) (x y : α)
    (hxy : lt x y = true) : lt y x = false := by
  by_contra hc
  have h2 : lt y x = true := by
    cases hyx : lt y x
    · exact absurd hyx hc
    · rfl
  have := h.lt_trans x y x hxy h2
  rw [h.irrefl x] at this
  exact Bool.false_ne_true this

/-- Heap-order along one edge: the parent of `w` is not below `w`. -/
def edgeOK {α : Type} [Inhabited α] (par : Nat → Nat) (lt : α → α → Bool)
    (a : List α) (w : Nat) : Prop :=
  lt (lget a (par w)) (lget a w) = false

/-- The heap invariant on `a[0..n)` for the tree structure `par`. -/
def IsHeap {α : Type} [Inhabited α] (par : Nat → Nat) (lt : α → α → Bool)
    (a : List α) (n : Nat) : Prop :=
  ∀ w, 1 ≤ w → w < n → edgeOK par lt a w

/-- Partial heap invariant: every edge whose parent is at least `h` is in
order. -/
def HeapFrom {α : Type} [Inhabited α] (par : Nat → Nat) (lt : α → α → Bool)
    (a : List α) (n h : Nat) : Prop :=
  ∀ w, 1 ≤ w → w < n → h ≤ par w → edgeOK par lt a w

theorem isHeap_iff_heapFrom {α : Type} [Inhabited α] (par : Nat → Nat)
    (lt : α → α → Bool) (a : List α) (n : Nat) :
    IsHeap par lt a n ↔ HeapFrom par lt a n 0 := by
  constructor
  · intro h w h1 h2 _
    exact h w h1 h2
  · intro h w h1 h2
    exact h w h1 h2 (Nat.zero_le _)

/-- In a heap the root is not below any element (strong induction along the
parent chain). -/
theorem IsHeap.root_max {α : Type} [Inhabited α] {par : Nat → Nat}
    {lt : α → α → Bool} {a : List α} {n : Nat}
    (hpar : ∀ u, 1 ≤ u → par u < u) (hswo : IsSWO lt)
    (hh : IsHeap par lt a n) :
    ∀ w, w < n → lt (lget a 0) (lget a w) = false := by
  intro w
  induction w using Nat.strong_induction_on with
  | _ w ih =>
    intro hw
    rcases Nat.eq_zero_or_pos w with h0 | h1
    · subst h0; exact hswo.irrefl _
    · have hp := hpar w h1
      have he := hh w h1 hw
      have hroot := ih (par w) hp (by omega)
      exact hswo.nlt_trans _ _ _ hroot he

/-! ## The `gheap_c.c` heap operations -/

/-- Embedding of `_move_up_max_child`'s scan (`gheap_c.c`): offset of the
running maximum after scanning children offsets `0 .. cnt - 1`; an examined
child that is not less than the running maximum replaces it. -/
def scanMax {α : Type} [Inhabited α] (lt : α → α → Bool) (a : List α)
    (ci : Nat) : Nat → Nat
  | 0 => 0
  | Nat.succ m =>
    if m = 0 then 0
    else
      let j := scanMax lt a ci m
      if lt (lget a (ci + m)) (lget a (ci + j)) = false then m else j

/-- Embedding of `_move_up_max_child` (`gheap_c.c`): moves the maximum child
of the chunk `[child_index, child_index + children_count)` into the hole and
returns the updated buffer together with the new hole. -/
def moveUpMaxChild {α : Type} [Inhabited α] (lt : α → α → Bool) (a : List α)
    (cnt hole ci : Nat) : List α × Nat :=
  let j := scanMax lt a ci cnt
  (a.set hole (lget a (ci + j)), ci + j)

/-- Embedding of `_sift_up` (`gheap_c.c`).  The loop is driven by a fuel
argument; `parentI u < u` guarantees that fuel `hole` never runs out under
the source preconditions. -/
def siftUpC {α : Type} [Inhabited α] (d p : Nat) (lt : α → α → Bool)
    (root : Nat) (x : α) : Nat → Nat → List α → List α
  | 0, hole, a => a.set hole x
  | Nat.succ fuel, hole, a =>
    if root < hole then
      let par := getParentIndex d p hole
      if lt (lget a par) x then
        siftUpC d p lt root x fuel par (a.set hole (lget a par))
      else a.set hole x
    else a.set hole x

/-- Embedding of the descent loop of `_sift_down` (`gheap_c.c`): returns the
buffer after all max-child moves together with the final hole. -/
def siftDownLoopC {α : Type} [Inhabited α] (d p : Nat) (lt : α → α → Bool)
    (n rem : Nat) : Nat → Nat → List α → List α × Nat
  | 0, hole, a => (a, hole)
  | Nat.succ fuel, hole, a =>
    let ci := getChildIndex d p hole
    if n - rem ≤ ci then
      if ci < n then moveUpMaxChild lt a rem hole ci
      else (a, hole)
    else
      let s := moveUpMaxChild lt a d hole ci
      siftDownLoopC d p lt n rem fuel s.2 s.1

/-- Embedding of `_sift_down` (`gheap_c.c`): max-child descent to a leaf
followed by the terminal sift-up of the original item from the reached leaf
back towards the original hole. -/
def siftDownC {α : Type} [Inhabited α] (d p : Nat) (lt : α → α → Bool)
    (a : List α) (n hole : Nat) (x : α) : List α :=
  let rem := (n - 1) % d
  let s := siftDownLoopC d p lt n rem n hole a
  siftUpC d p lt hole x s.2 s.2 s.1

/-- Embedding of `_pop_heap` (`gheap_c.c`): moves the maximum into
`base[heap_size - 1]` and re-sifts the former last item from the root. -/
def popHeapC {α : Type} [Inhabited α] (d p : Nat) (lt : α → α → Bool)
    (a : List α) (n : Nat) : List α :=
  let tmp := lget a (n - 1)
  let a1 := a.set (n - 1) (lget a 0)
  siftDownC d p lt a1 (n - 1) 0 tmp

/-- Embedding of the loop of `gheap_sort_heap` (`gheap_c.c`): pops with
shrinking window sizes `i, i - 1, …, 2`. -/
def sortHeapAuxC {α : Type} [Inhabited α] (d p : Nat) (lt : α → α → Bool) :
    Nat → List α → List α
  | 0, a => a
  | 1, a => a
  | Nat.succ (Nat.succ m), a =>
    sortHeapAuxC d p lt (Nat.succ m) (popHeapC d p lt a (m + 2))

/-- Embedding of `gheap_sort_heap` (`gheap_c.c`). -/
def sortHeapC {α : Type} [Inhabited α] (d p : Nat) (lt : α → α → Bool)
    (a : List α) (n : Nat) : List α :=
  sortHeapAuxC d p lt n a

/-- Embedding of the loop of `gheap_make_heap` (`gheap_c.c`): sift-down at
indices `i, i - 1, …, 0`. -/
def makeHeapAuxC {α : Type} [Inhabited α] (d p : Nat) (lt : α → α → Bool)
    (n : Nat) : Nat → List α → List α
  | 0, a => siftDownC d p lt a n 0 (lget a 0)
  | Nat.succ i, a => makeHeapAuxC d p lt n i (siftDownC d p lt a n (i + 1) (lget a (i + 1)))

/-- Embedding of `gheap_make_heap` (`gheap_c.c`): the start index skips the
childless tail for `page_chunks = 1` and is `heap_size - 2` otherwise. -/
def makeHeapC {α : Type} [Inhabited α] (d p : Nat) (lt : α → α → Bool)
    (a : List α) (n : Nat) : List α :=
  if 1 < n then
    makeHeapAuxC d p lt n (if p = 1 then (n - 2) / d else n - 2) a
  else a

/-- Embedding of `galgorithm_heapsort` composed from the `gheap_c.c`
primitives: `gheap_make_heap` followed by `gheap_sort_heap`. -/
def heapsortC {α : Type} [Inhabited α] (d p : Nat) (lt : α → α → Bool)
    (a : List α) (n : Nat) : List α :=
  sortHeapC d p lt (makeHeapC d p lt a n) n

/-- Embedding of the scan of `gheap_is_heap_until` (`gheap_c.c`). -/
def isHeapUntilAuxC {α : Type} [Inhabited α] (d p : Nat) (lt : α → α → Bool)
    (a : List α) : Nat → Nat → Nat
  | 0, u => u
  | Nat.succ fuel, u =>
    if lt (lget a (getParentIndex d p u)) (lget a u) then u
    else isHeapUntilAuxC d p lt a fuel (u + 1)

/-- Embedding of `gheap_is_heap_until` (`gheap_c.c`): index of the first
heap-order violation, or `heap_size` if there is none. -/
def isHeapUntilC {α : Type} [Inhabited α] (d p : Nat) (lt : α → α → Bool)
    (a : List α) (n : Nat) : Nat :=
  if n = 0 then 0 else isHeapUntilAuxC d p lt a (n - 1) 1

/-- Embedding of `gheap_is_heap` (`gheap_c.c`). -/
def isHeapC {α : Type} [Inhabited α] (d p : Nat) (lt : α → α → Bool)
    (a : List α) (n : Nat) : Bool :=
  isHeapUntilC d p lt a n == n

/-- Embedding of `gheap_remove_from_heap` (`gheap_c.c`). -/
def removeFromHeapC {α : Type} [Inhabited α] (d p : Nat) (lt : α → α → Bool)
    (a : List α) (n i : Nat) : List α :=
  let nn := n - 1
  if i < nn then
    let tmp := lget a nn
    let a1 := a.set nn (lget a i)
    if lt tmp (lget a1 nn) then siftDownC d p lt a1 nn i tmp
    else siftUpC d p lt 0 tmp i i a1
  else a



/-! ## List helper lemmas -/

theorem lget_set_ne {α : Type} [Inhabited α] (l : List α) (i j : Nat) (v : α)
    (h : i ≠ j) : lget (l.set i v) j = lget l j := by
  simp [lget, List.getD, List.getElem?_set_ne h]

theorem lget_set_self {α : Type} [Inhabited α] (l : List α) (i : Nat) (v : α)
    (h : i < l.length) : lget (l.set i v) i = v := by
  simp [lget, List.getD, List.getElem?_set_self, h]

theorem lget_eq_getElem {α : Type} [Inhabited α] (l : List α) (i : Nat)
    (h : i < l.length) : lget l i = l[i] := by
  simp [lget, List.getD, List.getElem?_eq_getElem h]

theorem set_lget_self {α : Type} [Inhabited α] (l : List α) (i : Nat) :
    l.set i (lget l i) = l := by
  rcases Nat.lt_or_ge i l.length with h | h
  · apply List.ext_getElem
    · simp
    · intro k hk1 hk2
      rcases eq_or_ne i k with rfl | hne
      · rw [List.getElem_set_self, lget_eq_getElem _ _ hk2]
      · rw [List.getElem_set_ne hne]
  · exact List.set_eq_of_length_le h

/-- The move pattern of the heap code is a permutation: copying `l[j]` into
slot `i` and then overwriting slot `j` permutes like overwriting slot `i`. -/
theorem set_move_perm {α : Type} [Inhabited α] (l : List α) (i j : Nat) (x : α)
    (hij : i ≠ j) (hi : i < l.length) (hj : j < l.length) :
    List.Perm ((l.set i (lget l j)).set j x) (l.set i x) := by
  classical
  rw [List.perm_iff_count]
  intro y
  have hj2 : j < (l.set i (lget l j)).length := by simpa using hj
  rw [List.count_set _ _ _ _ hj2, List.count_set _ _ _ _ hi,
    List.count_set _ _ _ _ hi]
  have h1 : (l.set i (lget l j))[j] = l[j] := List.getElem_set_ne hij _
  have h2 : lget l j = l[j] := lget_eq_getElem l j hj
  rw [h1, h2]
  have hcount := List.count_le_length (l := l) (a := y)
  by_cases e1 : (l[i] == y) = true <;> by_cases e2 : (l[j] == y) = true <;>
    by_cases e3 : (x == y) = true <;>
    simp only [e1, e2, e3, if_true, if_false] <;> omega

/-- Swapping the contents of two slots is a permutation. -/
theorem swap_perm {α : Type} [Inhabited α] (l : List α) (i j : Nat)
    (hij : i ≠ j) (hi : i < l.length) (hj : j < l.length) :
    List.Perm ((l.set i (lget l j)).set j (lget l i)) l := by
  have := set_move_perm l i j (lget l i) hij hi hj
  rwa [set_lget_self] at this



/-! ## The descent-chain view of sift-down

Both sift-down implementations move the maximum child into the hole along a
chain of holes down to a leaf and then sift the original item back up along
the same chain.  A chain is a function `cg : Nat → Nat` together with its
last index `m`; `shiftUpTo a cg j` is the buffer after the first `j` descent
moves. -/

/-- Buffer after the first `j` descent moves: chain position `cg k` receives
the value at `cg (k + 1)` for every `k < j`. -/
def shiftUpTo {α : Type} [Inhabited α] (a : List α) (cg : Nat → Nat) :
    Nat → List α
  | 0 => a
  | Nat.succ j => (shiftUpTo a cg j).set (cg j) (lget a (cg (j + 1)))

/-- Hole chain of a max-child descent for the tree structure `par`:
`cg (j + 1)` is an in-range child of `cg j` for `j < m`. -/
structure Chain (par : Nat → Nat) (n m : Nat) (cg : Nat → Nat) : Prop where
  head_lt : cg 0 < n
  pos : ∀ j, j < m → 1 ≤ cg (j + 1)
  lt_n : ∀ j, j < m → cg (j + 1) < n
  par_eq : ∀ j, j < m → par (cg (j + 1)) = cg j

/-- Selection data of the descent: each chain step picks a maximal in-range
child, and the last chain position has no in-range children. -/
structure ChainMax {α : Type} [Inhabited α] (par : Nat → Nat)
    (lt : α → α → Bool) (a : List α) (n m : Nat) (cg : Nat → Nat)
    extends Chain par n m cg : Prop where
  maxsel : ∀ j, j < m → ∀ w, 1 ≤ w → w < n → par w = cg j →
    lt (lget a (cg (j + 1))) (lget a w) = false
  terminal : ∀ w, 1 ≤ w → w < n → par w ≠ cg m

/-- Insertion point of the sifted item along the chain: every chain value
strictly below the point is smaller than the item, and the value at the
point (if not the chain head) is not. -/
structure InsAt {α : Type} [Inhabited α] (lt : α → α → Bool) (a : List α)
    (x : α) (m : Nat) (cg : Nat → Nat) (t : Nat) : Prop where
  le : t ≤ m
  above : ∀ k, t < k → k ≤ m → lt (lget a (cg k)) x = true
  at_t : t = 0 ∨ lt (lget a (cg t)) x = false

/-- Final buffer of a sift-down: descent shifts up to the insertion point,
then the item is written there. -/
def chainResult {α : Type} [Inhabited α] (a : List α) (x : α) (cg : Nat → Nat)
    (t : Nat) : List α :=
  (shiftUpTo a cg t).set (cg t) x

theorem Chain.mono {par : Nat → Nat} {n m : Nat} {cg : Nat → Nat}
    (hc : Chain par n m cg) (hpar : ∀ u, 1 ≤ u → par u < u) :
    ∀ j k, j < k → k ≤ m → cg j < cg k := by
  intro j k hjk hkm
  induction k with
  | zero => omega
  | succ k2 ih =>
    have hstep : cg k2 < cg (k2 + 1) := by
      have h1 := hc.par_eq k2 (by omega)
      have h2 := hpar (cg (k2 + 1)) (hc.pos k2 (by omega))
      omega
    rcases Nat.lt_or_ge j k2 with h | h
    · exact Nat.lt_trans (ih h (by omega)) hstep
    · have : j = k2 := by omega
      subst this
      exact hstep

theorem shiftUpTo_length {α : Type} [Inhabited α] (a : List α) (cg : Nat → Nat)
    (j : Nat) : (shiftUpTo a cg j).length = a.length := by
  induction j with
  | zero => rfl
  | succ j2 ih => simp only [shiftUpTo, List.length_set]; exact ih

/-- Positions other than the first `j` chain positions are untouched by the
descent. -/
theorem shiftUpTo_off {α : Type} [Inhabited α] (a : List α) (cg : Nat → Nat)
    (j : Nat) (w : Nat) (hw : ∀ k, k < j → w ≠ cg k) :
    lget (shiftUpTo a cg j) w = lget a w := by
  induction j with
  | zero => rfl
  | succ j2 ih =>
    simp only [shiftUpTo]
    rw [lget_set_ne _ _ _ _ (fun h => hw j2 (by omega) h.symm)]
    exact ih (fun k hk => hw k (by omega))

/-- Value of the descent buffer at a shifted chain position. -/
theorem shiftUpTo_get {α : Type} [Inhabited α] (a : List α) (cg : Nat → Nat)
    (j k : Nat) (hk : k < j) (hinj : ∀ k2 k3, k2 < k3 → k3 ≤ j → cg k2 ≠ cg k3)
    (hlen : cg k < a.length) :
    lget (shiftUpTo a cg j) (cg k) = lget a (cg (k + 1)) := by
  induction j with
  | zero => omega
  | succ j2 ih =>
    simp only [shiftUpTo]
    rcases Nat.lt_or_ge k j2 with h | h
    · rw [lget_set_ne _ _ _ _ (fun h2 => hinj k j2 h (by omega) h2.symm)]
      exact ih h (fun k2 k3 ha hb => hinj k2 k3 ha (by omega))
    · have : k = j2 := by omega
      subst this
      rw [lget_set_self]
      rw [shiftUpTo_length]
      exact hlen



theorem chainResult_length {α : Type} [Inhabited α] (a : List α) (x : α)
    (cg : Nat → Nat) (t : Nat) :
    (chainResult a x cg t).length = a.length := by
  unfold chainResult
  rw [List.length_set, shiftUpTo_length]

theorem chainResult_off {α : Type} [Inhabited α] {a : List α} {x : α}
    {cg : Nat → Nat} {t : Nat} {w : Nat} (hw : ∀ k, k ≤ t → w ≠ cg k) :
    lget (chainResult a x cg t) w = lget a w := by
  unfold chainResult
  rw [lget_set_ne _ _ _ _ (fun h => hw t (Nat.le_refl t) h.symm)]
  exact shiftUpTo_off a cg t w (fun k hk => hw k (by omega))

theorem chainResult_get {α : Type} [Inhabited α] {a : List α} {x : α}
    {cg : Nat → Nat} {t : Nat} {k : Nat} (hk : k < t)
    (hinj : ∀ k2 k3, k2 < k3 → k3 ≤ t → cg k2 ≠ cg k3)
    (hlen : cg k < a.length) :
    lget (chainResult a x cg t) (cg k) = lget a (cg (k + 1)) := by
  unfold chainResult
  rw [lget_set_ne _ _ _ _ (hinj k t hk (Nat.le_refl t)).symm]
  exact shiftUpTo_get a cg t k hk (fun k2 k3 h1 h2 => hinj k2 k3 h1 h2) hlen

theorem chainResult_at {α : Type} [Inhabited α] {a : List α} {x : α}
    {cg : Nat → Nat} {t : Nat} (hlen : cg t < a.length) :
    lget (chainResult a x cg t) (cg t) = x := by
  unfold chainResult
  rw [lget_set_self]
  rw [shiftUpTo_length]
  exact hlen

/-- Sift-down permutes the buffer like a plain write of the item into the
initial hole: the chain rotates the shifted values. -/
theorem chainResult_perm {α : Type} [Inhabited α] {par : Nat → Nat}
    {a : List α} {x : α} {n m : Nat} {cg : Nat → Nat} {t : Nat}
    (hc : Chain par n m cg) (hpar : ∀ u, 1 ≤ u → par u < u) (ht : t ≤ m)
    (hn : n ≤ a.length) :
    List.Perm (chainResult a x cg t) (a.set (cg 0) x) := by
  have hmono := hc.mono hpar
  have hlen : ∀ k, k ≤ m → cg k < a.length := by
    intro k hk
    rcases Nat.eq_zero_or_pos k with rfl | h1
    · exact Nat.lt_of_lt_of_le hc.head_lt hn
    · have := hc.lt_n (k - 1) (by omega)
      have hkk : k - 1 + 1 = k := by omega
      rw [hkk] at this
      omega
  clear hc
  induction t with
  | zero => exact List.Perm.refl _
  | succ t2 ih =>
    have hres : chainResult a x cg (t2 + 1) =
        ((shiftUpTo a cg t2).set (cg t2)
          (lget (shiftUpTo a cg t2) (cg (t2 + 1)))).set (cg (t2 + 1)) x := by
      unfold chainResult
      simp only [shiftUpTo]
      rw [shiftUpTo_off a cg t2 (cg (t2 + 1))
        (fun k hk => (Nat.ne_of_lt (hmono k (t2 + 1) (by omega) (by omega))).symm)]
    rw [hres]
    have hlt : cg t2 < cg (t2 + 1) := hmono t2 (t2 + 1) (by omega) (by omega)
    have hperm1 := set_move_perm (shiftUpTo a cg t2) (cg t2) (cg (t2 + 1)) x
      (Nat.ne_of_lt hlt)
      (by rw [shiftUpTo_length]; exact hlen t2 (by omega))
      (by rw [shiftUpTo_length]; exact hlen (t2 + 1) (by omega))
    exact hperm1.trans (ih (by omega))

/-- Main generic correctness of sift-down: if every edge whose parent lies
strictly above the initial hole is in order, then after the chain insertion
every edge whose parent lies at or above the initial hole is in order. -/
theorem chainResult_heap {α : Type} [Inhabited α] {par : Nat → Nat}
    {lt : α → α → Bool} {a : List α} {x : α} {n m : Nat} {cg : Nat → Nat}
    {t : Nat}
    (hcm : ChainMax par lt a n m cg) (hins : InsAt lt a x m cg t)
    (hpar : ∀ u, 1 ≤ u → par u < u) (hswo : IsSWO lt) (hn : n ≤ a.length)
    (pre : ∀ w, 1 ≤ w → w < n → cg 0 < par w → edgeOK par lt a w) :
    ∀ w, 1 ≤ w → w < n → cg 0 ≤ par w →
      edgeOK par lt (chainResult a x cg t) w := by
  have hc := hcm.toChain
  have hmono := hc.mono hpar
  have ht := hins.le
  have hinj : ∀ k2 k3, k2 < k3 → k3 ≤ t → cg k2 ≠ cg k3 := by
    intro k2 k3 h1 h2
    exact Nat.ne_of_lt (hmono k2 k3 h1 (by omega))
  have hinjm : ∀ k2 k3, k2 ≤ m → k3 ≤ m → cg k2 = cg k3 → k2 = k3 := by
    intro k2 k3 h2 h3 he
    rcases Nat.lt_trichotomy k2 k3 with h | h | h
    · exact absurd he (Nat.ne_of_lt (hmono k2 k3 h h3))
    · exact h
    · exact absurd he.symm (Nat.ne_of_lt (hmono k3 k2 h h2))
  have hlen : ∀ k, k ≤ m → cg k < a.length := by
    intro k hk
    rcases Nat.eq_zero_or_pos k with rfl | h1
    · exact Nat.lt_of_lt_of_le hc.head_lt hn
    · have := hc.lt_n (k - 1) (by omega)
      have hkk : k - 1 + 1 = k := by omega
      rw [hkk] at this
      omega
  have hchild : ∀ k j, 1 ≤ k → k ≤ m → j ≤ m → par (cg k) = cg j → k = j + 1 := by
    intro k j hk1 hkm hjm hpw
    have hpe := hc.par_eq (k - 1) (by omega)
    have hkk : k - 1 + 1 = k := by omega
    rw [hkk] at hpe
    have := hinjm (k - 1) j (by omega) hjm (by rw [← hpe, hpw])
    omega
  intro w hw1 hwn hwpar
  have hwne0 : w ≠ cg 0 := by
    intro h
    have h2 := hpar w hw1
    omega
  -- if w is a chain position cg k (1 ≤ k ≤ m) then par w recovers k - 1
  have hwoff : ∀ j, j ≤ m → par w = cg j → w ≠ cg (j + 1) →
      lget (chainResult a x cg t) w = lget a w := by
    intro j hjm hpj hne
    apply chainResult_off
    intro k hk he
    rcases Nat.eq_zero_or_pos k with rfl | hk1
    · exact hwne0 he
    · have := hchild k j hk1 (by omega) hjm (by rw [← he]; exact hpj)
      subst he
      rw [this] at hne
      exact hne rfl
  unfold edgeOK
  by_cases hon : ∃ j, j ≤ m ∧ cg j = par w
  · obtain ⟨j, hjm, hj⟩ := hon
    rcases Nat.lt_trichotomy j t with hjt | hjt | hjt
    · -- parent strictly below the insertion point: holds a (cg (j + 1))
      have hpv : lget (chainResult a x cg t) (par w) = lget a (cg (j + 1)) := by
        rw [← hj]
        exact chainResult_get hjt hinj (hlen j (by omega))
      rw [hpv]
      by_cases hwc : w = cg (j + 1)
      · subst hwc
        by_cases hjt3 : j + 1 < t
        · rw [chainResult_get hjt3 hinj (hlen _ (by omega))]
          have hedge := pre (cg (j + 2)) (hc.pos (j + 1) (by omega))
            (hc.lt_n (j + 1) (by omega))
            (by rw [hc.par_eq (j + 1) (by omega)]
                exact hmono 0 (j + 1) (by omega) (by omega))
          unfold edgeOK at hedge
          rwa [hc.par_eq (j + 1) (by omega)] at hedge
        · have hjt4 : j + 1 = t := by omega
          rw [hjt4, chainResult_at (hlen t (by omega))]
          rcases hins.at_t with h0 | hok
          · omega
          · rw [← hjt4] at hok ⊢
            exact hok
      · rw [hwoff j hjm hj.symm hwc]
        exact hcm.maxsel j (by omega) w hw1 hwn hj.symm
    · -- parent is the insertion point: holds x
      rw [hjt] at hj
      have hjm2 : t < m := by
        rcases Nat.lt_or_ge t m with h | h
        · exact h
        · have hEq : t = m := by omega
          rw [hEq] at hj
          exact absurd hj.symm (hcm.terminal w hw1 hwn)
      rw [← hj, chainResult_at (hlen t (by omega))]
      have habove := hins.above (t + 1) (by omega) (by omega)
      by_cases hwc2 : w = cg (t + 1)
      · subst hwc2
        rw [chainResult_off]
        · exact hswo.asymm _ _ habove
        · intro k hk he
          have := hinjm k (t + 1) (by omega) (by omega) he.symm
          omega
      · rw [hwoff t (by omega) hj.symm hwc2]
        have hmax := hcm.maxsel t (by omega) w hw1 hwn hj.symm
        by_contra hcon
        have hxw : lt x (lget a w) = true := by
          cases he : lt x (lget a w)
          · exact absurd he hcon
          · rfl
        have hT := hswo.lt_trans _ _ _ habove hxw
        rw [hmax] at hT
        exact Bool.false_ne_true hT
    · -- parent strictly above the insertion point: unchanged
      have hjm3 : j < m := by
        rcases Nat.lt_or_ge j m with h | h
        · exact h
        · have hEq : j = m := by omega
          rw [hEq] at hj
          exact absurd hj.symm (hcm.terminal w hw1 hwn)
      have hpv : lget (chainResult a x cg t) (par w) = lget a (par w) := by
        apply chainResult_off
        intro k hk he
        have := hinjm j k (by omega) (by omega) (by rw [hj, he])
        omega
      rw [hpv]
      by_cases hwc : w = cg (j + 1)
      · -- the chosen child of cg j is beyond the insertion point: unchanged
        subst hwc
        rw [chainResult_off]
        · have hedge := pre (cg (j + 1)) hw1 hwn
            (by rw [hc.par_eq j (by omega)]
                exact hmono 0 j (by omega) (by omega))
          unfold edgeOK at hedge
          exact hedge
        · intro k hk he
          have := hinjm k (j + 1) (by omega) (by omega) he.symm
          omega
      · rw [hwoff j hjm hj.symm hwc]
        apply pre w hw1 hwn
        have : cg 0 ≠ par w := by
          intro he
          have := hinjm 0 j (by omega) (by omega) (by rw [hj, ← he])
          omega
        omega
  · -- parent entirely off the chain
    push_neg at hon
    have hpv : lget (chainResult a x cg t) (par w) = lget a (par w) := by
      apply chainResult_off
      intro k hk he
      exact hon k (by omega) he.symm
    have hwv : lget (chainResult a x cg t) w = lget a w := by
      apply chainResult_off
      intro k hk he
      rcases Nat.eq_zero_or_pos k with rfl | hk1
      · exact hwne0 he
      · have hpe := hc.par_eq (k - 1) (by omega)
        have hkk : k - 1 + 1 = k := by omega
        rw [hkk] at hpe
        rw [← he] at hpe
        exact hon (k - 1) (by omega) hpe.symm
    rw [hpv, hwv]
    apply pre w hw1 hwn
    have : cg 0 ≠ par w := hon 0 (by omega)
    omega



/-! ## Chunk analysis of the `gheap_c.c` descent loop

The chunk of children examined by `_sift_down` at each hole is exactly the
set of in-range children of the hole: the chunk start is `d`-aligned
(`childI ≡ 1 (mod d)`), as is the boundary `heap_size - remaining_items`. -/

theorem nrem_eq (d n : Nat) (hd : 1 ≤ d) (hn : 1 ≤ n) :
    n - (n - 1) % d = d * ((n - 1) / d) + 1 := by
  have := Nat.div_add_mod (n - 1) d
  omega

theorem childI_align (d p u : Nat) (hd : 1 ≤ d) (hp : 1 ≤ p) :
    ∃ c, childI d p u = d * c + 1 := by
  have hm := childI_mod d p u hd hp
  have hdm := Nat.div_add_mod (childI d p u) d
  have hgt := childI_gt d p u hd hp
  rcases Nat.lt_or_ge 1 d with h | h
  · rw [Nat.mod_eq_of_lt h] at hm
    exact ⟨childI d p u / d, by omega⟩
  · have hd1 : d = 1 := by omega
    subst hd1
    exact ⟨childI 1 p u - 1, by omega⟩

/-- The faithful child computation under the loop's preconditions. -/
theorem getChildIndex_val (d p u n : Nat) (hd : 1 ≤ d) (hp : 1 ≤ p)
    (hdp : d * p ≤ SZ) (hn : n ≤ SZ) (hu : u < n)
    (hlt : getChildIndex d p u < n) : getChildIndex d p u = childI d p u := by
  have h := getChildIndex_eq d p u hd hp hdp (by omega)
  rcases Nat.lt_or_ge SZ (childI d p u) with h1 | h1
  · rw [h, if_pos h1] at hlt
    omega
  · rw [h, if_neg (by omega)]

/-- Continuing branch: the examined chunk is full and in range. -/
theorem chunk_full (d p u n : Nat) (hd : 1 ≤ d) (hp : 1 ≤ p)
    (hdp : d * p ≤ SZ) (hn : n ≤ SZ) (hn1 : 1 ≤ n) (hu : u < n)
    (hbr : getChildIndex d p u < n - (n - 1) % d) :
    getChildIndex d p u = childI d p u ∧
      childI d p u + d ≤ n - (n - 1) % d := by
  have hrem : (n - 1) % d < d := Nat.mod_lt _ (by omega)
  have hci := getChildIndex_val d p u n hd hp hdp hn hu (by omega)
  refine ⟨hci, ?_⟩
  rw [← hci]
  rw [nrem_eq d n hd hn1] at hbr ⊢
  obtain ⟨c, hc⟩ := childI_align d p u hd hp
  rw [hci] at hbr ⊢
  rw [hc] at hbr ⊢
  have : c < (n - 1) / d := by
    by_contra hcon
    have : (n - 1) / d ≤ c := by omega
    have := Nat.mul_le_mul_left d this
    omega
  have := Nat.mul_le_mul_left d (show c + 1 ≤ (n - 1) / d by omega)
  rw [Nat.mul_add, Nat.mul_one] at this
  omega

/-- Boundary branch: the examined chunk is the final partial chunk. -/
theorem chunk_partial (d p u n : Nat) (hd : 1 ≤ d) (hp : 1 ≤ p)
    (hdp : d * p ≤ SZ) (hn : n ≤ SZ) (hn1 : 1 ≤ n) (hu : u < n)
    (hbr1 : n - (n - 1) % d ≤ getChildIndex d p u)
    (hbr2 : getChildIndex d p u < n) :
    getChildIndex d p u = childI d p u ∧ childI d p u = n - (n - 1) % d ∧
      1 ≤ (n - 1) % d ∧ n ≤ childI d p u + d := by
  have hrem : (n - 1) % d < d := Nat.mod_lt _ (by omega)
  have hci := getChildIndex_val d p u n hd hp hdp hn hu hbr2
  obtain ⟨c, hc⟩ := childI_align d p u hd hp
  have hnr := nrem_eq d n hd hn1
  have hceq : c = (n - 1) / d := by
    have h1 : d * ((n - 1) / d) ≤ d * c := by
      rw [hci, hc] at hbr1
      omega
    have h2 : d * c < d * ((n - 1) / d) + d := by
      rw [hci, hc] at hbr2
      have := Nat.div_add_mod (n - 1) d
      omega
    have h3 := Nat.le_of_mul_le_mul_left h1 (show 0 < d by omega)
    have h4 : d * c < d * ((n - 1) / d + 1) := by rw [Nat.mul_add, Nat.mul_one]; omega
    have h5 := Nat.lt_of_mul_lt_mul_left h4
    omega
  refine ⟨hci, by rw [hc, hceq]; omega, ?_, ?_⟩
  · rw [hci, hc, hceq] at hbr2
    omega
  · rw [hc, hceq]
    omega

/-- Exhausted branch: the hole has no in-range children. -/
theorem chunk_none (d p u n : Nat) (hd : 1 ≤ d) (hp : 1 ≤ p)
    (hdp : d * p ≤ SZ) (hn : n ≤ SZ) (hu : u < n)
    (hbr : n ≤ getChildIndex d p u) :
    ∀ w, 1 ≤ w → w < n → parentI d p w ≠ u := by
  intro w hw1 hwn hpar
  have hiff := (parentI_eq_iff d p u w hd hp hw1).mp hpar
  have h := getChildIndex_eq d p u hd hp hdp (by omega)
  rcases Nat.lt_or_ge SZ (childI d p u) with h1 | h1
  · omega
  · rw [h, if_neg (by omega)] at hbr
    omega

/-- A node of the final partial chunk has no in-range children. -/
theorem chunk_last_leaf (d p u n : Nat) (hd : 1 ≤ d) (hp : 1 ≤ p)
    (hn1 : 1 ≤ n) (hlo : n - (n - 1) % d ≤ u) (hhi : u < n) :
    ∀ w, 1 ≤ w → w < n → parentI d p w ≠ u := by
  intro w hw1 hwn hpar
  have hrem : (n - 1) % d < d := Nat.mod_lt _ (by omega)
  have hiff := (parentI_eq_iff d p u w hd hp hw1).mp hpar
  have hgt := childI_gt d p u hd hp
  obtain ⟨c, hc⟩ := childI_align d p u hd hp
  have hnr := nrem_eq d n hd hn1
  -- childI u > u ≥ n - rem and childI u is d-aligned, so childI u ≥ n - rem + d > n
  have : d * ((n - 1) / d) + 1 ≤ d * c := by omega
  have h2 : (n - 1) / d < c := by
    by_contra hcon
    have h3 : c ≤ (n - 1) / d := by omega
    have := Nat.mul_le_mul_left d h3
    omega
  have := Nat.mul_le_mul_left d (show (n - 1) / d + 1 ≤ c by omega)
  rw [Nat.mul_add, Nat.mul_one] at this
  omega

/-- In-range children form exactly the chunk `[childI u, childI u + cnt)`. -/
theorem chunk_mem (d p u w n cnt : Nat) (hd : 1 ≤ d) (hp : 1 ≤ p)
    (hcnt : cnt ≤ d) (hchunk : childI d p u + cnt ≤ n) (hw1 : 1 ≤ w)
    (hwn : w < n) :
    (childI d p u ≤ w ∧ w < childI d p u + cnt) → parentI d p w = u := by
  intro h
  exact (parentI_eq_iff d p u w hd hp hw1).mpr ⟨h.1, by omega⟩

theorem chunk_mem_rev (d p u w n cnt : Nat) (hd : 1 ≤ d) (hp : 1 ≤ p)
    (hcnt : cnt ≤ d) (hcover : n ≤ childI d p u + cnt) (hw1 : 1 ≤ w)
    (hwn : w < n) (hpar : parentI d p w = u) :
    childI d p u ≤ w ∧ w < childI d p u + cnt := by
  have hiff := (parentI_eq_iff d p u w hd hp hw1).mp hpar
  omega



/-! ## The max-child scan of `_move_up_max_child` -/

theorem scanMax_lt {α : Type} [Inhabited α] (lt : α → α → Bool) (a : List α)
    (ci : Nat) (cnt : Nat) (h : 1 ≤ cnt) : scanMax lt a ci cnt < cnt := by
  induction cnt with
  | zero => omega
  | succ m ih =>
    unfold scanMax
    by_cases hm : m = 0
    · simp only [hm, if_true]; omega
    · simp only [hm, if_false]
      have := ih (by omega)
      split <;> omega

/-- The scan result is not below any examined child. -/
theorem scanMax_max {α : Type} [Inhabited α] {lt : α → α → Bool}
    (hswo : IsSWO lt) (a : List α) (ci : Nat) (cnt : Nat) :
    ∀ i, i < cnt →
      lt (lget a (ci + scanMax lt a ci cnt)) (lget a (ci + i)) = false := by
  induction cnt with
  | zero => omega
  | succ m ih =>
    intro i hi
    unfold scanMax
    by_cases hm : m = 0
    · simp only [hm, if_true]
      have : i = 0 := by omega
      subst this
      exact hswo.irrefl _
    · simp only [hm, if_false]
      cases hcmp : lt (lget a (ci + m)) (lget a (ci + scanMax lt a ci m)) with
      | false =>
        simp only [if_pos rfl]
        rcases Nat.lt_or_ge i m with h2 | h2
        · exact hswo.nlt_trans _ _ _ hcmp (ih i h2)
        · have : i = m := by omega
          subst this
          exact hswo.irrefl _
      | true =>
        simp only [if_neg (by simp : ¬ ((true : Bool) = false))]
        rcases Nat.lt_or_ge i m with h2 | h2
        · exact ih i h2
        · have : i = m := by omega
          subst this
          exact hswo.asymm _ _ hcmp

/-- The scan result is the largest index that no examined child strictly
exceeds. -/
theorem scanMax_largest {α : Type} [Inhabited α] {lt : α → α → Bool}
    (a : List α) (ci : Nat) (cnt : Nat) :
    ∀ j, j < cnt →
      (∀ i, i < cnt → lt (lget a (ci + j)) (lget a (ci + i)) = false) →
      j ≤ scanMax lt a ci cnt := by
  induction cnt with
  | zero => omega
  | succ m ih =>
    intro j hj hmax
    unfold scanMax
    by_cases hm : m = 0
    · simp only [hm, if_true]; omega
    · simp only [hm, if_false]
      rcases Nat.lt_or_ge j m with h2 | h2
      · have := ih j h2 (fun i hi => hmax i (by omega))
        split <;> omega
      · have hjm : j = m := by omega
        subst hjm
        rw [hmax (scanMax lt a ci j) (by have := scanMax_lt lt a ci j (by omega); omega)]
        simp


end Gheap
namespace Gheap

theorem shiftUpTo_head {α : Type} [Inhabited α] (a : List α) (cg : Nat → Nat)
    (j : Nat) (hne : ∀ k, 1 ≤ k → k ≤ j + 1 → cg 0 ≠ cg k) :
    shiftUpTo a cg (j + 1) =
      shiftUpTo (a.set (cg 0) (lget a (cg 1))) (fun k => cg (k + 1)) j := by
  induction j with
  | zero => rfl
  | succ j2 ih =>
    show (shiftUpTo a cg (j2 + 1)).set (cg (j2 + 1)) (lget a (cg (j2 + 2))) = _
    rw [ih (fun k h1 h2 => hne k h1 (by omega))]
    show _ = (shiftUpTo (a.set (cg 0) (lget a (cg 1))) (fun k => cg (k + 1)) j2).set
      (cg (j2 + 1)) (lget (a.set (cg 0) (lget a (cg 1))) (cg (j2 + 2)))
    rw [lget_set_ne a (cg 0) (cg (j2 + 2)) _ (hne (j2 + 2) (by omega) (by omega))]

/-- The descent loop of `_sift_down` (`gheap_c.c`) realizes a maximal-child
hole chain and shifts the buffer along it. -/
theorem siftDownLoopC_spec {α : Type} [Inhabited α] (d p : Nat) (hd : 1 ≤ d)
    (hp : 1 ≤ p) (hdp : d * p ≤ SZ) (lt : α → α → Bool) (hswo : IsSWO lt)
    (n : Nat) (hn : n ≤ SZ) (hn1 : 1 ≤ n) :
    ∀ fuel hole a, hole < n → n - hole ≤ fuel →
      ∃ m cg, ChainMax (parentI d p) lt a n m cg ∧ cg 0 = hole ∧
        siftDownLoopC d p lt n ((n - 1) % d) fuel hole a =
          (shiftUpTo a cg m, cg m) := by
  have hpar : ∀ u, 1 ≤ u → parentI d p u < u :=
    fun u hu => parentI_lt d p u hd hp hu
  have hrem : (n - 1) % d < d := Nat.mod_lt _ (by omega)
  intro fuel
  induction fuel with
  | zero =>
    intro hole a h1 h2
    omega
  | succ f ih =>
    intro hole a hhole hfuel
    by_cases hb1 : n - (n - 1) % d ≤ getChildIndex d p hole
    · by_cases hb2 : getChildIndex d p hole < n
      · -- final partial chunk
        obtain ⟨hci, hstart, hrem1, hcover⟩ :=
          chunk_partial d p hole n hd hp hdp hn hn1 hhole hb1 hb2
        have hchild1 : 1 ≤ childI d p hole := by
          have := childI_gt d p hole hd hp
          omega
        have hj := scanMax_lt lt a (getChildIndex d p hole) ((n - 1) % d) hrem1
        refine ⟨1, fun k => if k = 0 then hole else
          getChildIndex d p hole + scanMax lt a (getChildIndex d p hole)
            ((n - 1) % d), ⟨⟨?_, ?_, ?_, ?_⟩, ?_, ?_⟩, by simp, ?_⟩
        · simpa using hhole
        · intro j hj1
          simp only [if_neg (by omega : ¬ j + 1 = 0)]
          omega
        · intro j hj1
          simp only [if_neg (by omega : ¬ j + 1 = 0)]
          omega
        · intro j hj1
          have hj0 : j = 0 := by omega
          subst hj0
          simp only [if_neg (by omega : ¬ (0 : Nat) + 1 = 0), if_pos rfl]
          have hstep : getChildIndex d p hole +
              scanMax lt a (getChildIndex d p hole) ((n - 1) % d) =
              childI d p hole +
              scanMax lt a (getChildIndex d p hole) ((n - 1) % d) := by omega
          rw [hstep]
          exact parentI_childI d p hole _ hd hp (by omega)
        · intro j hj1 w hw1 hwn hpw
          have hj0 : j = 0 := by omega
          subst hj0
          simp only [if_pos rfl] at hpw
          simp only [if_neg (by omega : ¬ (0 : Nat) + 1 = 0)]
          have hmem := chunk_mem_rev d p hole w n ((n - 1) % d) hd hp (by omega)
            (by omega) hw1 hwn hpw
          have hwi : w = getChildIndex d p hole + (w - childI d p hole) := by
            rw [hci]; omega
          rw [hwi]
          exact scanMax_max hswo a (getChildIndex d p hole) ((n - 1) % d) _
            (by omega)
        · intro w hw1 hwn
          simp only [if_neg (by omega : ¬ (1 : Nat) = 0)]
          exact chunk_last_leaf d p _ n hd hp hn1 (by omega) (by omega) w hw1 hwn
        · show siftDownLoopC d p lt n ((n - 1) % d) (f + 1) hole a = _
          unfold siftDownLoopC
          simp only [if_pos hb1, if_pos hb2, moveUpMaxChild]
          simp only [if_neg (by omega : ¬ (1 : Nat) = 0), if_pos rfl]
          rfl
      · -- no in-range children: the descent stops here
        refine ⟨0, fun _ => hole, ⟨⟨hhole, ?_, ?_, ?_⟩, ?_, ?_⟩, rfl, ?_⟩
        · omega
        · omega
        · omega
        · omega
        · exact chunk_none d p hole n hd hp hdp hn hhole (by omega)
        · show siftDownLoopC d p lt n ((n - 1) % d) (f + 1) hole a = _
          unfold siftDownLoopC
          simp only [if_pos hb1, if_neg hb2]
          rfl
    · -- full chunk, descend further
      obtain ⟨hci, hfit⟩ := chunk_full d p hole n hd hp hdp hn hn1 hhole (by omega)
      have hchild1 : 1 ≤ childI d p hole := by
        have := childI_gt d p hole hd hp
        omega
      have hcgt : hole < childI d p hole := childI_gt d p hole hd hp
      have hj := scanMax_lt lt a (getChildIndex d p hole) d (by omega)
      set jj := scanMax lt a (getChildIndex d p hole) d with hjj
      have hh2 : getChildIndex d p hole + jj < n := by rw [hci]; omega
      have hh3 : hole < getChildIndex d p hole + jj := by rw [hci]; omega
      obtain ⟨m2, cg2, hcm2, hhead2, heq2⟩ := ih (getChildIndex d p hole + jj)
        (a.set hole (lget a (getChildIndex d p hole + jj))) hh2 (by omega)
      have hmono2 := hcm2.toChain.mono hpar
      have hcg2ge : ∀ k, k ≤ m2 → hole < cg2 k := by
        intro k hk
        rcases Nat.eq_zero_or_pos k with rfl | h1
        · rw [hhead2]; exact hh3
        · have := hmono2 0 k (by omega) hk
          rw [hhead2] at this
          omega
      refine ⟨m2 + 1, fun k => match k with
        | 0 => hole
        | Nat.succ k2 => cg2 k2, ⟨⟨hhole, ?_, ?_, ?_⟩, ?_, ?_⟩, rfl, ?_⟩
      · intro j hj1
        show 1 ≤ cg2 j
        rcases Nat.eq_zero_or_pos j with rfl | h1
        · rw [hhead2, hci]; omega
        · have h5 := hcm2.pos (j - 1) (by omega)
          have hjj2 : j - 1 + 1 = j := by omega
          rw [hjj2] at h5
          exact h5
      · intro j hj1
        show cg2 j < n
        rcases Nat.eq_zero_or_pos j with rfl | h1
        · rw [hhead2]; exact hh2
        · have := hcm2.lt_n (j - 1) (by omega)
          have hjj2 : j - 1 + 1 = j := by omega
          rw [hjj2] at this
          exact this
      · intro j hj1
        rcases Nat.eq_zero_or_pos j with rfl | h1
        · show parentI d p (cg2 0) = hole
          rw [hhead2, hci]
          exact parentI_childI d p hole jj hd hp (by omega)
        · obtain ⟨k2, rfl⟩ : ∃ k2, j = k2 + 1 := ⟨j - 1, by omega⟩
          show parentI d p (cg2 (k2 + 1)) = cg2 k2
          exact hcm2.par_eq k2 (by omega)
      · intro j hj1 w hw1 hwn hpw
        rcases Nat.eq_zero_or_pos j with rfl | h1
        · show lt (lget a (cg2 0)) (lget a w) = false
          simp only at hpw
          have hiff := (parentI_eq_iff d p hole w hd hp hw1).mp hpw
          rw [hhead2]
          have hwi : w = getChildIndex d p hole + (w - childI d p hole) := by
            rw [hci]; omega
          rw [hwi]
          exact scanMax_max hswo a (getChildIndex d p hole) d _ (by omega)
        · obtain ⟨k2, rfl⟩ : ∃ k2, j = k2 + 1 := ⟨j - 1, by omega⟩
          show lt (lget a (cg2 (k2 + 1))) (lget a w) = false
          have hms := hcm2.maxsel k2 (by omega) w hw1 hwn
          have hpw2 : parentI d p w = cg2 k2 := hpw
          have hwgt : hole < w := by
            have h2 := hpar w hw1
            have := hcg2ge k2 (by omega)
            omega
          have e1 : lget (a.set hole (lget a (getChildIndex d p hole + jj)))
              (cg2 (k2 + 1)) = lget a (cg2 (k2 + 1)) :=
            lget_set_ne _ _ _ _ (Nat.ne_of_lt (hcg2ge (k2 + 1) (by omega)))
          have e2 : lget (a.set hole (lget a (getChildIndex d p hole + jj))) w =
              lget a w := lget_set_ne _ _ _ _ (Nat.ne_of_lt hwgt)
          rw [← e1, ← e2]
          exact hms hpw2
      · intro w hw1 hwn
        show parentI d p w ≠ cg2 m2
        exact hcm2.terminal w hw1 hwn
      · show siftDownLoopC d p lt n ((n - 1) % d) (f + 1) hole a = _
        have hne2 : ∀ k, 1 ≤ k → k ≤ m2 + 1 →
            ((fun k2 => match k2 with
              | 0 => hole
              | Nat.succ k3 => cg2 k3) 0 : Nat) ≠
            (fun k2 => match k2 with
              | 0 => hole
              | Nat.succ k3 => cg2 k3) k := by
          intro k h1 h2
          rcases k with _ | k2
          · omega
          · show hole ≠ cg2 k2
            exact Nat.ne_of_lt (hcg2ge k2 (by omega))
        unfold siftDownLoopC
        simp only [if_neg (show ¬ n - (n - 1) % d ≤ getChildIndex d p hole by omega)]
        show siftDownLoopC d p lt n ((n - 1) % d) f (getChildIndex d p hole + jj)
            (a.set hole (lget a (getChildIndex d p hole + jj))) = _
        rw [heq2, shiftUpTo_head a _ m2 hne2]
        show (shiftUpTo (a.set hole (lget a (getChildIndex d p hole + jj))) cg2 m2,
            cg2 m2) =
          (shiftUpTo (a.set hole (lget a (cg2 0))) (fun k => cg2 k) m2, cg2 m2)
        rw [hhead2]

end Gheap
namespace Gheap

theorem siftUpC_succ {α : Type} [Inhabited α] (d p : Nat) (lt : α → α → Bool)
    (root : Nat) (x : α) (f hole : Nat) (a : List α) (hr : root < hole) :
    siftUpC d p lt root x (f + 1) hole a =
      if lt (lget a (getParentIndex d p hole)) x then
        siftUpC d p lt root x f (getParentIndex d p hole)
          (a.set hole (lget a (getParentIndex d p hole)))
      else a.set hole x := by
  conv => lhs; rw [siftUpC]
  rw [if_pos hr]

/-- The terminal sift-up of `_sift_down` (`gheap_c.c`) rewinds the hole chain:
starting from the chain position `cg j` on the shifted buffer, it restores the
shifted values above the insertion point and writes the item there. -/
theorem siftUpC_rewind {α : Type} [Inhabited α] (d p : Nat) (hd : 1 ≤ d)
    (hp : 1 ≤ p) (hdp : d * p ≤ SZ) (lt : α → α → Bool) (a : List α)
    (n m : Nat) (cg : Nat → Nat) (hc : Chain (parentI d p) n m cg)
    (hn : n ≤ SZ) (hlen : n ≤ a.length) (x : α) :
    ∀ j, j ≤ m → ∀ fuel, j ≤ fuel →
      ∃ t, t ≤ j ∧ (∀ k, t < k → k ≤ j → lt (lget a (cg k)) x = true) ∧
        (t = 0 ∨ lt (lget a (cg t)) x = false) ∧
        siftUpC d p lt (cg 0) x fuel (cg j) (shiftUpTo a cg (min (j + 1) m)) =
          chainResult a x cg t := by
  have hpar : ∀ u, 1 ≤ u → parentI d p u < u :=
    fun u hu => parentI_lt d p u hd hp hu
  have hmono := hc.mono hpar
  have hcg_lt_n : ∀ k, k ≤ m → cg k < n := by
    intro k hk
    rcases Nat.eq_zero_or_pos k with rfl | h1
    · exact hc.head_lt
    · have := hc.lt_n (k - 1) (by omega)
      have hkk : k - 1 + 1 = k := by omega
      rw [hkk] at this
      exact this
  intro j
  induction j with
  | zero =>
    intro _ fuel _
    refine ⟨0, Nat.le_refl 0, fun k hk1 hk2 => by omega, Or.inl rfl, ?_⟩
    have hres : siftUpC d p lt (cg 0) x fuel (cg 0)
        (shiftUpTo a cg (min 1 m)) =
        (shiftUpTo a cg (min 1 m)).set (cg 0) x := by
      cases fuel with
      | zero => rfl
      | succ f =>
        unfold siftUpC
        rw [if_neg (Nat.lt_irrefl (cg 0))]
    rw [hres]
    rcases Nat.eq_zero_or_pos m with rfl | hm1
    · rfl
    · have hmin : min 1 m = 1 := by omega
      rw [hmin]
      show ((shiftUpTo a cg 0).set (cg 0) (lget a (cg 1))).set (cg 0) x = _
      rw [List.set_set]
      rfl
  | succ j ih =>
    intro hjm fuel hfuel
    have hjm' : j ≤ m := by omega
    cases fuel with
    | zero => omega
    | succ f =>
      have hroot : cg 0 < cg (j + 1) := hmono 0 (j + 1) (by omega) hjm
      have hcgj1n : cg (j + 1) < n := hcg_lt_n (j + 1) hjm
      have hW : cg (j + 1) < W := by
        unfold SZ W at hn
        unfold W
        omega
      have hpe : getParentIndex d p (cg (j + 1)) = cg j := by
        rw [getParentIndex_eq d p (cg (j + 1)) hd hp hdp (hc.pos j (by omega))
          hW]
        exact hc.par_eq j (by omega)
      have hinj : ∀ k2 k3, k2 < k3 → k3 ≤ min (j + 2) m → cg k2 ≠ cg k3 := by
        intro k2 k3 h1 h2
        exact Nat.ne_of_lt (hmono k2 k3 h1 (by omega))
      have hread : lget (shiftUpTo a cg (min (j + 2) m)) (cg j) =
          lget a (cg (j + 1)) :=
        shiftUpTo_get a cg (min (j + 2) m) j (by omega) hinj
          (Nat.lt_of_lt_of_le (hcg_lt_n j hjm') hlen)
      have hoff : lget (shiftUpTo a cg (j + 1)) (cg (j + 1)) =
          lget a (cg (j + 1)) := by
        apply shiftUpTo_off
        intro k hk
        exact (Nat.ne_of_lt (hmono k (j + 1) hk hjm)).symm
      have hcollapse : (shiftUpTo a cg (min (j + 2) m)).set (cg (j + 1))
          (lget a (cg (j + 1))) = shiftUpTo a cg (min (j + 1) m) := by
        have hmin1 : min (j + 1) m = j + 1 := by omega
        rw [hmin1]
        rcases Nat.lt_or_ge m (j + 2) with hm | hm
        · have hmin : min (j + 2) m = j + 1 := by omega
          rw [hmin, ← hoff, set_lget_self]
        · have hmin : min (j + 2) m = j + 2 := by omega
          rw [hmin]
          show ((shiftUpTo a cg (j + 1)).set (cg (j + 1))
            (lget a (cg (j + 2)))).set (cg (j + 1)) (lget a (cg (j + 1))) = _
          rw [List.set_set, ← hoff, set_lget_self]
      rw [siftUpC_succ d p lt (cg 0) x f (cg (j + 1)) _ hroot, hpe, hread]
      by_cases hcb : lt (lget a (cg (j + 1))) x = true
      · rw [if_pos hcb, hcollapse]
        obtain ⟨t, ht1, ht2, ht3, ht4⟩ := ih hjm' f (by omega)
        refine ⟨t, by omega, ?_, ht3, ht4⟩
        intro k hk1 hk2
        rcases Nat.lt_or_ge k (j + 1) with h | h
        · exact ht2 k hk1 (by omega)
        · have : k = j + 1 := by omega
          rw [this]
          exact hcb
      · rw [if_neg hcb]
        refine ⟨j + 1, Nat.le_refl _, fun k hk1 hk2 => by omega,
          Or.inr (by simpa using hcb), ?_⟩
        unfold chainResult
        rcases Nat.lt_or_ge m (j + 2) with hm | hm
        · have hmin : min (j + 2) m = j + 1 := by omega
          rw [hmin]
        · have hmin : min (j + 2) m = j + 2 := by omega
          rw [hmin]
          show ((shiftUpTo a cg (j + 1)).set (cg (j + 1))
            (lget a (cg (j + 2)))).set (cg (j + 1)) x = _
          rw [List.set_set]

end Gheap
namespace Gheap

/-- `_sift_down` (`gheap_c.c`) realizes a maximal-child hole chain with an
insertion point: the result buffer is the chain shift with the item written at
the insertion point. -/
theorem siftDownC_spec {α : Type} [Inhabited α] (d p : Nat) (hd : 1 ≤ d)
    (hp : 1 ≤ p) (hdp : d * p ≤ SZ) (lt : α → α → Bool) (hswo : IsSWO lt)
    (a : List α) (n hole : Nat) (x : α) (hn : n ≤ SZ) (hn1 : 1 ≤ n)
    (hhole : hole < n) (hlen : n ≤ a.length) :
    ∃ m cg t, ChainMax (parentI d p) lt a n m cg ∧ cg 0 = hole ∧
      InsAt lt a x m cg t ∧
      siftDownC d p lt a n hole x = chainResult a x cg t := by
  obtain ⟨m, cg, hcm, hhead, heq⟩ :=
    siftDownLoopC_spec d p hd hp hdp lt hswo n hn hn1 n hole a hhole (by omega)
  have hpar : ∀ u, 1 ≤ u → parentI d p u < u :=
    fun u hu => parentI_lt d p u hd hp hu
  have hmono := hcm.toChain.mono hpar
  have hge : ∀ k, k ≤ m → k ≤ cg k := by
    intro k
    induction k with
    | zero => intro _; exact Nat.zero_le _
    | succ k2 ih =>
      intro hk
      have h1 := ih (by omega)
      have h2 := hmono k2 (k2 + 1) (by omega) hk
      omega
  obtain ⟨t, ht1, ht2, ht3, ht4⟩ :=
    siftUpC_rewind d p hd hp hdp lt a n m cg hcm.toChain hn hlen x m
      (Nat.le_refl m) (cg m) (hge m (Nat.le_refl m))
  refine ⟨m, cg, t, hcm, hhead, ⟨ht1, ht2, ht3⟩, ?_⟩
  have hsd : siftDownC d p lt a n hole x = siftUpC d p lt hole x
      (siftDownLoopC d p lt n ((n - 1) % d) n hole a).2
      (siftDownLoopC d p lt n ((n - 1) % d) n hole a).2
      (siftDownLoopC d p lt n ((n - 1) % d) n hole a).1 := rfl
  rw [hsd, heq]
  show siftUpC d p lt hole x (cg m) (cg m) (shiftUpTo a cg m) =
    chainResult a x cg t
  rw [← hhead]
  have hmin : min (m + 1) m = m := by omega
  rw [hmin] at ht4
  exact ht4

end Gheap
namespace Gheap

/-- `_sift_down` preserves the partial heap invariant: if all edges with
parent index above the hole are ordered, then after the sift all edges with
parent index at or above the hole are ordered. -/
theorem siftDownC_heapFrom {α : Type} [Inhabited α] (d p : Nat) (hd : 1 ≤ d)
    (hp : 1 ≤ p) (hdp : d * p ≤ SZ) (lt : α → α → Bool) (hswo : IsSWO lt)
    (a : List α) (n hole : Nat) (x : α) (hn : n ≤ SZ) (hn1 : 1 ≤ n)
    (hhole : hole < n) (hlen : n ≤ a.length)
    (pre : HeapFrom (parentI d p) lt a n (hole + 1)) :
    HeapFrom (parentI d p) lt (siftDownC d p lt a n hole x) n hole := by
  obtain ⟨m, cg, t, hcm, hhead, hins, heq⟩ :=
    siftDownC_spec d p hd hp hdp lt hswo a n hole x hn hn1 hhole hlen
  rw [heq]
  intro w h1 h2 h3
  refine chainResult_heap hcm hins
    (fun u hu => parentI_lt d p u hd hp hu) hswo hlen ?_ w h1 h2 (by omega)
  intro w2 hw1 hw2 hw3
  exact pre w2 hw1 hw2 (by omega)

/-- `_sift_down` permutes the buffer exactly like a plain write of the item
into the initial hole. -/
theorem siftDownC_perm {α : Type} [Inhabited α] (d p : Nat) (hd : 1 ≤ d)
    (hp : 1 ≤ p) (hdp : d * p ≤ SZ) (lt : α → α → Bool) (hswo : IsSWO lt)
    (a : List α) (n hole : Nat) (x : α) (hn : n ≤ SZ) (hn1 : 1 ≤ n)
    (hhole : hole < n) (hlen : n ≤ a.length) :
    List.Perm (siftDownC d p lt a n hole x) (a.set hole x) := by
  obtain ⟨m, cg, t, hcm, hhead, hins, heq⟩ :=
    siftDownC_spec d p hd hp hdp lt hswo a n hole x hn hn1 hhole hlen
  rw [heq, ← hhead]
  exact chainResult_perm hcm.toChain
    (fun u hu => parentI_lt d p u hd hp hu) hins.le hlen

/-- Positions at or beyond the heap size are untouched by `_sift_down`. -/
theorem siftDownC_frame {α : Type} [Inhabited α] (d p : Nat) (hd : 1 ≤ d)
    (hp : 1 ≤ p) (hdp : d * p ≤ SZ) (lt : α → α → Bool) (hswo : IsSWO lt)
    (a : List α) (n hole : Nat) (x : α) (hn : n ≤ SZ) (hn1 : 1 ≤ n)
    (hhole : hole < n) (hlen : n ≤ a.length) :
    ∀ w, n ≤ w → lget (siftDownC d p lt a n hole x) w = lget a w := by
  obtain ⟨m, cg, t, hcm, hhead, hins, heq⟩ :=
    siftDownC_spec d p hd hp hdp lt hswo a n hole x hn hn1 hhole hlen
  have htm := hins.le
  intro w hw
  rw [heq]
  apply chainResult_off
  intro k hk he
  have hlt : cg k < n := by
    rcases Nat.eq_zero_or_pos k with rfl | h1
    · rw [hhead]; exact hhole
    · have := hcm.toChain.lt_n (k - 1) (by omega)
      have hkk : k - 1 + 1 = k := by omega
      rw [hkk] at this
      omega
  omega

/-- Every value of the `_sift_down` result inside the heap window is either
the sifted item or one of the original values inside the window. -/
theorem siftDownC_track {α : Type} [Inhabited α] (d p : Nat) (hd : 1 ≤ d)
    (hp : 1 ≤ p) (hdp : d * p ≤ SZ) (lt : α → α → Bool) (hswo : IsSWO lt)
    (a : List α) (n hole : Nat) (x : α) (hn : n ≤ SZ) (hn1 : 1 ≤ n)
    (hhole : hole < n) (hlen : n ≤ a.length) :
    ∀ w, w < n → lget (siftDownC d p lt a n hole x) w = x ∨
      ∃ k, k < n ∧ lget (siftDownC d p lt a n hole x) w = lget a k := by
  obtain ⟨m, cg, t, hcm, hhead, hins, heq⟩ :=
    siftDownC_spec d p hd hp hdp lt hswo a n hole x hn hn1 hhole hlen
  have hpar : ∀ u, 1 ≤ u → parentI d p u < u :=
    fun u hu => parentI_lt d p u hd hp hu
  have hmono := hcm.toChain.mono hpar
  have hlt : ∀ k, k ≤ m → cg k < n := by
    intro k hk
    rcases Nat.eq_zero_or_pos k with rfl | h1
    · rw [hhead]; exact hhole
    · have := hcm.toChain.lt_n (k - 1) (by omega)
      have hkk : k - 1 + 1 = k := by omega
      rw [hkk] at this
      exact this
  have htm := hins.le
  intro w hw
  rw [heq]
  by_cases hc : ∃ k, k ≤ t ∧ w = cg k
  · obtain ⟨k, hk, rfl⟩ := hc
    rcases Nat.lt_or_ge k t with h | h
    · right
      refine ⟨cg (k + 1), hlt (k + 1) (by omega), ?_⟩
      exact chainResult_get h
        (fun k2 k3 h1 h2 => Nat.ne_of_lt (hmono k2 k3 h1 (by omega)))
        (Nat.lt_of_lt_of_le (hlt k (by omega)) hlen)
    · have hkt : k = t := by omega
      subst hkt
      left
      exact chainResult_at (Nat.lt_of_lt_of_le (hlt k (by omega)) hlen)
  · right
    refine ⟨w, hw, ?_⟩
    apply chainResult_off
    intro k hk he
    exact hc ⟨k, hk, he⟩

end Gheap
namespace Gheap

/-- Shape of the `sort_heap` loops of both implementations: pop with window
sizes `i, i - 1, ..., 2`. -/
def sortLoop {α : Type} (P : List α → Nat → List α) : Nat → List α → List α
  | 0, a => a
  | 1, a => a
  | Nat.succ (Nat.succ m), a => sortLoop P (Nat.succ m) (P a (m + 2))

/-- Generic correctness of the `sort_heap` loop: if each pop step re-heaps the
shrunk window, moves the maximum to the freed slot, and only rearranges window
values, then the loop sorts a heap non-decreasingly. -/
theorem sortLoop_sorted {α : Type} [Inhabited α] (par : Nat → Nat)
    (lt : α → α → Bool) (hswo : IsSWO lt) (hpar : ∀ u, 1 ≤ u → par u < u)
    (n0 : Nat) (P : List α → Nat → List α)
    (hP : ∀ a i, 2 ≤ i → i ≤ n0 → n0 ≤ a.length → IsHeap par lt a i →
      IsHeap par lt (P a i) (i - 1) ∧ List.Perm (P a i) a ∧
      (∀ w, i ≤ w → lget (P a i) w = lget a w) ∧
      lget (P a i) (i - 1) = lget a 0 ∧
      (∀ w, w < i - 1 → ∃ k, k < i ∧ lget (P a i) w = lget a k)) :
    ∀ i, i ≤ n0 → ∀ a : List α, n0 ≤ a.length → IsHeap par lt a i →
      (∀ w1 w2, w1 < i → i ≤ w2 → w2 < n0 →
        lt (lget a w2) (lget a w1) = false) →
      (∀ w1 w2, i ≤ w1 → w1 ≤ w2 → w2 < n0 →
        lt (lget a w2) (lget a w1) = false) →
      List.Perm (sortLoop P i a) a ∧
      (∀ w1 w2, w1 ≤ w2 → w2 < n0 →
        lt (lget (sortLoop P i a) w2) (lget (sortLoop P i a) w1) = false) ∧
      (∀ w, i ≤ w → lget (sortLoop P i a) w = lget a w) ∧
      (∀ w, w < i → ∃ k, k < i ∧ lget (sortLoop P i a) w = lget a k) := by
  intro i
  induction i using Nat.strong_induction_on with
  | _ i ih =>
    rcases i with _ | i1
    · intro _ a hla hheap hcross hsuff
      exact ⟨List.Perm.refl a,
        fun w1 w2 h1 h2 => hsuff w1 w2 (Nat.zero_le _) h1 h2,
        fun w _ => rfl, fun w hw => by omega⟩
    · rcases i1 with _ | m
      · intro _ a hla hheap hcross hsuff
        refine ⟨List.Perm.refl a, ?_, fun w _ => rfl,
          fun w hw => ⟨w, hw, rfl⟩⟩
        intro w1 w2 h1 h2
        rcases Nat.eq_zero_or_pos w1 with rfl | hw1
        · rcases Nat.eq_zero_or_pos w2 with rfl | hw2
          · exact hswo.irrefl _
          · exact hcross 0 w2 (by omega) (by omega) h2
        · exact hsuff w1 w2 hw1 h1 h2
      · intro hi a hla hheap hcross hsuff
        obtain ⟨hb_heap, hb_perm, hb_frame, hb_last, hb_track⟩ :=
          hP a (m + 2) (by omega) hi hla hheap
        have hlb : n0 ≤ (P a (m + 2)).length := by
          rw [hb_perm.length_eq]; exact hla
        have hroot := hheap.root_max hpar hswo
        have hb_last2 : lget (P a (m + 2)) (m + 1) = lget a 0 := hb_last
        have hcross2 : ∀ w1 w2, w1 < m + 1 → m + 1 ≤ w2 → w2 < n0 →
            lt (lget (P a (m + 2)) w2) (lget (P a (m + 2)) w1) = false := by
          intro w1 w2 h1 h2 h3
          obtain ⟨k, hk, he1⟩ := hb_track w1 (by omega)
          rw [he1]
          rcases Nat.lt_or_ge w2 (m + 2) with h4 | h4
          · have hw2 : w2 = m + 1 := by omega
            rw [hw2, hb_last2]
            exact hroot k hk
          · rw [hb_frame w2 h4]
            exact hcross k w2 hk (by omega) h3
        have hsuff2 : ∀ w1 w2, m + 1 ≤ w1 → w1 ≤ w2 → w2 < n0 →
            lt (lget (P a (m + 2)) w2) (lget (P a (m + 2)) w1) = false := by
          intro w1 w2 h1 h2 h3
          rcases Nat.lt_or_ge w1 (m + 2) with h4 | h4
          · have hw1 : w1 = m + 1 := by omega
            rw [hw1, hb_last2]
            rcases Nat.lt_or_ge w2 (m + 2) with h5 | h5
            · have hw2 : w2 = m + 1 := by omega
              rw [hw2, hb_last2]
              exact hswo.irrefl _
            · rw [hb_frame w2 h5]
              exact hcross 0 w2 (by omega) (by omega) h3
          · rw [hb_frame w1 h4, hb_frame w2 (by omega)]
            exact hsuff w1 w2 h4 h2 h3
        obtain ⟨hperm, hsorted, hframe, htrack⟩ :=
          ih (m + 1) (by omega) (by omega) (P a (m + 2)) hlb hb_heap hcross2
            hsuff2
        have hshow : sortLoop P (m + 2) a = sortLoop P (m + 1) (P a (m + 2)) :=
          rfl
        rw [hshow]
        refine ⟨hperm.trans hb_perm, hsorted, ?_, ?_⟩
        · intro w hw
          rw [hframe w (by omega), hb_frame w (by omega)]
        · intro w hw
          rcases Nat.lt_or_ge w (m + 1) with h | h
          · obtain ⟨k, hk, he1⟩ := htrack w h
            obtain ⟨k2, hk2, he2⟩ := hb_track k (by omega)
            exact ⟨k2, hk2, by rw [he1, he2]⟩
          · have hw1 : w = m + 1 := by omega
            refine ⟨0, by omega, ?_⟩
            rw [hw1, hframe (m + 1) (by omega), hb_last2]

end Gheap
namespace Gheap

/-- Shape of the `make_heap` loops of both implementations: sift-down at
start index `i` down to `0`. -/
def makeLoop {α : Type} (S : List α → Nat → List α) : Nat → List α → List α
  | 0, a => S a 0
  | Nat.succ i, a => makeLoop S i (S a (i + 1))

theorem makeHeapAuxC_eq_makeLoop {α : Type} [Inhabited α] (d p : Nat)
    (lt : α → α → Bool) (n : Nat) : ∀ i a,
    makeHeapAuxC d p lt n i a =
      makeLoop (fun a2 h => siftDownC d p lt a2 n h (lget a2 h)) i a := by
  intro i
  induction i with
  | zero => intro a; rfl
  | succ i2 ih =>
    intro a
    show makeHeapAuxC d p lt n i2 _ = _
    rw [ih]
    rfl

theorem sortHeapAuxC_eq_sortLoop {α : Type} [Inhabited α] (d p : Nat)
    (lt : α → α → Bool) : ∀ i (a : List α),
    sortHeapAuxC d p lt i a = sortLoop (popHeapC d p lt) i a := by
  intro i
  induction i using Nat.strong_induction_on with
  | _ i ih =>
    intro a
    rcases i with _ | i1
    · rfl
    · rcases i1 with _ | m
      · rfl
      · show sortHeapAuxC d p lt (m + 1) _ = _
        rw [ih (m + 1) (by omega)]
        rfl

/-- Generic correctness of the `make_heap` loop: if each sift-down step turns
a heap-from-`h+1` buffer into a heap-from-`h` buffer while permuting it, the
loop builds a heap. -/
theorem makeLoop_heap {α : Type} [Inhabited α] (par : Nat → Nat)
    (lt : α → α → Bool) (n : Nat) (S : List α → Nat → List α)
    (hS : ∀ a h, h < n → n ≤ a.length → HeapFrom par lt a n (h + 1) →
      HeapFrom par lt (S a h) n h ∧ List.Perm (S a h) a ∧
      (∀ w, n ≤ w → lget (S a h) w = lget a w)) :
    ∀ i (a : List α), i < n → n ≤ a.length → HeapFrom par lt a n (i + 1) →
      HeapFrom par lt (makeLoop S i a) n 0 ∧
      List.Perm (makeLoop S i a) a ∧
      (∀ w, n ≤ w → lget (makeLoop S i a) w = lget a w) := by
  intro i
  induction i with
  | zero =>
    intro a hi hla hpre
    exact hS a 0 hi hla hpre
  | succ i2 ih =>
    intro a hi hla hpre
    obtain ⟨h1, h2, h3⟩ := hS a (i2 + 1) hi hla hpre
    obtain ⟨g1, g2, g3⟩ := ih (S a (i2 + 1)) (by omega)
      (by rw [h2.length_eq]; exact hla) h1
    refine ⟨g1, g2.trans h2, ?_⟩
    intro w hw
    have hr : makeLoop S (i2 + 1) a = makeLoop S i2 (S a (i2 + 1)) := rfl
    rw [hr, g3 w hw, h3 w hw]

/-- The pop step of `gheap_sort_heap` (`gheap_c.c`): properties needed by the
generic sort loop. -/
theorem popHeapC_props {α : Type} [Inhabited α] (d p : Nat) (hd : 1 ≤ d)
    (hp : 1 ≤ p) (hdp : d * p ≤ SZ) (lt : α → α → Bool) (hswo : IsSWO lt)
    (n0 : Nat) (hn0 : n0 ≤ SZ) :
    ∀ (a : List α) i, 2 ≤ i → i ≤ n0 → n0 ≤ a.length →
      IsHeap (parentI d p) lt a i →
      IsHeap (parentI d p) lt (popHeapC d p lt a i) (i - 1) ∧
      List.Perm (popHeapC d p lt a i) a ∧
      (∀ w, i ≤ w → lget (popHeapC d p lt a i) w = lget a w) ∧
      lget (popHeapC d p lt a i) (i - 1) = lget a 0 ∧
      (∀ w, w < i - 1 → ∃ k, k < i ∧
        lget (popHeapC d p lt a i) w = lget a k) := by
  intro a i hi2 hin0 hla hheap
  have hi1 : i - 1 < a.length := by omega
  have h0 : 0 < a.length := by omega
  have hres : popHeapC d p lt a i =
      siftDownC d p lt (a.set (i - 1) (lget a 0)) (i - 1) 0
        (lget a (i - 1)) := rfl
  have hlen1 : i - 1 ≤ (a.set (i - 1) (lget a 0)).length := by
    rw [List.length_set]; omega
  have hn' : i - 1 ≤ SZ := by omega
  have hone : 1 ≤ i - 1 := by omega
  have hhole : 0 < i - 1 := by omega
  have hpre : HeapFrom (parentI d p) lt (a.set (i - 1) (lget a 0)) (i - 1)
      1 := by
    intro w h1 h2 h3
    have hpw := parentI_lt d p w hd hp h1
    unfold edgeOK
    rw [lget_set_ne _ _ _ _ (by omega), lget_set_ne _ _ _ _ (by omega)]
    exact hheap w h1 (by omega)
  refine ⟨?_, ?_, ?_, ?_, ?_⟩
  · rw [hres]
    intro w h1 h2
    exact siftDownC_heapFrom d p hd hp hdp lt hswo
      (a.set (i - 1) (lget a 0)) (i - 1) 0 (lget a (i - 1)) hn' hone
      hhole hlen1 hpre w h1 h2 (Nat.zero_le _)
  · rw [hres]
    have hperm := siftDownC_perm d p hd hp hdp lt hswo
      (a.set (i - 1) (lget a 0)) (i - 1) 0 (lget a (i - 1)) hn' hone
      hhole hlen1
    refine hperm.trans ?_
    exact swap_perm a (i - 1) 0 (by omega) hi1 h0
  · intro w hw
    rw [hres]
    rw [siftDownC_frame d p hd hp hdp lt hswo
      (a.set (i - 1) (lget a 0)) (i - 1) 0 (lget a (i - 1)) hn' hone hhole
      hlen1 w (by omega)]
    exact lget_set_ne _ _ _ _ (by omega)
  · rw [hres]
    rw [siftDownC_frame d p hd hp hdp lt hswo
      (a.set (i - 1) (lget a 0)) (i - 1) 0 (lget a (i - 1)) hn' hone hhole
      hlen1 (i - 1) (Nat.le_refl _)]
    exact lget_set_self a (i - 1) (lget a 0) hi1
  · intro w hw
    rw [hres]
    rcases siftDownC_track d p hd hp hdp lt hswo
      (a.set (i - 1) (lget a 0)) (i - 1) 0 (lget a (i - 1)) hn' hone
      hhole hlen1 w hw with h | ⟨k, hk, he⟩
    · exact ⟨i - 1, by omega, h⟩
    · refine ⟨k, by omega, ?_⟩
      rw [he]
      exact lget_set_ne _ _ _ _ (by omega)

/-- `gheap_sort_heap` (`gheap_c.c`) on a heap: sorts non-decreasingly,
permutes the buffer, leaves positions beyond the window unchanged. -/
theorem sortHeapC_correct {α : Type} [Inhabited α] (d p : Nat) (hd : 1 ≤ d)
    (hp : 1 ≤ p) (hdp : d * p ≤ SZ) (lt : α → α → Bool) (hswo : IsSWO lt)
    (a : List α) (n : Nat) (hn : n ≤ SZ) (hla : n ≤ a.length)
    (hheap : IsHeap (parentI d p) lt a n) :
    List.Perm (sortHeapC d p lt a n) a ∧
    (∀ w1 w2, w1 ≤ w2 → w2 < n →
      lt (lget (sortHeapC d p lt a n) w2)
        (lget (sortHeapC d p lt a n) w1) = false) ∧
    (∀ w, n ≤ w → lget (sortHeapC d p lt a n) w = lget a w) := by
  have hpar : ∀ u, 1 ≤ u → parentI d p u < u :=
    fun u hu => parentI_lt d p u hd hp hu
  have hP := popHeapC_props d p hd hp hdp lt hswo n hn (α := α)
  obtain ⟨h1, h2, h3, h4⟩ := sortLoop_sorted (parentI d p) lt hswo hpar n
    (popHeapC d p lt)
    (fun a2 i hi2 hin hla2 hh => hP a2 i hi2 hin hla2 hh)
    n (Nat.le_refl n) a hla hheap
    (fun w1 w2 hc1 hc2 hc3 => by omega)
    (fun w1 w2 hc1 hc2 hc3 => by omega)
  have he : sortHeapC d p lt a n = sortLoop (popHeapC d p lt) n a :=
    sortHeapAuxC_eq_sortLoop d p lt n a
  rw [he]
  exact ⟨h1, h2, h3⟩

/-- `gheap_make_heap` (`gheap_c.c`): builds a heap and permutes the buffer. -/
theorem makeHeapC_correct {α : Type} [Inhabited α] (d p : Nat) (hd : 1 ≤ d)
    (hp : 1 ≤ p) (hdp : d * p ≤ SZ) (lt : α → α → Bool) (hswo : IsSWO lt)
    (a : List α) (n : Nat) (hn : n ≤ SZ) (hla : n ≤ a.length) :
    IsHeap (parentI d p) lt (makeHeapC d p lt a n) n ∧
    List.Perm (makeHeapC d p lt a n) a ∧
    (∀ w, n ≤ w → lget (makeHeapC d p lt a n) w = lget a w) := by
  by_cases h2 : 1 < n
  · have hres : makeHeapC d p lt a n =
        makeHeapAuxC d p lt n (if p = 1 then (n - 2) / d else n - 2) a := by
      unfold makeHeapC
      rw [if_pos h2]
    set i0 := if p = 1 then (n - 2) / d else n - 2 with hi0
    have hi0n : i0 < n := by
      rcases Nat.decEq p 1 with h | h
      · rw [hi0, if_neg h]; omega
      · rw [hi0, if_pos h]
        have := Nat.div_le_self (n - 2) d
        omega
    have hS : ∀ (a2 : List α) h, h < n → n ≤ a2.length →
        HeapFrom (parentI d p) lt a2 n (h + 1) →
        HeapFrom (parentI d p) lt (siftDownC d p lt a2 n h (lget a2 h)) n h ∧
        List.Perm (siftDownC d p lt a2 n h (lget a2 h)) a2 ∧
        (∀ w, n ≤ w →
          lget (siftDownC d p lt a2 n h (lget a2 h)) w = lget a2 w) := by
      intro a2 h hh hla2 hpre
      refine ⟨siftDownC_heapFrom d p hd hp hdp lt hswo a2 n h _ hn (by omega)
        hh hla2 hpre, ?_, ?_⟩
      · have := siftDownC_perm d p hd hp hdp lt hswo a2 n h (lget a2 h) hn
          (by omega) hh hla2
        rwa [set_lget_self] at this
      · exact siftDownC_frame d p hd hp hdp lt hswo a2 n h _ hn (by omega)
          hh hla2
    have hpre0 : HeapFrom (parentI d p) lt a n (i0 + 1) := by
      intro w h1 hwn hip
      exfalso
      have hlt := parentI_lt d p w hd hp h1
      rcases Nat.decEq p 1 with h | h
      · rw [hi0, if_neg h] at hip; omega
      · subst h
        rw [hi0, if_pos rfl] at hip
        rw [parentI_p1] at hlt hip
        have : (w - 1) / d ≤ (n - 2) / d :=
          Nat.div_le_div_right (by omega)
        omega
    obtain ⟨g1, g2, g3⟩ := makeLoop_heap (parentI d p) lt n _ hS i0 a hi0n
      hla hpre0
    rw [hres, makeHeapAuxC_eq_makeLoop]
    refine ⟨?_, g2, g3⟩
    intro w hw1 hw2
    exact g1 w hw1 hw2 (Nat.zero_le _)
  · have hres : makeHeapC d p lt a n = a := by
      unfold makeHeapC
      rw [if_neg h2]
    rw [hres]
    exact ⟨fun w hw1 hw2 => by omega, List.Perm.refl a, fun w hw => rfl⟩

/-- Heapsort from the `gheap_c.c` primitives: sorted and a permutation. -/
theorem heapsortC_correct {α : Type} [Inhabited α] (d p : Nat) (hd : 1 ≤ d)
    (hp : 1 ≤ p) (hdp : d * p ≤ SZ) (lt : α → α → Bool) (hswo : IsSWO lt)
    (a : List α) (n : Nat) (hn : n ≤ SZ) (hla : n ≤ a.length) :
    List.Perm (heapsortC d p lt a n) a ∧
    (∀ w1 w2, w1 ≤ w2 → w2 < n →
      lt (lget (heapsortC d p lt a n) w2)
        (lget (heapsortC d p lt a n) w1) = false) := by
  obtain ⟨m1, m2, m3⟩ := makeHeapC_correct d p hd hp hdp lt hswo a n hn hla
  obtain ⟨s1, s2, s3⟩ := sortHeapC_correct d p hd hp hdp lt hswo
    (makeHeapC d p lt a n) n hn (by rw [m2.length_eq]; exact hla) m1
  exact ⟨s1.trans m2, s2⟩

end Gheap
namespace Gheap

theorem isHeapUntilAuxC_spec {α : Type} [Inhabited α] (d p : Nat) (hd : 1 ≤ d)
    (hp : 1 ≤ p) (hdp : d * p ≤ SZ) (lt : α → α → Bool) (a : List α)
    (n : Nat) (hn : n ≤ SZ) :
    ∀ fuel u, 1 ≤ u → u + fuel = n →
      u ≤ isHeapUntilAuxC d p lt a fuel u ∧
      isHeapUntilAuxC d p lt a fuel u ≤ n ∧
      (∀ w, u ≤ w → w < isHeapUntilAuxC d p lt a fuel u →
        edgeOK (parentI d p) lt a w) ∧
      (isHeapUntilAuxC d p lt a fuel u = n ∨
        (isHeapUntilAuxC d p lt a fuel u < n ∧
          lt (lget a (parentI d p (isHeapUntilAuxC d p lt a fuel u)))
            (lget a (isHeapUntilAuxC d p lt a fuel u)) = true)) := by
  intro fuel
  induction fuel with
  | zero =>
    intro u hu1 hun
    have h0 : isHeapUntilAuxC d p lt a 0 u = u := rfl
    rw [h0]
    exact ⟨Nat.le_refl u, by omega, fun w h1 h2 => by omega, Or.inl (by omega)⟩
  | succ f ih =>
    intro u hu1 hun
    have hWZ : u < W := by
      unfold SZ W at hn
      unfold W
      omega
    have hpe : getParentIndex d p u = parentI d p u :=
      getParentIndex_eq d p u hd hp hdp hu1 hWZ
    have hstep : isHeapUntilAuxC d p lt a (f + 1) u =
        if lt (lget a (getParentIndex d p u)) (lget a u) = true then u
        else isHeapUntilAuxC d p lt a f (u + 1) := rfl
    rw [hstep]
    by_cases hc : lt (lget a (getParentIndex d p u)) (lget a u) = true
    · rw [if_pos hc]
      refine ⟨Nat.le_refl u, by omega, fun w h1 h2 => by omega,
        Or.inr ⟨by omega, ?_⟩⟩
      rw [← hpe]
      exact hc
    · rw [if_neg hc]
      obtain ⟨g1, g2, g3, g4⟩ := ih (u + 1) (by omega) (by omega)
      refine ⟨by omega, g2, ?_, g4⟩
      intro w h1 h2
      rcases Nat.lt_or_ge w (u + 1) with h | h
      · have hw : w = u := by omega
        subst hw
        unfold edgeOK
        rw [← hpe]
        simpa using hc
      · exact g3 w h h2

/-- `gheap_is_heap_until` (`gheap_c.c`): the result is the first heap-order
violation, or the heap size when there is none. -/
theorem isHeapUntilC_spec {α : Type} [Inhabited α] (d p : Nat) (hd : 1 ≤ d)
    (hp : 1 ≤ p) (hdp : d * p ≤ SZ) (lt : α → α → Bool) (a : List α)
    (n : Nat) (hn : n ≤ SZ) :
    isHeapUntilC d p lt a n ≤ n ∧
    IsHeap (parentI d p) lt a (isHeapUntilC d p lt a n) ∧
    (isHeapUntilC d p lt a n = n ∨
      (1 ≤ isHeapUntilC d p lt a n ∧ isHeapUntilC d p lt a n < n ∧
        lt (lget a (parentI d p (isHeapUntilC d p lt a n)))
          (lget a (isHeapUntilC d p lt a n)) = true)) := by
  rcases Nat.eq_zero_or_pos n with rfl | hn1
  · have h0 : isHeapUntilC d p lt a 0 = 0 := rfl
    rw [h0]
    exact ⟨Nat.le_refl 0, fun w h1 h2 => by omega, Or.inl rfl⟩
  · have he : isHeapUntilC d p lt a n = isHeapUntilAuxC d p lt a (n - 1) 1 := by
      unfold isHeapUntilC
      rw [if_neg (by omega)]
    obtain ⟨g1, g2, g3, g4⟩ :=
      isHeapUntilAuxC_spec d p hd hp hdp lt a n hn (n - 1) 1 (Nat.le_refl 1)
        (by omega)
    rw [he]
    refine ⟨g2, fun w h1 h2 => g3 w h1 h2, ?_⟩
    rcases g4 with h | ⟨ha, hb⟩
    · exact Or.inl h
    · exact Or.inr ⟨g1, ha, hb⟩

/-- `gheap_is_heap` (`gheap_c.c`) decides the heap invariant. -/
theorem isHeapC_eq_true_iff {α : Type} [Inhabited α] (d p : Nat) (hd : 1 ≤ d)
    (hp : 1 ≤ p) (hdp : d * p ≤ SZ) (lt : α → α → Bool) (a : List α)
    (n : Nat) (hn : n ≤ SZ) :
    isHeapC d p lt a n = true ↔ IsHeap (parentI d p) lt a n := by
  obtain ⟨g1, g2, g3⟩ := isHeapUntilC_spec d p hd hp hdp lt a n hn
  have hb : isHeapC d p lt a n = true ↔ isHeapUntilC d p lt a n = n := by
    unfold isHeapC
    exact beq_iff_eq
  rw [hb]
  constructor
  · intro h
    rw [← h]
    exact g2
  · intro h
    rcases g3 with h2 | ⟨h2, h2b, h3⟩
    · exact h2
    · exfalso
      have := h (isHeapUntilC d p lt a n) h2 h2b
      unfold edgeOK at this
      rw [this] at h3
      cases h3
  
end Gheap
namespace Gheap

/-! ## The header-only implementation (`gheap.h`)

`gheap.h` never computes parent indexes through a closed formula; its loops
walk pages incrementally.  The tree structure realized by those walks is
captured by `parentH`: inside a page of `page_size = d * p` slots the first
chunk of `d` slots hangs below the page's cross-page parent `(u - 1) / page_size`,
and every further chunk hangs below a slot of the same page. -/

/-- Parent index of the tree structure realized by the `gheap.h` page walks. -/
def parentH (d p u : Nat) : Nat :=
  let ps := d * p
  let rel := (u - 1) % ps
  if d ≤ rel then u - rel + rel / d - 1 else (u - 1) / ps

/-- Embedding of `_gheap_get_max_child_index` (`gheap.h`): scans the chunk
`[fc, fc + cnt)` keeping the latest non-less child. -/
def getMaxChildIndexH {α : Type} [Inhabited α] (lt : α → α → Bool)
    (a : List α) (fc cnt : Nat) : Nat :=
  fc + scanMax lt a fc cnt

/-- Embedding of `_gheap_get_max_child_index_in_current_page` (`gheap.h`),
with `_gheap_get_max_rel_child_index` inlined. -/
def maxChildCurPageH {α : Type} [Inhabited α] (d p : Nat)
    (lt : α → α → Bool) (a : List α) (hole mc : Nat) : Nat :=
  let ps := d * p
  let b := hole - (hole - 1) % ps
  let rel := hole - b
  if rel < p - 1 then
    let tmp := getMaxChildIndexH lt a (b + (rel + 1) * d) d
    if lt (lget a mc) (lget a tmp) then tmp else mc
  else mc

/-- Embedding of `_gheap_move_up_max_rel_child` (`gheap.h`). -/
def moveUpMaxRelChildH {α : Type} [Inhabited α] (d : Nat)
    (lt : α → α → Bool) (a : List α) (b cnt rel : Nat) : List α × Nat :=
  let mc := getMaxChildIndexH lt a (b + (rel + 1) * d) cnt
  (a.set (b + rel) (lget a mc), mc - b)

/-- Intra-page climb of the main loop of `_gheap_sift_up` (`gheap.h`).
Returns the buffer, the relative hole, and whether the sift stopped on a
non-less parent. -/
def siftUpHIntra {α : Type} [Inhabited α] (d : Nat) (lt : α → α → Bool)
    (x : α) (b : Nat) : Nat → Nat → List α → List α × Nat × Bool
  | 0, rel, a => (a, rel, false)
  | Nat.succ fuel, rel, a =>
    if d ≤ rel then
      if lt (lget a (b + (rel / d - 1))) x then
        siftUpHIntra d lt x b fuel (rel / d - 1)
          (a.set (b + rel) (lget a (b + (rel / d - 1))))
      else (a, rel, true)
    else (a, rel, false)

/-- Main loop of `_gheap_sift_up` (`gheap.h`): cross-page climbs interleaved
with intra-page climbs while the hole is above `min_hole = root * page_size`. -/
def siftUpHMain {α : Type} [Inhabited α] (d p : Nat) (lt : α → α → Bool)
    (x : α) (minHole : Nat) : Nat → Nat → List α → List α × Nat × Bool
  | 0, hole, a => (a, hole, false)
  | Nat.succ fuel, hole, a =>
    if minHole < hole then
      let ps := d * p
      let pidx := (hole - 1) / ps
      let b := pidx * ps + 1
      let s :=
        if 1 < p then siftUpHIntra d lt x b (hole - b) (hole - b) a
        else (a, hole - b, false)
      if s.2.2 then (s.1, b + s.2.1, true)
      else
        if lt (lget s.1 pidx) x then
          siftUpHMain d p lt x minHole fuel pidx
            ((s.1).set (b + s.2.1) (lget s.1 pidx))
        else (s.1, b + s.2.1, true)
    else (a, hole, false)

/-- Final intra-page climb of `_gheap_sift_up` (`gheap.h`) inside the page
holding the root. -/
def siftUpHFinal {α : Type} [Inhabited α] (d : Nat) (lt : α → α → Bool)
    (x : α) (b relMin : Nat) : Nat → Nat → List α → List α × Nat
  | 0, rel, a => (a, rel)
  | Nat.succ fuel, rel, a =>
    if relMin ≤ rel then
      if lt (lget a (b + (rel / d - 1))) x then
        siftUpHFinal d lt x b relMin fuel (rel / d - 1)
          (a.set (b + rel) (lget a (b + (rel / d - 1))))
      else (a, rel)
    else (a, rel)

/-- Embedding of `_gheap_sift_up` (`gheap.h`). -/
def siftUpH {α : Type} [Inhabited α] (d p : Nat) (lt : α → α → Bool)
    (root : Nat) (x : α) (hole : Nat) (a : List α) : List α :=
  let ps := d * p
  let s := siftUpHMain d p lt x (root * ps) hole hole a
  if s.2.2 then (s.1).set s.2.1 x
  else
    if 1 < p then
      if root < s.2.1 then
        let b := s.2.1 - (s.2.1 - 1) % ps
        let t := siftUpHFinal d lt x b ((root - b + 1) * d) s.2.1 (s.2.1 - b)
          s.1
        (t.1).set (b + t.2) x
      else (s.1).set s.2.1 x
    else (s.1).set s.2.1 x

/-- Full-page descent loop of `_gheap_sift_down` (`gheap.h`): while the hole
is a full page index, move up the maximum child. -/
def siftDownHPages {α : Type} [Inhabited α] (d p : Nat) (lt : α → α → Bool)
    (fpc : Nat) : Nat → Nat → List α → List α × Nat
  | 0, hole, a => (a, hole)
  | Nat.succ fuel, hole, a =>
    if hole < fpc then
      let ps := d * p
      let mc0 := getMaxChildIndexH lt a (hole * ps + 1) d
      let mc := if 1 < p then maxChildCurPageH d p lt a hole mc0 else mc0
      siftDownHPages d p lt fpc fuel mc (a.set hole (lget a mc))
    else (a, hole)

/-- Intra-page descent of `_gheap_sift_down` (`gheap.h`) through a full last
page. -/
def siftDownHFullPage {α : Type} [Inhabited α] (d p : Nat)
    (lt : α → α → Bool) (b : Nat) : Nat → Nat → List α → List α × Nat
  | 0, rel, a => (a, rel)
  | Nat.succ fuel, rel, a =>
    if rel < p - 1 then
      let s := moveUpMaxRelChildH d lt a b d rel
      siftDownHFullPage d p lt b fuel s.2 s.1
    else (a, rel)

/-- Intra-page descent of `_gheap_sift_down` (`gheap.h`) through the full
chunks of a partial last page. -/
def siftDownHPartialChunks {α : Type} [Inhabited α] (d : Nat)
    (lt : α → α → Bool) (b fpn : Nat) : Nat → Nat → List α → List α × Nat
  | 0, rel, a => (a, rel)
  | Nat.succ fuel, rel, a =>
    if rel < fpn then
      let s := moveUpMaxRelChildH d lt a b d rel
      siftDownHPartialChunks d lt b fpn fuel s.2 s.1
    else (a, rel)

/-- Last-page step of `_gheap_sift_down` (`gheap.h`): when the hole reached
the last full page index, move up the maximum child of the partial page. -/
def lastPageStepH {α : Type} [Inhabited α] (d p : Nat) (lt : α → α → Bool)
    (n hole : Nat) (a : List α) : List α × Nat :=
  if hole = (n - 1) / (d * p) then
    let ps := d * p
    let fc := hole * ps + 1
    if fc < n then
      let cnt := n - fc
      let mc :=
        if p = 1 then getMaxChildIndexH lt a fc cnt
        else
          let m0 := if cnt < d then getMaxChildIndexH lt a fc cnt
            else getMaxChildIndexH lt a fc d
          maxChildCurPageH d p lt a hole m0
      (a.set hole (lget a mc), mc)
    else (a, hole)
  else (a, hole)

/-- Intra-page descent of `_gheap_sift_down` (`gheap.h`) through the page
holding the hole (`page_chunks > 1` only). -/
def intraDescentH {α : Type} [Inhabited α] (d p : Nat) (lt : α → α → Bool)
    (n hole : Nat) (a : List α) : List α × Nat :=
  if 1 < p then
    let ps := d * p
    let b := hole - (hole - 1) % ps
    let rel := hole - b
    let rhs := n - b
    if ps ≤ rhs then
      let t := siftDownHFullPage d p lt b ps rel a
      (t.1, b + t.2)
    else
      if d < rhs then
        let fpn := rhs / d - 1
        let t := siftDownHPartialChunks d lt b fpn ps rel a
        let t2 :=
          if t.2 = fpn ∧ (t.2 + 1) * d < rhs then
            moveUpMaxRelChildH d lt t.1 b (rhs - (t.2 + 1) * d) t.2
          else t
        (t2.1, b + t2.2)
      else (a, hole)
  else (a, hole)

/-- Embedding of `_gheap_sift_down` (`gheap.h`). -/
def siftDownH {α : Type} [Inhabited α] (d p : Nat) (lt : α → α → Bool)
    (a : List α) (n hole : Nat) (x : α) : List α :=
  if n = 1 then a.set 0 x
  else
    let s0 : List α × Nat :=
      if 1 < p ∧ hole = 0 then
        let cnt := if d < n then d else n - 1
        let mc := getMaxChildIndexH lt a 1 cnt
        (a.set 0 (lget a mc), mc)
      else (a, hole)
    let s1 := siftDownHPages d p lt ((n - 1) / (d * p)) n s0.2 s0.1
    let s2 := lastPageStepH d p lt n s1.2 s1.1
    let s3 := intraDescentH d p lt n s2.2 s2.1
    siftUpH d p lt hole x s3.2 s3.1

/-- Embedding of `gheap_swap_max_item` (`gheap.h`) acting on an external item
cell: returns the updated buffer and the updated cell. -/
def swapMaxItemH {α : Type} [Inhabited α] (d p : Nat) (lt : α → α → Bool)
    (a : List α) (n : Nat) (x : α) : List α × α :=
  (siftDownH d p lt a n 0 x, lget a 0)

/-- Embedding of `_gheap_pop_max_item` (`gheap.h`): the external cell is the
buffer slot just past the heap window. -/
def popMaxItemH {α : Type} [Inhabited α] (d p : Nat) (lt : α → α → Bool)
    (a : List α) (i : Nat) : List α :=
  siftDownH d p lt (a.set i (lget a 0)) i 0 (lget a i)

/-- Embedding of the loop of `gheap_sort_heap` (`gheap.h`). -/
def sortHeapAuxH {α : Type} [Inhabited α] (d p : Nat) (lt : α → α → Bool) :
    Nat → List α → List α
  | 0, a => a
  | 1, a => a
  | Nat.succ (Nat.succ m), a =>
    sortHeapAuxH d p lt (Nat.succ m) (popMaxItemH d p lt a (m + 1))

/-- Embedding of `gheap_sort_heap` (`gheap.h`). -/
def sortHeapH {α : Type} [Inhabited α] (d p : Nat) (lt : α → α → Bool)
    (a : List α) (n : Nat) : List α :=
  sortHeapAuxH d p lt n a

/-- Embedding of the loop of `gheap_make_heap` (`gheap.h`). -/
def makeHeapAuxH {α : Type} [Inhabited α] (d p : Nat) (lt : α → α → Bool)
    (n : Nat) : Nat → List α → List α
  | 0, a => siftDownH d p lt a n 0 (lget a 0)
  | Nat.succ i, a =>
    makeHeapAuxH d p lt n i (siftDownH d p lt a n (i + 1) (lget a (i + 1)))

/-- Embedding of `gheap_make_heap` (`gheap.h`). -/
def makeHeapH {α : Type} [Inhabited α] (d p : Nat) (lt : α → α → Bool)
    (a : List α) (n : Nat) : List α :=
  if 1 < n then
    makeHeapAuxH d p lt n (if p = 1 then (n - 2) / d else n - 2) a
  else a

/-- Embedding of `gheap_restore_heap_after_item_decrease` (`gheap.h`). -/
def restoreAfterDecreaseH {α : Type} [Inhabited α] (d p : Nat)
    (lt : α → α → Bool) (a : List α) (n i : Nat) : List α :=
  siftDownH d p lt a n i (lget a i)

/-- Embedding of `galgorithm_heapsort` (`galgorithm.h`): `gheap_make_heap`
followed by `gheap_sort_heap` over `gheap.h`. -/
def heapsortG {α : Type} [Inhabited α] (d p : Nat) (lt : α → α → Bool)
    (a : List α) (n : Nat) : List α :=
  sortHeapH d p lt (makeHeapH d p lt a n) n

/-- Scan loop of `galgorithm_partial_sort` (`galgorithm.h`): for each index
`i` in `[mid, n)`, swap the item with the heap maximum when it is smaller
than the current root. -/
def partialSortScan {α : Type} [Inhabited α] (d p : Nat)
    (lt : α → α → Bool) (mid : Nat) : Nat → Nat → List α → List α
  | 0, _, a => a
  | Nat.succ c, i, a =>
    let a2 :=
      if lt (lget a i) (lget a 0) then
        siftDownH d p lt (a.set i (lget a 0)) mid 0 (lget a i)
      else a
    partialSortScan d p lt mid c (i + 1) a2

/-- Embedding of `galgorithm_partial_sort` (`galgorithm.h`). -/
def partialSortG {α : Type} [Inhabited α] (d p : Nat) (lt : α → α → Bool)
    (a : List α) (n mid : Nat) : List α :=
  if 0 < mid then
    sortHeapH d p lt
      (partialSortScan d p lt mid (n - mid) mid (makeHeapH d p lt a mid)) mid
  else a

/-- Ascending scan for the first order violation `a[pi] < a[w]` with
`w ∈ [ci, ci + cnt)`, as performed by the checking loops of
`gheap_is_heap_until` (`gheap.h`). -/
def firstViol {α : Type} [Inhabited α] (lt : α → α → Bool) (a : List α)
    (pi : Nat) : Nat → Nat → Option Nat
  | _, 0 => none
  | ci, Nat.succ k =>
    if lt (lget a pi) (lget a ci) then some ci
    else firstViol lt a pi (ci + 1) k

/-- Intra-page checking loop of `gheap_is_heap_until` (`gheap.h`): walks the
chunks of the page based at `ci` while `rc < bound`.  Returns the violation,
if any, together with the final relative child and parent cursors. -/
def intraViol {α : Type} [Inhabited α] (d : Nat) (lt : α → α → Bool)
    (a : List α) (ci bound : Nat) : Nat → Nat → Nat → Option Nat × Nat × Nat
  | 0, rc, rp => (none, rc, rp)
  | Nat.succ fuel, rc, rp =>
    if rc < bound then
      match firstViol lt a (ci + rp) (ci + rc) d with
      | some v => (some v, rc, rp)
      | none => intraViol d lt a ci bound fuel (rc + d) (rp + 1)
    else (none, rc, rp)

/-- Full-page checking loop of `gheap_is_heap_until` (`gheap.h`). -/
def pagesViol {α : Type} [Inhabited α] (d p : Nat) (lt : α → α → Bool)
    (a : List α) (lfp : Nat) : Nat → Nat → Nat → Option Nat × Nat × Nat
  | 0, ci, pi => (none, ci, pi)
  | Nat.succ fuel, ci, pi =>
    if ci < lfp then
      match firstViol lt a pi ci d with
      | some v => (some v, ci, pi)
      | none =>
        match (if 1 < p then
            (intraViol d lt a ci (d * p) (d * p) d 0).1 else none) with
        | some v => (some v, ci, pi)
        | none => pagesViol d p lt a lfp fuel (ci + d * p) (pi + 1)
    else (none, ci, pi)

/-- Embedding of `gheap_is_heap_until` (`gheap.h`). -/
def isHeapUntilH {α : Type} [Inhabited α] (d p : Nat) (lt : α → α → Bool)
    (a : List α) (n : Nat) : Nat :=
  if n < 2 then n
  else
    let ps := d * p
    let lfp := n - (n - 1) % ps
    let s := pagesViol d p lt a lfp n 1 0
    match s.1 with
    | some v => v
    | none =>
      let ci := s.2.1
      let pi := s.2.2
      let rhs := n - ci
      if rhs < d then
        match firstViol lt a pi ci rhs with
        | some v => v
        | none => n
      else
        match firstViol lt a pi ci d with
        | some v => v
        | none =>
          if 1 < p then
            let la := rhs - rhs % d
            let t := intraViol d lt a ci la ps d 0
            match t.1 with
            | some v => v
            | none =>
              match firstViol lt a (ci + t.2.2) (ci + t.2.1)
                  (rhs - t.2.1) with
              | some v => v
              | none => n
          else n

/-- Embedding of `gheap_is_heap` (`gheap.h`). -/
def isHeapH {α : Type} [Inhabited α] (d p : Nat) (lt : α → α → Bool)
    (a : List α) (n : Nat) : Bool :=
  isHeapUntilH d p lt a n == n

end Gheap
namespace Gheap

theorem parentH_p1 (d u : Nat) (hd : 1 ≤ d) : parentH d 1 u = (u - 1) / d := by
  unfold parentH
  have h1 : d * 1 = d := by omega
  rw [h1]
  rw [if_neg (by
    have := Nat.mod_lt (u - 1) (show 0 < d by omega)
    omega)]

theorem parentH_eq_parentI_p1 (d u : Nat) (hd : 1 ≤ d) :
    parentH d 1 u = parentI d 1 u := by
  rw [parentH_p1 d u hd, parentI_p1]

theorem parentH_lt (d p u : Nat) (hd : 1 ≤ d) (hp : 1 ≤ p) (hu : 1 ≤ u) :
    parentH d p u < u := by
  show (if d ≤ (u - 1) % (d * p) then
    u - (u - 1) % (d * p) + (u - 1) % (d * p) / d - 1 else
    (u - 1) / (d * p)) < u
  have hps : 1 ≤ d * p := Nat.mul_le_mul hd hp
  have h1 : (u - 1) % (d * p) ≤ u - 1 := Nat.mod_le _ _
  have h2 : (u - 1) % (d * p) / d ≤ (u - 1) % (d * p) := Nat.div_le_self _ _
  have h3 : (u - 1) / (d * p) ≤ u - 1 := Nat.div_le_self _ _
  by_cases hc : d ≤ (u - 1) % (d * p)
  · rw [if_pos hc]
    have h4 : 1 ≤ (u - 1) % (d * p) / d := by
      rw [Nat.le_div_iff_mul_le (show 0 < d by omega)]
      omega
    omega
  · rw [if_neg hc]
    omega

/-- Cross-page children: slots `u * ps + 1 … u * ps + d` hang below `u`. -/
theorem parentH_cross (d p u w : Nat) (hd : 1 ≤ d) (hp : 1 ≤ p)
    (h1 : u * (d * p) + 1 ≤ w) (h2 : w ≤ u * (d * p) + d) :
    parentH d p w = u := by
  have hdps : d ≤ d * p := Nat.le_mul_of_pos_right d (by omega)
  have he : w - 1 = (w - 1 - u * (d * p)) + d * p * u := by
    rw [Nat.mul_comm (d * p) u]
    omega
  have hj : w - 1 - u * (d * p) < d := by omega
  have hmod : (w - 1) % (d * p) = w - 1 - u * (d * p) := by
    conv_lhs => rw [he]
    rw [Nat.add_mul_mod_self_left]
    exact Nat.mod_eq_of_lt (by omega)
  have hdiv : (w - 1) / (d * p) = u := by
    conv_lhs => rw [he]
    rw [Nat.add_mul_div_left _ _ (show 0 < d * p by omega)]
    rw [Nat.div_eq_of_lt (by omega), Nat.zero_add]
  show (if d ≤ (w - 1) % (d * p) then
    w - (w - 1) % (d * p) + (w - 1) % (d * p) / d - 1 else
    (w - 1) / (d * p)) = u
  rw [hmod, if_neg (by omega)]
  exact hdiv

/-- Intra-page children: when `u` sits in one of the first `p - 1` chunks of
its page, the `d` slots starting at `base + (rel + 1) * d` hang below `u`. -/
theorem parentH_intra (d p u w : Nat) (hd : 1 ≤ d) (hu : 1 ≤ u)
    (hrel : (u - 1) % (d * p) < p - 1)
    (h1 : u - (u - 1) % (d * p) + ((u - 1) % (d * p) + 1) * d ≤ w)
    (h2 : w < u - (u - 1) % (d * p) + ((u - 1) % (d * p) + 1) * d + d) :
    parentH d p w = u := by
  have hp2 : 2 ≤ p := by omega
  set ps := d * p with hps
  set rel := (u - 1) % ps with hrelDef
  set b := u - rel with hb
  have hrelle : rel ≤ u - 1 := Nat.mod_le _ _
  have hb1 : 1 ≤ b := by omega
  have hdm0 := Nat.div_add_mod (u - 1) ps
  set q := (u - 1) / ps with hqDef
  have hq : b - 1 = ps * q := by omega
  set i := w - (b + (rel + 1) * d) with hi
  have hilt : i < d := by omega
  have hw : w = b + (rel + 1) * d + i := by omega
  have hrelw : (rel + 1) * d + i < ps := by
    have hstep : (rel + 2) * d = (rel + 1) * d + d := by ring
    have h3 : (rel + 2) * d ≤ p * d := Nat.mul_le_mul_right d (by omega)
    have h4 : p * d = ps := by rw [hps, Nat.mul_comm]
    omega
  have hwm : (w - 1) % ps = (rel + 1) * d + i := by
    have hw1 : w - 1 = ((rel + 1) * d + i) + ps * q := by omega
    rw [hw1, Nat.add_mul_mod_self_left]
    exact Nat.mod_eq_of_lt hrelw
  have hddiv : ((rel + 1) * d + i) / d = rel + 1 := by
    rw [Nat.mul_comm (rel + 1) d, Nat.mul_add_div (by omega)]
    rw [Nat.div_eq_of_lt hilt]
  have hdle : d ≤ (rel + 1) * d :=
    Nat.le_mul_of_pos_left d (show 0 < rel + 1 by omega)
  show (if d ≤ (w - 1) % ps then
    w - (w - 1) % ps + (w - 1) % ps / d - 1 else (w - 1) / ps) = u
  rw [hwm, if_pos (by omega), hddiv]
  omega

/-- Completeness of the two child shapes: every tree edge of the `gheap.h`
structure is either a cross-page edge or an intra-page edge. -/
theorem parentH_children (d p u w : Nat) (hd : 1 ≤ d) (hp : 1 ≤ p)
    (hw : 1 ≤ w) (h : parentH d p w = u) :
    (u * (d * p) + 1 ≤ w ∧ w ≤ u * (d * p) + d) ∨
    (1 ≤ u ∧ (u - 1) % (d * p) < p - 1 ∧
      u - (u - 1) % (d * p) + ((u - 1) % (d * p) + 1) * d ≤ w ∧
      w < u - (u - 1) % (d * p) + ((u - 1) % (d * p) + 1) * d + d) := by
  set ps := d * p with hps
  have hps1 : 1 ≤ ps := Nat.mul_le_mul hd hp
  set relw := (w - 1) % ps with hrelw
  have hrelwlt : relw < ps := Nat.mod_lt _ (by omega)
  have hrelwle : relw ≤ w - 1 := Nat.mod_le _ _
  have hdm := Nat.div_add_mod (w - 1) ps
  have h' : (if d ≤ relw then w - relw + relw / d - 1 else (w - 1) / ps) =
      u := h
  by_cases hc : d ≤ relw
  · rw [if_pos hc] at h'
    right
    have hp2 : 2 ≤ p := by
      rcases Nat.lt_or_ge p 2 with hl | hl
      · exfalso
        have : d * p ≤ d * 1 := Nat.mul_le_mul_left d (by omega)
        rw [hps] at hrelwlt
        omega
      · exact hl
    set b := w - relw with hb
    have hq : b - 1 = ps * ((w - 1) / ps) := by omega
    have hreld : relw / d ≤ p - 1 := by
      have hh1 : relw / d ≤ (ps - 1) / d := Nat.div_le_div_right (by omega)
      have h4 : d * (p - 1) + d = d * ((p - 1) + 1) := by ring
      have h41 : p - 1 + 1 = p := by omega
      rw [h41] at h4
      have h5 : ps - 1 = d * (p - 1) + (d - 1) := by
        rw [hps]
        omega
      have h6 : (ps - 1) / d = p - 1 := by
        rw [h5, Nat.mul_add_div (by omega), Nat.div_eq_of_lt (by omega)]
        omega
      omega
    have hreld1 : 1 ≤ relw / d := by
      rw [Nat.le_div_iff_mul_le (show 0 < d by omega)]
      omega
    have hdivle : relw / d ≤ relw := Nat.div_le_self _ _
    have hu : u = b + (relw / d - 1) := by omega
    have hum : (u - 1) % ps = relw / d - 1 := by
      have h5 : u - 1 = (relw / d - 1) + ps * ((w - 1) / ps) := by omega
      rw [h5, Nat.add_mul_mod_self_left]
      exact Nat.mod_eq_of_lt (by omega)
    have hub : u - (u - 1) % ps = b := by omega
    have hdm2 := Nat.div_add_mod relw d
    have hcm : d * (relw / d) = relw / d * d := Nat.mul_comm _ _
    have hmd : relw % d < d := Nat.mod_lt _ (by omega)
    have h6 : relw / d - 1 + 1 = relw / d := by omega
    refine ⟨by omega, by omega, ?_, ?_⟩
    · rw [hub, hum, h6]
      omega
    · rw [hub, hum, h6]
      omega
  · rw [if_neg hc] at h'
    left
    have hu : u = (w - 1) / ps := h'.symm
    have hdps : d ≤ ps := Nat.le_mul_of_pos_right d (by omega)
    have hcomm : ps * ((w - 1) / ps) = (w - 1) / ps * ps := Nat.mul_comm _ _
    rw [hu]
    constructor
    · omega
    · omega

end Gheap
namespace Gheap

/-- Hole chain segment of a max-child descent: like `ChainMax` but without
the requirement that the last position is childless. -/
structure ChainSel {α : Type} [Inhabited α] (par : Nat → Nat)
    (lt : α → α → Bool) (a : List α) (n m : Nat) (cg : Nat → Nat)
    extends Chain par n m cg : Prop where
  maxsel : ∀ j, j < m → ∀ w, 1 ≤ w → w < n → par w = cg j →
    lt (lget a (cg (j + 1))) (lget a w) = false

/-- Concatenation of two hole chains at index `m1`. -/
def chainCat (m1 : Nat) (cg1 cg2 : Nat → Nat) : Nat → Nat :=
  fun k => if k ≤ m1 then cg1 k else cg2 (k - m1)

theorem chainCat_le {m1 : Nat} {cg1 cg2 : Nat → Nat} {k : Nat} (h : k ≤ m1) :
    chainCat m1 cg1 cg2 k = cg1 k := by
  unfold chainCat
  rw [if_pos h]

theorem chainCat_gt {m1 : Nat} {cg1 cg2 : Nat → Nat} {k : Nat} (h : m1 < k) :
    chainCat m1 cg1 cg2 k = cg2 (k - m1) := by
  unfold chainCat
  rw [if_neg (by omega)]

theorem shiftUpTo_congr {α : Type} [Inhabited α] (a : List α)
    (cg cg' : Nat → Nat) (j : Nat) (h : ∀ k, k ≤ j → cg k = cg' k) :
    shiftUpTo a cg j = shiftUpTo a cg' j := by
  induction j with
  | zero => rfl
  | succ j2 ih =>
    show (shiftUpTo a cg j2).set (cg j2) (lget a (cg (j2 + 1))) = _
    rw [ih (fun k hk => h k (by omega)), h j2 (by omega), h (j2 + 1)
      (Nat.le_refl _)]
    rfl

/-- Gluing two descent segments: the second segment operates on the buffer
shifted along the first, and its reads all happen above the first segment's
positions. -/
theorem chainSel_append {α : Type} [Inhabited α] {par : Nat → Nat}
    {lt : α → α → Bool} {a : List α} {n m1 m2 : Nat} {cg1 cg2 : Nat → Nat}
    (hpar : ∀ u, 1 ≤ u → par u < u)
    (h1 : ChainSel par lt a n m1 cg1)
    (h2 : ChainSel par lt (shiftUpTo a cg1 m1) n m2 cg2)
    (hjoin : cg2 0 = cg1 m1) :
    ChainSel par lt a n (m1 + m2) (chainCat m1 cg1 cg2) ∧
    shiftUpTo a (chainCat m1 cg1 cg2) (m1 + m2) =
      shiftUpTo (shiftUpTo a cg1 m1) cg2 m2 ∧
    chainCat m1 cg1 cg2 (m1 + m2) = cg2 m2 := by
  have hmono1 := h1.toChain.mono hpar
  have hmono2 := h2.toChain.mono hpar
  have hcg2gt : ∀ k, 1 ≤ k → k ≤ m2 → cg1 m1 < cg2 k := by
    intro k hk1 hk2
    have := hmono2 0 k (by omega) hk2
    omega
  have hoffw : ∀ w, cg1 m1 < w → lget (shiftUpTo a cg1 m1) w = lget a w := by
    intro w hw
    apply shiftUpTo_off
    intro k hk
    have := hmono1 k m1 hk (Nat.le_refl _)
    omega
  have hcat : ∀ k, m1 ≤ k → k ≤ m1 + m2 → chainCat m1 cg1 cg2 k =
      cg2 (k - m1) := by
    intro k hk1 hk2
    rcases Nat.eq_or_lt_of_le hk1 with heq | h
    · have hk0 : k - m1 = 0 := by omega
      rw [hk0, ← heq, chainCat_le (Nat.le_refl _)]
      exact hjoin.symm
    · rw [chainCat_gt h]
  have hsel : ChainSel par lt a n (m1 + m2) (chainCat m1 cg1 cg2) := by
    refine ⟨⟨?_, ?_, ?_, ?_⟩, ?_⟩
    · rw [chainCat_le (Nat.zero_le _)]
      exact h1.head_lt
    · intro j hj
      rcases Nat.lt_or_ge j m1 with h | h
      · rw [chainCat_le (by omega)]
        exact h1.pos j h
      · rw [hcat (j + 1) (by omega) (by omega)]
        have := h2.pos (j - m1) (by omega)
        have he : j - m1 + 1 = j + 1 - m1 := by omega
        rw [he] at this
        exact this
    · intro j hj
      rcases Nat.lt_or_ge j m1 with h | h
      · rw [chainCat_le (by omega)]
        exact h1.lt_n j h
      · rw [hcat (j + 1) (by omega) (by omega)]
        have := h2.lt_n (j - m1) (by omega)
        have he : j - m1 + 1 = j + 1 - m1 := by omega
        rw [he] at this
        exact this
    · intro j hj
      rcases Nat.lt_or_ge j m1 with h | h
      · rw [chainCat_le (by omega), chainCat_le (by omega)]
        exact h1.par_eq j h
      · rw [hcat (j + 1) (by omega) (by omega), hcat j (by omega) (by omega)]
        have := h2.par_eq (j - m1) (by omega)
        have he : j - m1 + 1 = j + 1 - m1 := by omega
        rw [he] at this
        exact this
    · intro j hj w hw1 hwn hpw
      rcases Nat.lt_or_ge j m1 with h | h
      · rw [chainCat_le (by omega)]
        rw [chainCat_le (by omega)] at hpw
        exact h1.maxsel j h w hw1 hwn hpw
      · rw [hcat (j + 1) (by omega) (by omega)]
        rw [hcat j (by omega) (by omega)] at hpw
        have hsel2 := h2.maxsel (j - m1) (by omega) w hw1 hwn hpw
        have he : j - m1 + 1 = j + 1 - m1 := by omega
        rw [he] at hsel2
        have hwgt : cg1 m1 < w := by
          have hplt := hpar w hw1
          rcases Nat.eq_or_lt_of_le h with heq | hgt
          · have hjj : j - m1 = 0 := by omega
            rw [hjj, hjoin] at hpw
            omega
          · have := hcg2gt (j - m1) (by omega) (by omega)
            omega
        have hcgt : cg1 m1 < cg2 (j + 1 - m1) := hcg2gt _ (by omega)
          (by omega)
        rw [hoffw w hwgt, hoffw _ hcgt] at hsel2
        exact hsel2
  have hshift : ∀ k, k ≤ m2 → shiftUpTo a (chainCat m1 cg1 cg2) (m1 + k) =
      shiftUpTo (shiftUpTo a cg1 m1) cg2 k := by
    intro k
    induction k with
    | zero =>
      intro _
      exact shiftUpTo_congr a _ cg1 m1 (fun k2 hk2 => chainCat_le hk2)
    | succ k2 ih =>
      intro hk
      have he1 : m1 + (k2 + 1) = (m1 + k2) + 1 := by omega
      rw [he1]
      show (shiftUpTo a (chainCat m1 cg1 cg2) (m1 + k2)).set
        (chainCat m1 cg1 cg2 (m1 + k2))
        (lget a (chainCat m1 cg1 cg2 (m1 + k2 + 1))) = _
      rw [ih (by omega)]
      have he2 : chainCat m1 cg1 cg2 (m1 + k2) = cg2 k2 := by
        rw [hcat (m1 + k2) (by omega) (by omega)]
        have : m1 + k2 - m1 = k2 := by omega
        rw [this]
      have he3 : chainCat m1 cg1 cg2 (m1 + k2 + 1) = cg2 (k2 + 1) := by
        rw [hcat (m1 + k2 + 1) (by omega) (by omega)]
        have : m1 + k2 + 1 - m1 = k2 + 1 := by omega
        rw [this]
      rw [he2, he3, ← hoffw (cg2 (k2 + 1)) (hcg2gt (k2 + 1) (by omega) hk)]
      rfl
  have hfin := hcat (m1 + m2) (by omega) (Nat.le_refl _)
  have he : m1 + m2 - m1 = m2 := by omega
  rw [he] at hfin
  exact ⟨hsel, hshift m2 (Nat.le_refl _), hfin⟩

/-- The empty descent segment. -/
theorem chainSel_nil {α : Type} [Inhabited α] (par : Nat → Nat)
    (lt : α → α → Bool) (a : List α) (n hole : Nat) (hh : hole < n) :
    ChainSel par lt a n 0 (fun _ => hole) :=
  ⟨⟨hh, fun j hj => by omega, fun j hj => by omega, fun j hj => by omega⟩,
    fun j hj => by omega⟩

end Gheap
namespace Gheap

/-- One descent move as a chain segment. -/
theorem chainSel_step {α : Type} [Inhabited α] {par : Nat → Nat}
    {lt : α → α → Bool} {a : List α} {n : Nat} (hole w : Nat)
    (hh : hole < n) (hw1 : 1 ≤ w) (hwn : w < n) (hpw : par w = hole)
    (hmax : ∀ w2, 1 ≤ w2 → w2 < n → par w2 = hole →
      lt (lget a w) (lget a w2) = false) :
    ChainSel par lt a n 1 (fun k => if k = 0 then hole else w) ∧
    shiftUpTo a (fun k => if k = 0 then hole else w) 1 =
      a.set hole (lget a w) := by
  refine ⟨⟨⟨hh, ?_, ?_, ?_⟩, ?_⟩, rfl⟩
  · intro j hj
    have hj0 : j = 0 := by omega
    subst hj0
    exact hw1
  · intro j hj
    have hj0 : j = 0 := by omega
    subst hj0
    exact hwn
  · intro j hj
    have hj0 : j = 0 := by omega
    subst hj0
    exact hpw
  · intro j hj w2 h1 h2 hp2
    have hj0 : j = 0 := by omega
    subst hj0
    simp only [if_pos rfl] at hp2
    exact hmax w2 h1 h2 hp2

/-- Past the last full page index there are no cross-page children in range. -/
theorem noCross_of_gt_fpc (d p n u : Nat) (hd : 1 ≤ d) (hp : 1 ≤ p)
    (hn : 1 ≤ n) (h : (n - 1) / (d * p) < u) : n ≤ u * (d * p) + 1 := by
  have hps : 1 ≤ d * p := Nat.mul_le_mul hd hp
  have hdm := Nat.div_add_mod (n - 1) (d * p)
  have hm := Nat.mod_lt (n - 1) (show 0 < d * p by omega)
  have hmul : ((n - 1) / (d * p) + 1) * (d * p) ≤ u * (d * p) :=
    Nat.mul_le_mul_right _ (by omega)
  have hexp : ((n - 1) / (d * p) + 1) * (d * p) =
      (n - 1) / (d * p) * (d * p) + d * p := by ring
  have hcomm : (n - 1) / (d * p) * (d * p) = (d * p) * ((n - 1) / (d * p)) :=
    Nat.mul_comm _ _
  omega

/-- Position arithmetic inside an aligned page. -/
theorem rel_of_base (ps b rel : Nat) (hps : 1 ≤ ps) (hb : 1 ≤ b)
    (hal : (b - 1) % ps = 0) (hrel : rel < ps) :
    (b + rel - 1) % ps = rel := by
  have hdm := Nat.div_add_mod (b - 1) ps
  have he : b + rel - 1 = rel + ps * ((b - 1) / ps) := by omega
  rw [he, Nat.add_mul_mod_self_left]
  exact Nat.mod_eq_of_lt hrel

/-- The cross-page chunk scan of `gheap.h` picks an in-range cross child
maximal among all in-range cross children. -/
theorem crossScan_spec {α : Type} [Inhabited α] (d p : Nat) (hd : 1 ≤ d)
    (hp : 1 ≤ p) {lt : α → α → Bool} (hswo : IsSWO lt) (a : List α)
    (n u cnt : Nat) (hcnt1 : 1 ≤ cnt) (hcntd : cnt ≤ d)
    (hrange : u * (d * p) + 1 + cnt ≤ n)
    (hcov : cnt = d ∨ n ≤ u * (d * p) + 1 + cnt) :
    parentH d p (getMaxChildIndexH lt a (u * (d * p) + 1) cnt) = u ∧
    u < getMaxChildIndexH lt a (u * (d * p) + 1) cnt ∧
    getMaxChildIndexH lt a (u * (d * p) + 1) cnt < n ∧
    ∀ w, w < n → u * (d * p) + 1 ≤ w → w ≤ u * (d * p) + d →
      lt (lget a (getMaxChildIndexH lt a (u * (d * p) + 1) cnt))
        (lget a w) = false := by
  have hsm := scanMax_lt lt a (u * (d * p) + 1) cnt (by omega)
  have huu : u ≤ u * (d * p) :=
    Nat.le_mul_of_pos_right u (by
      have := Nat.mul_le_mul hd hp
      omega)
  have hmc : getMaxChildIndexH lt a (u * (d * p) + 1) cnt =
      u * (d * p) + 1 + scanMax lt a (u * (d * p) + 1) cnt := rfl
  refine ⟨?_, by omega, by omega, ?_⟩
  · rw [hmc]
    exact parentH_cross d p u _ hd hp (by omega) (by omega)
  · intro w hwn hw1 hw2
    have hwi : w = u * (d * p) + 1 + (w - (u * (d * p) + 1)) := by omega
    rw [hmc, hwi]
    exact scanMax_max hswo a (u * (d * p) + 1) cnt _ (by
      rcases hcov with h | h
      · omega
      · omega)

/-- The current-page refinement of `gheap.h` turns a maximal cross child into
a child maximal among all in-range children. -/
theorem curPage_spec {α : Type} [Inhabited α] (d p : Nat) (hd : 1 ≤ d)
    (hp2 : 2 ≤ p) {lt : α → α → Bool} (hswo : IsSWO lt) (a : List α)
    (n u mc : Nat) (hu1 : 1 ≤ u)
    (hmc1 : parentH d p mc = u) (hmc2 : u < mc) (hmc3 : mc < n)
    (hcross : ∀ w, w < n → u * (d * p) + 1 ≤ w → w ≤ u * (d * p) + d →
      lt (lget a mc) (lget a w) = false)
    (hintra : (u - 1) % (d * p) < p - 1 →
      u - (u - 1) % (d * p) + ((u - 1) % (d * p) + 1) * d + d ≤ n) :
    parentH d p (maxChildCurPageH d p lt a u mc) = u ∧
    u < maxChildCurPageH d p lt a u mc ∧
    maxChildCurPageH d p lt a u mc < n ∧
    ∀ w, 1 ≤ w → w < n → parentH d p w = u →
      lt (lget a (maxChildCurPageH d p lt a u mc)) (lget a w) = false := by
  have hml : (u - 1) % (d * p) ≤ u - 1 := Nat.mod_le _ _
  have hrw : u - (u - (u - 1) % (d * p)) = (u - 1) % (d * p) := by omega
  have hform : maxChildCurPageH d p lt a u mc =
      if (u - 1) % (d * p) < p - 1 then
        (if lt (lget a mc)
            (lget a (getMaxChildIndexH lt a
              ((u - (u - 1) % (d * p)) + ((u - 1) % (d * p) + 1) * d) d)) =
            true
          then getMaxChildIndexH lt a
            ((u - (u - 1) % (d * p)) + ((u - 1) % (d * p) + 1) * d) d
          else mc)
      else mc := by
    simp only [maxChildCurPageH]
    rw [hrw]
  rw [hform]
  by_cases hfits : (u - 1) % (d * p) < p - 1
  · rw [if_pos hfits]
    have hsm := scanMax_lt lt a
      ((u - (u - 1) % (d * p)) + ((u - 1) % (d * p) + 1) * d) d (by omega)
    have htmp : getMaxChildIndexH lt a
        ((u - (u - 1) % (d * p)) + ((u - 1) % (d * p) + 1) * d) d =
        (u - (u - 1) % (d * p)) + ((u - 1) % (d * p) + 1) * d +
          scanMax lt a
            ((u - (u - 1) % (d * p)) + ((u - 1) % (d * p) + 1) * d) d := rfl
    have htp : parentH d p (getMaxChildIndexH lt a
        ((u - (u - 1) % (d * p)) + ((u - 1) % (d * p) + 1) * d) d) = u := by
      rw [htmp]
      exact parentH_intra d p u _ hd hu1 hfits (by omega) (by omega)
    have htn : getMaxChildIndexH lt a
        ((u - (u - 1) % (d * p)) + ((u - 1) % (d * p) + 1) * d) d < n := by
      have := hintra hfits
      omega
    have htgt : u < getMaxChildIndexH lt a
        ((u - (u - 1) % (d * p)) + ((u - 1) % (d * p) + 1) * d) d := by
      have hdd : (u - 1) % (d * p) + 1 ≤ ((u - 1) % (d * p) + 1) * d :=
        Nat.le_mul_of_pos_right _ (by omega)
      omega
    have hintramax : ∀ i, i < d →
        lt (lget a (getMaxChildIndexH lt a
          ((u - (u - 1) % (d * p)) + ((u - 1) % (d * p) + 1) * d) d))
          (lget a ((u - (u - 1) % (d * p)) +
            ((u - 1) % (d * p) + 1) * d + i)) = false := by
      intro i hi
      rw [htmp]
      exact scanMax_max hswo a _ d i hi
    by_cases hcmp : lt (lget a mc)
        (lget a (getMaxChildIndexH lt a
          ((u - (u - 1) % (d * p)) + ((u - 1) % (d * p) + 1) * d) d)) = true
    · rw [if_pos hcmp]
      refine ⟨htp, htgt, htn, ?_⟩
      intro w hw1 hwn hpw
      rcases parentH_children d p u w hd (by omega) hw1 hpw with
        ⟨hc1, hc2⟩ | ⟨_, _, hi1, hi2⟩
      · by_contra hcon
        have hcon2 : lt (lget a (getMaxChildIndexH lt a
            ((u - (u - 1) % (d * p)) + ((u - 1) % (d * p) + 1) * d) d))
            (lget a w) = true := by
          rcases Bool.eq_false_or_eq_true (lt (lget a (getMaxChildIndexH lt a
            ((u - (u - 1) % (d * p)) + ((u - 1) % (d * p) + 1) * d) d))
            (lget a w)) with h | h
          · exact h
          · exact absurd h hcon
        have := hswo.lt_trans _ _ _ hcmp hcon2
        have hx := hcross w hwn hc1 hc2
        rw [hx] at this
        cases this
      · have hwi : w = (u - (u - 1) % (d * p)) +
            ((u - 1) % (d * p) + 1) * d +
            (w - ((u - (u - 1) % (d * p)) + ((u - 1) % (d * p) + 1) * d)) :=
          by omega
        rw [hwi]
        exact hintramax _ (by omega)
    · rw [if_neg hcmp]
      refine ⟨hmc1, hmc2, hmc3, ?_⟩
      intro w hw1 hwn hpw
      rcases parentH_children d p u w hd (by omega) hw1 hpw with
        ⟨hc1, hc2⟩ | ⟨_, _, hi1, hi2⟩
      · exact hcross w hwn hc1 hc2
      · have hwi : w = (u - (u - 1) % (d * p)) +
            ((u - 1) % (d * p) + 1) * d +
            (w - ((u - (u - 1) % (d * p)) + ((u - 1) % (d * p) + 1) * d)) :=
          by omega
        have hnl : lt (lget a mc)
            (lget a (getMaxChildIndexH lt a
              ((u - (u - 1) % (d * p)) + ((u - 1) % (d * p) + 1) * d) d)) =
            false := by
          rcases Bool.eq_false_or_eq_true (lt (lget a mc)
            (lget a (getMaxChildIndexH lt a
              ((u - (u - 1) % (d * p)) + ((u - 1) % (d * p) + 1) * d) d)))
            with h | h
          · exact absurd h hcmp
          · exact h
        have h2 := hintramax
          (w - ((u - (u - 1) % (d * p)) + ((u - 1) % (d * p) + 1) * d))
          (by omega)
        rw [hwi]
        exact hswo.nlt_trans _ _ _ hnl h2
  · rw [if_neg hfits]
    refine ⟨hmc1, hmc2, hmc3, ?_⟩
    intro w hw1 hwn hpw
    rcases parentH_children d p u w hd (by omega) hw1 hpw with
      ⟨hc1, hc2⟩ | ⟨_, hf, _, _⟩
    · exact hcross w hwn hc1 hc2
    · exact absurd hf hfits

end Gheap
namespace Gheap

/-- Combined cross-page + current-page max-child selection of the full-page
and last-page steps of `_gheap_sift_down` (`gheap.h`). -/
theorem maxChildBC_spec {α : Type} [Inhabited α] (d p : Nat) (hd : 1 ≤ d)
    (hp : 1 ≤ p) {lt : α → α → Bool} (hswo : IsSWO lt) (a : List α)
    (n u cnt : Nat) (hu0 : 2 ≤ p → 1 ≤ u) (hcnt1 : 1 ≤ cnt)
    (hcntd : cnt ≤ d) (hrange : u * (d * p) + 1 + cnt ≤ n)
    (hcov : cnt = d ∨ n ≤ u * (d * p) + 1 + cnt)
    (hintra : 2 ≤ p → (u - 1) % (d * p) < p - 1 →
      u - (u - 1) % (d * p) + ((u - 1) % (d * p) + 1) * d + d ≤ n) :
    parentH d p (if 1 < p then
      maxChildCurPageH d p lt a u (getMaxChildIndexH lt a (u * (d * p) + 1)
        cnt) else getMaxChildIndexH lt a (u * (d * p) + 1) cnt) = u ∧
    u < (if 1 < p then
      maxChildCurPageH d p lt a u (getMaxChildIndexH lt a (u * (d * p) + 1)
        cnt) else getMaxChildIndexH lt a (u * (d * p) + 1) cnt) ∧
    (if 1 < p then
      maxChildCurPageH d p lt a u (getMaxChildIndexH lt a (u * (d * p) + 1)
        cnt) else getMaxChildIndexH lt a (u * (d * p) + 1) cnt) < n ∧
    ∀ w, 1 ≤ w → w < n → parentH d p w = u →
      lt (lget a (if 1 < p then
        maxChildCurPageH d p lt a u (getMaxChildIndexH lt a
          (u * (d * p) + 1) cnt) else
        getMaxChildIndexH lt a (u * (d * p) + 1) cnt)) (lget a w) = false := by
  obtain ⟨hc1, hc2, hc3, hc4⟩ :=
    crossScan_spec d p hd hp hswo a n u cnt hcnt1 hcntd hrange hcov
  by_cases hp2 : 1 < p
  · rw [if_pos hp2]
    obtain ⟨g1, g2, g3, g4⟩ := curPage_spec d p hd (by omega) hswo a n u
      (getMaxChildIndexH lt a (u * (d * p) + 1) cnt) (hu0 (by omega))
      hc1 hc2 hc3 hc4 (hintra (by omega))
    exact ⟨g1, g2, g3, g4⟩
  · rw [if_neg hp2]
    refine ⟨hc1, hc2, hc3, ?_⟩
    intro w hw1 hwn hpw
    rcases parentH_children d p u w hd hp hw1 hpw with
      ⟨hh1, hh2⟩ | ⟨_, hf, _, _⟩
    · exact hc4 w hwn hh1 hh2
    · omega

/-- The full-page descent loop of `_gheap_sift_down` (`gheap.h`) realizes a
maximal-child chain segment ending at or past the last full page index. -/
theorem siftDownHPages_spec {α : Type} [Inhabited α] (d p : Nat) (hd : 1 ≤ d)
    (hp : 1 ≤ p) (lt : α → α → Bool) (hswo : IsSWO lt) (n : Nat)
    (hn1 : 1 ≤ n) :
    ∀ fuel hole a, hole < n → (2 ≤ p → 1 ≤ hole) → n - hole ≤ fuel →
      ∃ m cg, ChainSel (parentH d p) lt a n m cg ∧ cg 0 = hole ∧
        siftDownHPages d p lt ((n - 1) / (d * p)) fuel hole a =
          (shiftUpTo a cg m, cg m) ∧
        (n - 1) / (d * p) ≤ cg m ∧ (2 ≤ p → 1 ≤ cg m) := by
  have hpar : ∀ u, 1 ≤ u → parentH d p u < u :=
    fun u hu => parentH_lt d p u hd hp hu
  have hps1 : 1 ≤ d * p := Nat.mul_le_mul hd hp
  have hfpn : (n - 1) / (d * p) * (d * p) ≤ n - 1 := Nat.div_mul_le_self _ _
  intro fuel
  induction fuel with
  | zero =>
    intro hole a hh _ hf
    omega
  | succ f ih =>
    intro hole a hh hph hf
    by_cases hb : hole < (n - 1) / (d * p)
    · have hfpc1 : 1 ≤ (n - 1) / (d * p) := by omega
      have hmul : (hole + 1) * (d * p) ≤ (n - 1) / (d * p) * (d * p) :=
        Nat.mul_le_mul_right _ (by omega)
      have hexp : (hole + 1) * (d * p) = hole * (d * p) + d * p := by ring
      have hdps : d ≤ d * p := Nat.le_mul_of_pos_right d (by omega)
      have hrange : hole * (d * p) + 1 + d ≤ n := by omega
      have hintra : 2 ≤ p → (hole - 1) % (d * p) < p - 1 →
          hole - (hole - 1) % (d * p) + ((hole - 1) % (d * p) + 1) * d + d ≤
            n := by
        intro hp2 hfits
        have hml : (hole - 1) % (d * p) ≤ hole - 1 := Nat.mod_le _ _
        have hstep : ((hole - 1) % (d * p) + 2) * d =
            ((hole - 1) % (d * p) + 1) * d + d := by ring
        have hstep2 : ((hole - 1) % (d * p) + 2) * d ≤ p * d :=
          Nat.mul_le_mul_right _ (by omega)
        have hpd : p * d = d * p := Nat.mul_comm _ _
        have hfe : (n - 1) / (d * p) * (d * p) =
            (n - 1) / (d * p) * (d * p - 1) + (n - 1) / (d * p) := by
          have : d * p - 1 + 1 = d * p := by omega
          calc (n - 1) / (d * p) * (d * p)
              = (n - 1) / (d * p) * ((d * p - 1) + 1) := by rw [this]
            _ = (n - 1) / (d * p) * (d * p - 1) + (n - 1) / (d * p) := by
                ring
        have hge : d * p - 1 ≤ (n - 1) / (d * p) * (d * p - 1) :=
          Nat.le_mul_of_pos_left _ (by omega)
        omega
      obtain ⟨g1, g2, g3, g4⟩ := maxChildBC_spec d p hd hp hswo a n hole d
        hph (by omega) (Nat.le_refl d) hrange (Or.inl rfl) hintra
      set mc := (if 1 < p then
        maxChildCurPageH d p lt a hole (getMaxChildIndexH lt a
          (hole * (d * p) + 1) d) else
        getMaxChildIndexH lt a (hole * (d * p) + 1) d) with hmc
      obtain ⟨hseg1, hshift1⟩ := chainSel_step
        hole mc hh (by omega) g3 g1 g4
      obtain ⟨m2, cg2, hsel2, hhead2, heq2, hexit2, hpos2⟩ :=
        ih mc (a.set hole (lget a mc)) g3 (fun _ => by omega) (by omega)
      rw [← hshift1] at hsel2
      have hjoin : cg2 0 = (fun k => if k = 0 then hole else mc) 1 := by
        rw [hhead2]
        rfl
      obtain ⟨hcat1, hcat2, hcat3⟩ := chainSel_append hpar hseg1 hsel2 hjoin
      refine ⟨1 + m2, _, hcat1, ?_, ?_, ?_, ?_⟩
      · rw [chainCat_le (Nat.zero_le _)]
        rfl
      · have hstep : siftDownHPages d p lt ((n - 1) / (d * p)) (f + 1) hole
            a = siftDownHPages d p lt ((n - 1) / (d * p)) f mc
              (a.set hole (lget a mc)) := by
          show (if hole < (n - 1) / (d * p) then _ else _) = _
          rw [if_pos hb]
        rw [hstep, heq2, hcat3, hcat2, hshift1]
      · rw [hcat3]
        exact hexit2
      · rw [hcat3]
        exact hpos2
    · refine ⟨0, fun _ => hole, chainSel_nil _ _ _ _ _ hh, rfl, ?_,
        (by show (n - 1) / (d * p) ≤ hole; omega), fun h => hph h⟩
      show (if hole < (n - 1) / (d * p) then _ else (a, hole)) =
        (shiftUpTo a (fun _ => hole) 0, hole)
      rw [if_neg hb]
      rfl

end Gheap
namespace Gheap

/-- The last-page step of `_gheap_sift_down` (`gheap.h`) extends the chain to
a hole with no in-range cross-page children. -/
theorem lastPageStepH_spec {α : Type} [Inhabited α] (d p : Nat) (hd : 1 ≤ d)
    (hp : 1 ≤ p) (lt : α → α → Bool) (hswo : IsSWO lt) (a : List α)
    (n hole : Nat) (hn1 : 1 ≤ n) (hh : hole < n)
    (hfpc : (n - 1) / (d * p) ≤ hole) (hpos : 2 ≤ p → 1 ≤ hole) :
    ∃ m cg, ChainSel (parentH d p) lt a n m cg ∧ cg 0 = hole ∧
      lastPageStepH d p lt n hole a = (shiftUpTo a cg m, cg m) ∧
      n ≤ cg m * (d * p) + 1 ∧ (2 ≤ p → 1 ≤ cg m) := by
  have hps1 : 1 ≤ d * p := Nat.mul_le_mul hd hp
  by_cases heq : hole = (n - 1) / (d * p)
  · by_cases hfc : hole * (d * p) + 1 < n
    · set cnt := n - (hole * (d * p) + 1) with hcnt
      set cnt2 := if cnt < d then cnt else d with hcnt2
      have hcnt2le : cnt2 ≤ cnt ∧ cnt2 ≤ d ∧ 1 ≤ cnt2 := by
        rw [hcnt2]
        by_cases h : cnt < d
        · rw [if_pos h]
          omega
        · rw [if_neg h]
          omega
      have hcov : cnt2 = d ∨ n ≤ hole * (d * p) + 1 + cnt2 := by
        rw [hcnt2]
        by_cases h : cnt < d
        · rw [if_pos h]
          right
          omega
        · rw [if_neg h]
          left
          rfl
      have hintra : 2 ≤ p → (hole - 1) % (d * p) < p - 1 →
          hole - (hole - 1) % (d * p) + ((hole - 1) % (d * p) + 1) * d + d ≤
            n := by
        intro hp2 hfits
        have hu1 := hpos hp2
        have hml : (hole - 1) % (d * p) ≤ hole - 1 := Nat.mod_le _ _
        have hstep : ((hole - 1) % (d * p) + 2) * d =
            ((hole - 1) % (d * p) + 1) * d + d := by ring
        have hstep2 : ((hole - 1) % (d * p) + 2) * d ≤ p * d :=
          Nat.mul_le_mul_right _ (by omega)
        have hpd : p * d = d * p := Nat.mul_comm _ _
        have hdm := Nat.div_add_mod (n - 1) (d * p)
        have hmlt := Nat.mod_lt (n - 1) (show 0 < d * p by omega)
        have hfe : (n - 1) / (d * p) * (d * p) =
            (n - 1) / (d * p) * (d * p - 1) + (n - 1) / (d * p) := by
          have h0 : d * p - 1 + 1 = d * p := by omega
          calc (n - 1) / (d * p) * (d * p)
              = (n - 1) / (d * p) * ((d * p - 1) + 1) := by rw [h0]
            _ = (n - 1) / (d * p) * (d * p - 1) + (n - 1) / (d * p) := by ring
        have hge : d * p - 1 ≤ (n - 1) / (d * p) * (d * p - 1) :=
          Nat.le_mul_of_pos_left _ (by omega)
        have hcm : d * p * ((n - 1) / (d * p)) =
            (n - 1) / (d * p) * (d * p) := Nat.mul_comm _ _
        omega
      obtain ⟨g1, g2, g3, g4⟩ := maxChildBC_spec d p hd hp hswo a n hole cnt2
        hpos (by omega) (by omega) (by omega) hcov hintra
      set mcB := (if 1 < p then
        maxChildCurPageH d p lt a hole (getMaxChildIndexH lt a
          (hole * (d * p) + 1) cnt2) else
        getMaxChildIndexH lt a (hole * (d * p) + 1) cnt2) with hmcB
      have hmcE : (if p = 1 then getMaxChildIndexH lt a (hole * (d * p) + 1)
            cnt
          else maxChildCurPageH d p lt a hole
            (if cnt < d then getMaxChildIndexH lt a (hole * (d * p) + 1) cnt
              else getMaxChildIndexH lt a (hole * (d * p) + 1) d)) = mcB := by
        rw [hmcB, hcnt2]
        by_cases hp1 : p = 1
        · subst hp1
          rw [if_pos rfl, if_neg (by omega)]
          have hcd : cnt < d := by
            have hdm := Nat.div_add_mod (n - 1) (d * 1)
            have hmlt := Nat.mod_lt (n - 1) (show 0 < d * 1 by omega)
            have hcm : d * 1 * ((n - 1) / (d * 1)) =
                (n - 1) / (d * 1) * (d * 1) := Nat.mul_comm _ _
            have hb : hole * (d * 1) = (n - 1) / (d * 1) * (d * 1) := by
              rw [heq]
            omega
          rw [if_pos hcd]
        · rw [if_neg hp1, if_pos (show 1 < p by omega)]
          by_cases hcd : cnt < d
          · rw [if_pos hcd, if_pos hcd]
          · rw [if_neg hcd, if_neg hcd]
      obtain ⟨hseg1, hshift1⟩ := chainSel_step
        hole mcB hh (by omega) g3 g1 g4
      refine ⟨1, fun k => if k = 0 then hole else mcB, hseg1, rfl, ?_, ?_, ?_⟩
      · have hstep : lastPageStepH d p lt n hole a =
            (a.set hole (lget a mcB), mcB) := by
          show (if hole = (n - 1) / (d * p) then _ else (a, hole)) = _
          rw [if_pos heq]
          show (if hole * (d * p) + 1 < n then _ else (a, hole)) = _
          rw [if_pos hfc]
          have hX : (if p = 1 then getMaxChildIndexH lt a
                (hole * (d * p) + 1) (n - (hole * (d * p) + 1))
              else maxChildCurPageH d p lt a hole
                (if n - (hole * (d * p) + 1) < d then
                  getMaxChildIndexH lt a (hole * (d * p) + 1)
                    (n - (hole * (d * p) + 1))
                  else getMaxChildIndexH lt a (hole * (d * p) + 1) d)) =
              mcB := hmcE
          show (a.set hole (lget a (if p = 1 then getMaxChildIndexH lt a
                (hole * (d * p) + 1) (n - (hole * (d * p) + 1))
              else maxChildCurPageH d p lt a hole
                (if n - (hole * (d * p) + 1) < d then
                  getMaxChildIndexH lt a (hole * (d * p) + 1)
                    (n - (hole * (d * p) + 1))
                  else getMaxChildIndexH lt a (hole * (d * p) + 1) d))),
            (if p = 1 then getMaxChildIndexH lt a
                (hole * (d * p) + 1) (n - (hole * (d * p) + 1))
              else maxChildCurPageH d p lt a hole
                (if n - (hole * (d * p) + 1) < d then
                  getMaxChildIndexH lt a (hole * (d * p) + 1)
                    (n - (hole * (d * p) + 1))
                  else getMaxChildIndexH lt a (hole * (d * p) + 1) d))) =
            (a.set hole (lget a mcB), mcB)
          rw [hX]
        rw [hstep, ← hshift1]
        rfl
      · show n ≤ mcB * (d * p) + 1
        exact noCross_of_gt_fpc d p n mcB hd hp hn1 (by omega)
      · intro _
        show 1 ≤ mcB
        omega
    · refine ⟨0, fun _ => hole, chainSel_nil _ _ _ _ _ hh, rfl, ?_,
        (by show n ≤ hole * (d * p) + 1; omega), fun h => hpos h⟩
      show lastPageStepH d p lt n hole a = (a, hole)
      show (if hole = (n - 1) / (d * p) then _ else (a, hole)) = _
      rw [if_pos heq]
      show (if hole * (d * p) + 1 < n then _ else (a, hole)) = _
      rw [if_neg hfc]
  · refine ⟨0, fun _ => hole, chainSel_nil _ _ _ _ _ hh, rfl, ?_,
      (by
        show n ≤ hole * (d * p) + 1
        exact noCross_of_gt_fpc d p n hole hd hp hn1 (by omega)),
      fun h => hpos h⟩
    show lastPageStepH d p lt n hole a = (a, hole)
    show (if hole = (n - 1) / (d * p) then _ else (a, hole)) = _
    rw [if_neg heq]

end Gheap
namespace Gheap

/-- A hole is childless when neither its cross-page chunk nor its intra-page
chunk begins inside the heap window. -/
theorem terminalH (d p n u : Nat) (hd : 1 ≤ d) (hp : 1 ≤ p)
    (hnc : n ≤ u * (d * p) + 1)
    (hni : (u - 1) % (d * p) < p - 1 →
      n ≤ u - (u - 1) % (d * p) + ((u - 1) % (d * p) + 1) * d) :
    ∀ w, 1 ≤ w → w < n → parentH d p w ≠ u := by
  intro w hw1 hwn hpw
  rcases parentH_children d p u w hd hp hw1 hpw with
    ⟨hc1, hc2⟩ | ⟨_, hf, hi1, hi2⟩
  · omega
  · have := hni hf
    omega

/-- One intra-page move of `_gheap_sift_down` (`gheap.h`): the scanned chunk
is exactly the set of in-range children of the hole. -/
theorem intraStep_spec {α : Type} [Inhabited α] (d p : Nat) (hd : 1 ≤ d)
    (hp2 : 2 ≤ p) {lt : α → α → Bool} (hswo : IsSWO lt) (a : List α)
    (n b rel cnt : Nat) (hb1 : 1 ≤ b) (hal : (b - 1) % (d * p) = 0)
    (hrel : rel < p - 1) (hun : b + rel < n)
    (hnc : n ≤ (b + rel) * (d * p) + 1) (hcnt1 : 1 ≤ cnt) (hcntd : cnt ≤ d)
    (hrange : b + (rel + 1) * d + cnt ≤ n)
    (hcov : cnt = d ∨ n ≤ b + (rel + 1) * d + cnt) :
    (moveUpMaxRelChildH d lt a b cnt rel).1 =
      a.set (b + rel) (lget a (b + (moveUpMaxRelChildH d lt a b cnt rel).2)) ∧
    parentH d p (b + (moveUpMaxRelChildH d lt a b cnt rel).2) = b + rel ∧
    (rel + 1) * d ≤ (moveUpMaxRelChildH d lt a b cnt rel).2 ∧
    (moveUpMaxRelChildH d lt a b cnt rel).2 < (rel + 1) * d + cnt ∧
    ∀ w, 1 ≤ w → w < n → parentH d p w = b + rel →
      lt (lget a (b + (moveUpMaxRelChildH d lt a b cnt rel).2))
        (lget a w) = false := by
  have hps1 : 1 ≤ d * p := by
    have := Nat.mul_le_mul hd (show 1 ≤ p by omega)
    omega
  have hps : rel < d * p := by
    have hmul : (p - 1) * 1 ≤ p * d := Nat.mul_le_mul (by omega) (by omega)
    have hcm : p * d = d * p := Nat.mul_comm _ _
    omega
  have hmod : (b + rel - 1) % (d * p) = rel :=
    rel_of_base (d * p) b rel (by omega) hb1 hal hps
  have hbrel : b + rel - (b + rel - 1) % (d * p) = b := by
    rw [hmod]
    omega
  have hsm := scanMax_lt lt a (b + (rel + 1) * d) cnt (by omega)
  have hmc : (moveUpMaxRelChildH d lt a b cnt rel).2 =
      (rel + 1) * d + scanMax lt a (b + (rel + 1) * d) cnt := by
    show getMaxChildIndexH lt a (b + (rel + 1) * d) cnt - b = _
    show b + (rel + 1) * d + scanMax lt a (b + (rel + 1) * d) cnt - b = _
    omega
  have hpar : parentH d p (b + (moveUpMaxRelChildH d lt a b cnt rel).2) =
      b + rel := by
    rw [hmc]
    apply parentH_intra d p (b + rel) _ hd (by omega)
    · rw [hmod]
      exact hrel
    · rw [hmod]
      omega
    · rw [hmod]
      omega
  refine ⟨?_, hpar, by omega, by omega, ?_⟩
  · show (a.set (b + rel)
      (lget a (getMaxChildIndexH lt a (b + (rel + 1) * d) cnt)), _).1 = _
    show a.set (b + rel)
      (lget a (b + (rel + 1) * d + scanMax lt a (b + (rel + 1) * d) cnt)) = _
    rw [hmc]
    have he : b + ((rel + 1) * d + scanMax lt a (b + (rel + 1) * d) cnt) =
        b + (rel + 1) * d + scanMax lt a (b + (rel + 1) * d) cnt := by omega
    rw [he]
  · intro w hw1 hwn hpw
    rcases parentH_children d p (b + rel) w hd (by omega) hw1 hpw with
      ⟨hc1, hc2⟩ | ⟨_, hf, hi1, hi2⟩
    · omega
    · rw [hmod] at hf hi1 hi2
      have hwi : w = b + (rel + 1) * d + (w - (b + (rel + 1) * d)) := by
        omega
      have hicnt : w - (b + (rel + 1) * d) < cnt := by
        rcases hcov with h | h
        · omega
        · omega
      rw [hmc, hwi]
      have he : b + ((rel + 1) * d + scanMax lt a (b + (rel + 1) * d) cnt) =
          b + (rel + 1) * d + scanMax lt a (b + (rel + 1) * d) cnt := by omega
      rw [he]
      exact scanMax_max hswo a (b + (rel + 1) * d) cnt _ hicnt

end Gheap
namespace Gheap

/-- Intra-page descent through a full page: realizes a maximal-child chain
segment ending at a slot of the last chunk row. -/
theorem siftDownHFullPage_spec {α : Type} [Inhabited α] (d p : Nat)
    (hd : 1 ≤ d) (hp2 : 2 ≤ p) (lt : α → α → Bool) (hswo : IsSWO lt)
    (n b : Nat) (hn1 : 1 ≤ n) (hb1 : 1 ≤ b) (hal : (b - 1) % (d * p) = 0)
    (hfull : b + d * p ≤ n) :
    ∀ fuel rel a, rel < d * p → (n - 1) / (d * p) ≤ b + rel →
      n ≤ (b + rel) * (d * p) + 1 → p - 1 - rel ≤ fuel →
      ∃ m cg, ChainSel (parentH d p) lt a n m cg ∧ cg 0 = b + rel ∧
        siftDownHFullPage d p lt b fuel rel a =
          (shiftUpTo a cg m, cg m - b) ∧
        b ≤ cg m ∧ cg m - b < d * p ∧ p - 1 ≤ cg m - b ∧
        n ≤ cg m * (d * p) + 1 := by
  have hpar : ∀ u, 1 ≤ u → parentH d p u < u :=
    fun u hu => parentH_lt d p u hd (by omega) hu
  have hps1 : 1 ≤ d * p := by
    have := Nat.mul_le_mul hd (show 1 ≤ p by omega)
    omega
  intro fuel
  induction fuel with
  | zero =>
    intro rel a hps hfpc hnc hfuel
    refine ⟨0, fun _ => b + rel, chainSel_nil _ _ _ _ _ (by omega), rfl,
      ?_, (by show b ≤ b + rel; omega), (by show b + rel - b < d * p; omega),
      (by show p - 1 ≤ b + rel - b; omega), hnc⟩
    show (a, rel) = (shiftUpTo a (fun _ => b + rel) 0, b + rel - b)
    have : b + rel - b = rel := by omega
    rw [this]
    rfl
  | succ f ih =>
    intro rel a hps hfpc hnc hfuel
    by_cases hcond : rel < p - 1
    · have hstep2 : (rel + 2) * d = (rel + 1) * d + d := by ring
      have hstep3 : (rel + 2) * d ≤ p * d := Nat.mul_le_mul_right _ (by omega)
      have hpd : p * d = d * p := Nat.mul_comm _ _
      obtain ⟨g0, g1, g2, g3, g4⟩ := intraStep_spec d p hd hp2 hswo a n b rel
        d hb1 hal hcond (by omega) hnc (by omega) (Nat.le_refl d) (by omega)
        (Or.inl rfl)
      set s := moveUpMaxRelChildH d lt a b d rel with hs
      have hrel' : s.2 < d * p := by omega
      have hgt : rel < s.2 := by
        have : rel + 1 ≤ (rel + 1) * d := Nat.le_mul_of_pos_right _ (by omega)
        omega
      have hbn : b + s.2 < n := by omega
      obtain ⟨hseg1, hshift1⟩ := chainSel_step
        (b + rel) (b + s.2) (by omega) (by omega) hbn g1 g4
      obtain ⟨m2, cg2, hsel2, hhead2, heq2, hb2, hrel2, hexit2, hnc2⟩ :=
        ih s.2 s.1 hrel' (by omega)
          (noCross_of_gt_fpc d p n (b + s.2) hd (by omega) hn1 (by omega))
          (by omega)
      rw [g0, ← hshift1] at hsel2
      have hjoin : cg2 0 = (fun k => if k = 0 then b + rel else b + s.2) 1 :=
        by
        rw [hhead2]
        rfl
      obtain ⟨hcat1, hcat2, hcat3⟩ := chainSel_append hpar hseg1 hsel2 hjoin
      refine ⟨1 + m2, _, hcat1, ?_, ?_, ?_, ?_, ?_, ?_⟩
      · rw [chainCat_le (Nat.zero_le _)]
        rfl
      · have hstep : siftDownHFullPage d p lt b (f + 1) rel a =
            siftDownHFullPage d p lt b f s.2 s.1 := by
          show (if rel < p - 1 then _ else (a, rel)) = _
          rw [if_pos hcond]
        rw [hstep, heq2, hcat3, hcat2, hshift1, g0]
      · rw [hcat3]; omega
      · rw [hcat3]; omega
      · rw [hcat3]; omega
      · rw [hcat3]; exact hnc2
    · refine ⟨0, fun _ => b + rel, chainSel_nil _ _ _ _ _ (by omega), rfl,
        ?_, (by show b ≤ b + rel; omega),
        (by show b + rel - b < d * p; omega),
        (by show p - 1 ≤ b + rel - b; omega), hnc⟩
      show (if rel < p - 1 then _ else (a, rel)) =
        (shiftUpTo a (fun _ => b + rel) 0, b + rel - b)
      rw [if_neg hcond]
      have : b + rel - b = rel := by omega
      rw [this]
      rfl

/-- Intra-page descent through the full chunks of a partial last page. -/
theorem siftDownHPartialChunks_spec {α : Type} [Inhabited α] (d p : Nat)
    (hd : 1 ≤ d) (hp2 : 2 ≤ p) (lt : α → α → Bool) (hswo : IsSWO lt)
    (n b : Nat) (hn1 : 1 ≤ n) (hb1 : 1 ≤ b) (hal : (b - 1) % (d * p) = 0)
    (hrhs1 : d < n - b) (hrhs2 : n - b < d * p) :
    ∀ fuel rel a, rel < d * p → b + rel < n → (n - 1) / (d * p) ≤ b + rel →
      n ≤ (b + rel) * (d * p) + 1 → (n - b) / d - 1 - rel ≤ fuel →
      ∃ m cg, ChainSel (parentH d p) lt a n m cg ∧ cg 0 = b + rel ∧
        siftDownHPartialChunks d lt b ((n - b) / d - 1) fuel rel a =
          (shiftUpTo a cg m, cg m - b) ∧
        b ≤ cg m ∧ cg m - b < d * p ∧ b + (cg m - b) < n ∧
        (n - b) / d - 1 ≤ cg m - b ∧ n ≤ cg m * (d * p) + 1 := by
  have hpar : ∀ u, 1 ≤ u → parentH d p u < u :=
    fun u hu => parentH_lt d p u hd (by omega) hu
  have hps1 : 1 ≤ d * p := by
    have := Nat.mul_le_mul hd (show 1 ≤ p by omega)
    omega
  have hdq : (n - b) / d * d ≤ n - b := Nat.div_mul_le_self _ _
  have hdq1 : 1 ≤ (n - b) / d := by
    rw [Nat.le_div_iff_mul_le (show 0 < d by omega)]
    omega
  intro fuel
  induction fuel with
  | zero =>
    intro rel a hps hun hfpc hnc hfuel
    refine ⟨0, fun _ => b + rel, chainSel_nil _ _ _ _ _ hun, rfl,
      ?_, (by show b ≤ b + rel; omega),
      (by show b + rel - b < d * p; omega),
      (by show b + (b + rel - b) < n; omega),
      (by show (n - b) / d - 1 ≤ b + rel - b; omega), hnc⟩
    show (a, rel) = (shiftUpTo a (fun _ => b + rel) 0, b + rel - b)
    have : b + rel - b = rel := by omega
    rw [this]
    rfl
  | succ f ih =>
    intro rel a hps hun hfpc hnc hfuel
    by_cases hcond : rel < (n - b) / d - 1
    · have hq : ((n - b) / d - 1 + 1) * d = (n - b) / d * d := by
        have h0 : (n - b) / d - 1 + 1 = (n - b) / d := by omega
        rw [h0]
      have hmul : (rel + 1 + 1) * d ≤ ((n - b) / d - 1 + 1) * d :=
        Nat.mul_le_mul_right _ (by omega)
      have hexp : (rel + 1 + 1) * d = (rel + 1) * d + d := by ring
      have hrange : b + (rel + 1) * d + d ≤ n := by omega
      have hrelp : rel < p - 1 := by
        have hmul2 : ((n - b) / d - 1 + 1) * d ≤ n - b := by omega
        have hb32 : (rel + 2) * d = (rel + 1 + 1) * d := by ring
        have hmul3 : (rel + 2) * d ≤ n - b := by omega
        have hpdm : (p - 1) * d + d = p * d := by
          have h0 : p - 1 + 1 = p := by omega
          calc (p - 1) * d + d = ((p - 1) + 1) * d := by ring
            _ = p * d := by rw [h0]
        have hpd : p * d = d * p := Nat.mul_comm _ _
        by_contra hcon
        have hle : (p - 1 + 2) * d ≤ (rel + 2) * d :=
          Nat.mul_le_mul_right _ (by omega)
        have hexp2 : (p - 1 + 2) * d = (p - 1) * d + 2 * d := by ring
        omega
      obtain ⟨g0, g1, g2, g3, g4⟩ := intraStep_spec d p hd hp2 hswo a n b rel
        d hb1 hal hrelp hun hnc (by omega) (Nat.le_refl d) hrange
        (Or.inl rfl)
      set s := moveUpMaxRelChildH d lt a b d rel with hs
      have hrel' : s.2 < d * p := by omega
      have hreln : b + s.2 < n := by omega
      have hgt : rel < s.2 := by
        have : rel + 1 ≤ (rel + 1) * d := Nat.le_mul_of_pos_right _ (by omega)
        omega
      obtain ⟨hseg1, hshift1⟩ := chainSel_step
        (b + rel) (b + s.2) hun (by omega) hreln g1 g4
      obtain ⟨m2, cg2, hsel2, hhead2, heq2, hb2, hrel2, hun2, hexit2, hnc2⟩ :=
        ih s.2 s.1 hrel' hreln (by omega)
          (noCross_of_gt_fpc d p n (b + s.2) hd (by omega) hn1 (by omega))
          (by omega)
      rw [g0, ← hshift1] at hsel2
      have hjoin : cg2 0 = (fun k => if k = 0 then b + rel else b + s.2) 1 :=
        by
        rw [hhead2]
        rfl
      obtain ⟨hcat1, hcat2, hcat3⟩ := chainSel_append hpar hseg1 hsel2 hjoin
      refine ⟨1 + m2, _, hcat1, ?_, ?_, ?_, ?_, ?_, ?_, ?_⟩
      · rw [chainCat_le (Nat.zero_le _)]
        rfl
      · have hstep : siftDownHPartialChunks d lt b ((n - b) / d - 1) (f + 1)
            rel a = siftDownHPartialChunks d lt b ((n - b) / d - 1) f s.2
              s.1 := by
          show (if rel < (n - b) / d - 1 then _ else (a, rel)) = _
          rw [if_pos hcond]
        rw [hstep, heq2, hcat3, hcat2, hshift1, g0]
      · rw [hcat3]; omega
      · rw [hcat3]; omega
      · rw [hcat3]; omega
      · rw [hcat3]; omega
      · rw [hcat3]; exact hnc2
    · refine ⟨0, fun _ => b + rel, chainSel_nil _ _ _ _ _ hun, rfl,
        ?_, (by show b ≤ b + rel; omega),
        (by show b + rel - b < d * p; omega),
        (by show b + (b + rel - b) < n; omega),
        (by show (n - b) / d - 1 ≤ b + rel - b; omega), hnc⟩
      show (if rel < (n - b) / d - 1 then _ else (a, rel)) =
        (shiftUpTo a (fun _ => b + rel) 0, b + rel - b)
      rw [if_neg hcond]
      have : b + rel - b = rel := by omega
      rw [this]
      rfl


/-- The intra-page tail of `_gheap_sift_down` (`gheap.h`): starting from a
hole with no in-range cross-page children it realizes a maximal-child chain
segment ending at a childless hole. -/
theorem intraDescentH_spec {α : Type} [Inhabited α] (d p : Nat) (hd : 1 ≤ d)
    (hp : 1 ≤ p) (lt : α → α → Bool) (hswo : IsSWO lt) (a : List α)
    (n hole : Nat) (hn1 : 1 ≤ n) (hh : hole < n) (hpos : 2 ≤ p → 1 ≤ hole)
    (hfpc : (n - 1) / (d * p) ≤ hole) (hnc : n ≤ hole * (d * p) + 1) :
    ∃ m cg, ChainSel (parentH d p) lt a n m cg ∧ cg 0 = hole ∧
      intraDescentH d p lt n hole a = (shiftUpTo a cg m, cg m) ∧
      ∀ w, 1 ≤ w → w < n → parentH d p w ≠ cg m := by
  have hpar : ∀ u, 1 ≤ u → parentH d p u < u :=
    fun u hu => parentH_lt d p u hd hp hu
  have hps1 : 1 ≤ d * p := Nat.mul_le_mul hd hp
  by_cases hp2 : 1 < p
  · have hu1 : 1 ≤ hole := hpos (by omega)
    have hml : (hole - 1) % (d * p) ≤ hole - 1 := Nat.mod_le _ _
    have hmlt : (hole - 1) % (d * p) < d * p :=
      Nat.mod_lt _ (show 0 < d * p by omega)
    have hb1 : 1 ≤ hole - (hole - 1) % (d * p) := by omega
    have hdm := Nat.div_add_mod (hole - 1) (d * p)
    have hal : (hole - (hole - 1) % (d * p) - 1) % (d * p) = 0 := by
      have he : hole - (hole - 1) % (d * p) - 1 =
          d * p * ((hole - 1) / (d * p)) := by omega
      rw [he]
      exact Nat.mul_mod_right _ _
    have hrel : hole - (hole - (hole - 1) % (d * p)) =
        (hole - 1) % (d * p) := by omega
    have hbrel : hole - (hole - 1) % (d * p) + (hole - 1) % (d * p) =
        hole := by omega
    by_cases hfull : d * p ≤ n - (hole - (hole - 1) % (d * p))
    · obtain ⟨m, cg, hsel, hhead, heq, hble, hrlt, hrge, hncF⟩ :=
        siftDownHFullPage_spec d p hd hp2 lt hswo n
          (hole - (hole - 1) % (d * p)) hn1 hb1 hal (by omega) (d * p)
          ((hole - 1) % (d * p)) a hmlt (by
            rw [hbrel]
            exact hfpc) (by
            rw [hbrel]
            exact hnc) (by
            have hple : p ≤ d * p := Nat.le_mul_of_pos_left p (by omega)
            omega)
      refine ⟨m, cg, hsel, ?_, ?_, ?_⟩
      · rw [hhead, hbrel]
      · have hform : intraDescentH d p lt n hole a =
            ((siftDownHFullPage d p lt (hole - (hole - 1) % (d * p)) (d * p)
              (hole - (hole - (hole - 1) % (d * p))) a).1,
             hole - (hole - 1) % (d * p) +
              (siftDownHFullPage d p lt (hole - (hole - 1) % (d * p)) (d * p)
                (hole - (hole - (hole - 1) % (d * p))) a).2) := by
          show (if 1 < p then _ else (a, hole)) = _
          rw [if_pos hp2]
          show (if d * p ≤ n - (hole - (hole - 1) % (d * p)) then _ else _) =
            _
          rw [if_pos hfull]
        rw [hform, hrel, heq]
        show (shiftUpTo a cg m, hole - (hole - 1) % (d * p) +
          (cg m - (hole - (hole - 1) % (d * p)))) = _
        have he2 : hole - (hole - 1) % (d * p) +
            (cg m - (hole - (hole - 1) % (d * p))) = cg m := by omega
        rw [he2]
      · apply terminalH d p n (cg m) hd hp hncF
        intro hfits
        have hmodF : (cg m - 1) % (d * p) =
            cg m - (hole - (hole - 1) % (d * p)) := by
          have hrb := rel_of_base (d * p) (hole - (hole - 1) % (d * p))
            (cg m - (hole - (hole - 1) % (d * p))) (by omega) hb1 hal hrlt
          have he3 : hole - (hole - 1) % (d * p) +
              (cg m - (hole - (hole - 1) % (d * p))) = cg m := by omega
          rw [he3] at hrb
          exact hrb
        rw [hmodF] at hfits
        omega
    · by_cases hdr : d < n - (hole - (hole - 1) % (d * p))
      · have hdq : (n - (hole - (hole - 1) % (d * p))) / d * d ≤
            n - (hole - (hole - 1) % (d * p)) := Nat.div_mul_le_self _ _
        have hdmq := Nat.div_add_mod (n - (hole - (hole - 1) % (d * p))) d
        have hdm2 : (n - (hole - (hole - 1) % (d * p))) % d < d :=
          Nat.mod_lt _ (by omega)
        have hcomm : d * ((n - (hole - (hole - 1) % (d * p))) / d) =
            (n - (hole - (hole - 1) % (d * p))) / d * d := Nat.mul_comm _ _
        have hdq1 : 1 ≤ (n - (hole - (hole - 1) % (d * p))) / d := by
          rw [Nat.le_div_iff_mul_le (show 0 < d by omega)]
          omega
        have hq2 : ((n - (hole - (hole - 1) % (d * p))) / d - 1 + 1) * d =
            (n - (hole - (hole - 1) % (d * p))) / d * d := by
          have h0 : (n - (hole - (hole - 1) % (d * p))) / d - 1 + 1 =
              (n - (hole - (hole - 1) % (d * p))) / d := by omega
          rw [h0]
        obtain ⟨m, cg, hsel, hhead, heq, hble, hrlt, hun2, hrge, hncF⟩ :=
          siftDownHPartialChunks_spec d p hd hp2 lt hswo n
            (hole - (hole - 1) % (d * p)) hn1 hb1 hal hdr (by omega)
            (d * p) ((hole - 1) % (d * p)) a hmlt (by rw [hbrel]; exact hh)
            (by rw [hbrel]; exact hfpc) (by rw [hbrel]; exact hnc) (by
              have hds : (n - (hole - (hole - 1) % (d * p))) / d ≤
                  n - (hole - (hole - 1) % (d * p)) := Nat.div_le_self _ _
              omega)
        have hform : intraDescentH d p lt n hole a =
            ((if (siftDownHPartialChunks d lt (hole - (hole - 1) % (d * p))
                ((n - (hole - (hole - 1) % (d * p))) / d - 1) (d * p)
                (hole - (hole - (hole - 1) % (d * p))) a).2 =
                  (n - (hole - (hole - 1) % (d * p))) / d - 1 ∧
                ((siftDownHPartialChunks d lt (hole - (hole - 1) % (d * p))
                  ((n - (hole - (hole - 1) % (d * p))) / d - 1) (d * p)
                  (hole - (hole - (hole - 1) % (d * p))) a).2 + 1) * d <
                  n - (hole - (hole - 1) % (d * p)) then
              moveUpMaxRelChildH d lt
                (siftDownHPartialChunks d lt (hole - (hole - 1) % (d * p))
                  ((n - (hole - (hole - 1) % (d * p))) / d - 1) (d * p)
                  (hole - (hole - (hole - 1) % (d * p))) a).1
                (hole - (hole - 1) % (d * p))
                (n - (hole - (hole - 1) % (d * p)) -
                  ((siftDownHPartialChunks d lt
                    (hole - (hole - 1) % (d * p))
                    ((n - (hole - (hole - 1) % (d * p))) / d - 1) (d * p)
                    (hole - (hole - (hole - 1) % (d * p))) a).2 + 1) * d)
                (siftDownHPartialChunks d lt (hole - (hole - 1) % (d * p))
                  ((n - (hole - (hole - 1) % (d * p))) / d - 1) (d * p)
                  (hole - (hole - (hole - 1) % (d * p))) a).2
            else
              siftDownHPartialChunks d lt (hole - (hole - 1) % (d * p))
                ((n - (hole - (hole - 1) % (d * p))) / d - 1) (d * p)
                (hole - (hole - (hole - 1) % (d * p))) a).1,
            hole - (hole - 1) % (d * p) +
            (if (siftDownHPartialChunks d lt (hole - (hole - 1) % (d * p))
                ((n - (hole - (hole - 1) % (d * p))) / d - 1) (d * p)
                (hole - (hole - (hole - 1) % (d * p))) a).2 =
                  (n - (hole - (hole - 1) % (d * p))) / d - 1 ∧
                ((siftDownHPartialChunks d lt (hole - (hole - 1) % (d * p))
                  ((n - (hole - (hole - 1) % (d * p))) / d - 1) (d * p)
                  (hole - (hole - (hole - 1) % (d * p))) a).2 + 1) * d <
                  n - (hole - (hole - 1) % (d * p)) then
              moveUpMaxRelChildH d lt
                (siftDownHPartialChunks d lt (hole - (hole - 1) % (d * p))
                  ((n - (hole - (hole - 1) % (d * p))) / d - 1) (d * p)
                  (hole - (hole - (hole - 1) % (d * p))) a).1
                (hole - (hole - 1) % (d * p))
                (n - (hole - (hole - 1) % (d * p)) -
                  ((siftDownHPartialChunks d lt
                    (hole - (hole - 1) % (d * p))
                    ((n - (hole - (hole - 1) % (d * p))) / d - 1) (d * p)
                    (hole - (hole - (hole - 1) % (d * p))) a).2 + 1) * d)
                (siftDownHPartialChunks d lt (hole - (hole - 1) % (d * p))
                  ((n - (hole - (hole - 1) % (d * p))) / d - 1) (d * p)
                  (hole - (hole - (hole - 1) % (d * p))) a).2
            else
              siftDownHPartialChunks d lt (hole - (hole - 1) % (d * p))
                ((n - (hole - (hole - 1) % (d * p))) / d - 1) (d * p)
                (hole - (hole - (hole - 1) % (d * p))) a).2) := by
          show (if 1 < p then _ else (a, hole)) = _
          rw [if_pos hp2]
          show (if d * p ≤ n - (hole - (hole - 1) % (d * p)) then _ else _) =
            _
          rw [if_neg hfull]
          show (if d < n - (hole - (hole - 1) % (d * p)) then _ else
            (a, hole)) = _
          rw [if_pos hdr]
        have heq1 : (siftDownHPartialChunks d lt
            (hole - (hole - 1) % (d * p))
            ((n - (hole - (hole - 1) % (d * p))) / d - 1) (d * p)
            ((hole - 1) % (d * p)) a).1 = shiftUpTo a cg m := by rw [heq]
        have heq2 : (siftDownHPartialChunks d lt
            (hole - (hole - 1) % (d * p))
            ((n - (hole - (hole - 1) % (d * p))) / d - 1) (d * p)
            ((hole - 1) % (d * p)) a).2 =
            cg m - (hole - (hole - 1) % (d * p)) := by rw [heq]
        rw [hform, hrel, heq2, heq1]
        split
        · rename_i hlast
          obtain ⟨hl1, hl2⟩ := hlast
          have hl2e : (cg m - (hole - (hole - 1) % (d * p)) + 1) * d =
              ((n - (hole - (hole - 1) % (d * p))) / d - 1 + 1) * d := by
            rw [hl1]
          have hrelp : cg m - (hole - (hole - 1) % (d * p)) < p - 1 := by
            have hub : (n - (hole - (hole - 1) % (d * p))) ≤ d * p - 1 := by
              omega
            have hdiv : (n - (hole - (hole - 1) % (d * p))) / d ≤
                (d * p - 1) / d := Nat.div_le_div_right hub
            have hdple : (d * p - 1) / d = p - 1 := by
              have h4 : d * (p - 1) + d = d * ((p - 1) + 1) := by ring
              have h41 : p - 1 + 1 = p := by omega
              rw [h41] at h4
              have h5 : d * p - 1 = d * (p - 1) + (d - 1) := by omega
              rw [h5, Nat.mul_add_div (by omega), Nat.div_eq_of_lt (by omega)]
              omega
            omega
          obtain ⟨g0, g1, g2, g3, g4⟩ := intraStep_spec d p hd (by omega)
            hswo (shiftUpTo a cg m) n (hole - (hole - 1) % (d * p))
            (cg m - (hole - (hole - 1) % (d * p)))
            (n - (hole - (hole - 1) % (d * p)) -
              (cg m - (hole - (hole - 1) % (d * p)) + 1) * d)
            hb1 hal hrelp (by omega) (by
              have he4 : hole - (hole - 1) % (d * p) +
                  (cg m - (hole - (hole - 1) % (d * p))) = cg m := by omega
              rw [he4]
              exact hncF) (by omega) (by omega) (by omega)
            (Or.inr (by omega))
          set s2 := moveUpMaxRelChildH d lt (shiftUpTo a cg m)
            (hole - (hole - 1) % (d * p))
            (n - (hole - (hole - 1) % (d * p)) -
              (cg m - (hole - (hole - 1) % (d * p)) + 1) * d)
            (cg m - (hole - (hole - 1) % (d * p))) with hs2
          have hmul1 : cg m - (hole - (hole - 1) % (d * p)) + 1 ≤
              (cg m - (hole - (hole - 1) % (d * p)) + 1) * d :=
            Nat.le_mul_of_pos_right _ (by omega)
          have hmono0 := hsel.toChain.mono hpar
          have hc0m : cg 0 ≤ cg m := by
            rcases Nat.eq_zero_or_pos m with rfl | h1
            · exact Nat.le_refl _
            · exact Nat.le_of_lt (hmono0 0 m h1 (Nat.le_refl _))
          have he4 : hole - (hole - 1) % (d * p) +
              (cg m - (hole - (hole - 1) % (d * p))) = cg m := by omega
          rw [he4] at g1 g4
          have hs2n : hole - (hole - 1) % (d * p) + s2.2 < n := by omega
          have hs2gt : cg m < hole - (hole - 1) % (d * p) + s2.2 := by omega
          obtain ⟨hseg1, hshift1⟩ := chainSel_step (cg m)
            (hole - (hole - 1) % (d * p) + s2.2) (by omega) (by omega)
            hs2n g1 g4
          have hjoin : (fun k => if k = 0 then cg m else
              hole - (hole - 1) % (d * p) + s2.2) 0 = cg m := rfl
          obtain ⟨hcat1, hcat2, hcat3⟩ := chainSel_append hpar hsel hseg1
            hjoin
          refine ⟨m + 1, _, hcat1, ?_, ?_, ?_⟩
          · rw [chainCat_le (Nat.zero_le _), hhead, hbrel]
          · rw [g0, he4, hcat2, hcat3, ← hshift1]
            rfl
          · rw [hcat3]
            show ∀ w, 1 ≤ w → w < n → parentH d p w ≠
              hole - (hole - 1) % (d * p) + s2.2
            apply terminalH d p n _ hd hp
              (noCross_of_gt_fpc d p n _ hd hp hn1 (by omega))
            intro hfits
            have hrb := rel_of_base (d * p) (hole - (hole - 1) % (d * p))
              s2.2 (by omega) hb1 hal (by omega)
            rw [hrb]
            have hmul : s2.2 + 1 ≤ (s2.2 + 1) * d :=
              Nat.le_mul_of_pos_right _ (by omega)
            have hstep : (cg m - (hole - (hole - 1) % (d * p)) + 1) * d + d =
                (cg m - (hole - (hole - 1) % (d * p)) + 1 + 1) * d := by ring
            have hge2 : (cg m - (hole - (hole - 1) % (d * p)) + 1 + 1) * d ≤
                (s2.2 + 1) * d := Nat.mul_le_mul_right _ (by omega)
            omega
        · rename_i hlast
          refine ⟨m, cg, hsel, ?_, ?_, ?_⟩
          · rw [hhead, hbrel]
          · have he2 : hole - (hole - 1) % (d * p) +
                (cg m - (hole - (hole - 1) % (d * p))) = cg m := by omega
            rw [heq1, heq2, he2]
          · apply terminalH d p n (cg m) hd hp hncF
            intro hfits
            have hrb := rel_of_base (d * p) (hole - (hole - 1) % (d * p))
              (cg m - (hole - (hole - 1) % (d * p))) (by omega) hb1 hal hrlt
            have he3 : hole - (hole - 1) % (d * p) +
                (cg m - (hole - (hole - 1) % (d * p))) = cg m := by omega
            rw [he3] at hrb
            rw [hrb]
            rcases Nat.lt_or_ge (cg m - (hole - (hole - 1) % (d * p)))
              ((n - (hole - (hole - 1) % (d * p))) / d) with hc | hc
            · have hc1 : cg m - (hole - (hole - 1) % (d * p)) =
                  (n - (hole - (hole - 1) % (d * p))) / d - 1 := by omega
              have hc2 : ¬((cg m - (hole - (hole - 1) % (d * p)) + 1) * d <
                  n - (hole - (hole - 1) % (d * p))) := fun hcon =>
                hlast ⟨hc1, hcon⟩
              omega
            · have hge2 : ((n - (hole - (hole - 1) % (d * p))) / d + 1) * d ≤
                  (cg m - (hole - (hole - 1) % (d * p)) + 1) * d :=
                Nat.mul_le_mul_right _ (by omega)
              have hexp : ((n - (hole - (hole - 1) % (d * p))) / d + 1) * d =
                  (n - (hole - (hole - 1) % (d * p))) / d * d + d := by ring
              omega
      · refine ⟨0, fun _ => hole, chainSel_nil _ _ _ _ _ hh, rfl, ?_, ?_⟩
        · show intraDescentH d p lt n hole a = (a, hole)
          show (if 1 < p then _ else (a, hole)) = _
          rw [if_pos hp2]
          show (if d * p ≤ n - (hole - (hole - 1) % (d * p)) then _ else _) =
            _
          rw [if_neg hfull]
          show (if d < n - (hole - (hole - 1) % (d * p)) then _ else
            (a, hole)) = _
          rw [if_neg hdr]
        · show ∀ w, 1 ≤ w → w < n → parentH d p w ≠ hole
          apply terminalH d p n hole hd hp hnc
          intro hfits
          have hdd : d ≤ ((hole - 1) % (d * p) + 1) * d :=
            Nat.le_mul_of_pos_left _ (by omega)
          omega
  · refine ⟨0, fun _ => hole, chainSel_nil _ _ _ _ _ hh, rfl, ?_, ?_⟩
    · show intraDescentH d p lt n hole a = (a, hole)
      show (if 1 < p then _ else (a, hole)) = _
      rw [if_neg hp2]
    · show ∀ w, 1 ≤ w → w < n → parentH d p w ≠ hole
      apply terminalH d p n hole hd hp hnc
      intro hfits
      omega

end Gheap
namespace Gheap

/-! ## Claim theorems -/

/-- The natural-number comparator used in concrete instances. -/
def natLt (x y : Nat) : Bool := decide (x < y)

theorem natLt_swo : IsSWO natLt := by
  refine ⟨?_, ?_, ?_⟩
  · intro x
    simp [natLt]
  · intro x y z h1 h2
    simp [natLt] at h1 h2 ⊢
    omega
  · intro x y z h1 h2
    simp [natLt] at h1 h2 ⊢
    omega

set_option maxRecDepth 10000 in
/-- Claim C1.  Heapsort correctness: for every fanout `d ≥ 1`, `page_chunks
p ≥ 1`, every strict-weak-order comparator and every buffer, the heapsort
composed from the `gheap_c.c` primitives cited by the claim
(`gheap_make_heap` followed by `gheap_sort_heap`, the body of
`galgorithm_heapsort`) permutes the buffer and sorts its window
non-decreasingly; and on the concrete instance the `galgorithm.h` /
`gheap.h` composition maps `[5, 2, 9, 1, 5, 6]` with `d = 2`, `p = 1` to
`[1, 2, 5, 5, 6, 9]`. -/
theorem heapsort_sorts {α : Type} [Inhabited α] (d p : Nat)
    (lt : α → α → Bool) (a : List α) (n : Nat) (hd : 1 ≤ d) (hp : 1 ≤ p)
    (hdp : d * p ≤ SZ) (hswo : IsSWO lt) (hn : n ≤ SZ) (hla : n ≤ a.length) :
    (List.Perm (heapsortC d p lt a n) a ∧
     ∀ w1 w2, w1 ≤ w2 → w2 < n →
       lt (lget (heapsortC d p lt a n) w2)
         (lget (heapsortC d p lt a n) w1) = false) ∧
    heapsortG 2 1 natLt [5, 2, 9, 1, 5, 6] 6 = [1, 2, 5, 5, 6, 9] :=
  ⟨heapsortC_correct d p hd hp hdp lt hswo a n hn hla, by decide⟩

set_option maxRecDepth 10000 in
theorem heapsort_sorts_witness :
    (List.Perm (heapsortC 2 1 natLt [5, 2, 9, 1, 5, 6] 6) [5, 2, 9, 1, 5, 6] ∧
     ∀ w1 w2, w1 ≤ w2 → w2 < 6 →
       natLt (lget (heapsortC 2 1 natLt [5, 2, 9, 1, 5, 6] 6) w2)
         (lget (heapsortC 2 1 natLt [5, 2, 9, 1, 5, 6] 6) w1) = false) ∧
    heapsortG 2 1 natLt [5, 2, 9, 1, 5, 6] 6 = [1, 2, 5, 5, 6, 9] :=
  heapsort_sorts 2 1 natLt [5, 2, 9, 1, 5, 6] 6 (by norm_num) (by norm_num)
    (by decide) natLt_swo (by decide) (by norm_num)

/-- Claim C2.  `gheap_make_heap` postcondition: for every `d ≥ 1`, `p ≥ 1`,
comparator and buffer (including `n = 0` and `n = 1`), afterwards
`gheap_is_heap` holds and the buffer is a permutation of the input. -/
theorem makeHeap_establishes_heap {α : Type} [Inhabited α] (d p : Nat)
    (lt : α → α → Bool) (a : List α) (n : Nat) (hd : 1 ≤ d) (hp : 1 ≤ p)
    (hdp : d * p ≤ SZ) (hswo : IsSWO lt) (hn : n ≤ SZ) (hla : n ≤ a.length) :
    isHeapC d p lt (makeHeapC d p lt a n) n = true ∧
    List.Perm (makeHeapC d p lt a n) a := by
  obtain ⟨m1, m2, m3⟩ := makeHeapC_correct d p hd hp hdp lt hswo a n hn hla
  exact ⟨(isHeapC_eq_true_iff d p hd hp hdp lt _ n hn).mpr m1, m2⟩

set_option maxRecDepth 10000 in
theorem makeHeap_establishes_heap_witness :
    isHeapC 3 2 natLt (makeHeapC 3 2 natLt [4, 1, 7, 7, 0, 5, 2, 9] 8) 8 =
      true ∧
    List.Perm (makeHeapC 3 2 natLt [4, 1, 7, 7, 0, 5, 2, 9] 8)
      [4, 1, 7, 7, 0, 5, 2, 9] :=
  makeHeap_establishes_heap 3 2 natLt [4, 1, 7, 7, 0, 5, 2, 9] 8
    (by norm_num) (by norm_num) (by decide) natLt_swo (by decide)
    (by norm_num)

/-- Claim C4 (corrected).  The closed-form index scheme of `gheap_c.c` and
the incremental page-walk structure of `gheap.h` coincide for
`page_chunks = 1`: the parent function realized by the `gheap.h` walks
equals `gheap_c.c`'s ideal parent on every index.  For `page_chunks > 1`
the two schemes realize different trees (see the counterexample). -/
theorem indexSchemes_agree_p1 (d u : Nat) (hd : 1 ≤ d) :
    parentH d 1 u = parentI d 1 u :=
  parentH_eq_parentI_p1 d u hd

theorem indexSchemes_agree_p1_witness : parentH 3 1 7 = parentI 3 1 7 :=
  indexSchemes_agree_p1 3 7 (by norm_num)

set_option maxRecDepth 10000 in
/-- Claim C4, counterexample.  At `d = 3`, `p = 2` the two
`gheap_is_heap_until` implementations disagree on the buffer
`[5, 5, 2, 1, 2, 3, 5, 0, 4]`: the `gheap_c.c` scan stops at `8` while the
`gheap.h` scan accepts the whole buffer, so the two index schemes are not
equivalent for `page_chunks > 1`. -/
theorem indexSchemes_cex :
    isHeapUntilC 3 2 natLt [5, 5, 2, 1, 2, 3, 5, 0, 4] 9 = 8 ∧
    isHeapUntilH 3 2 natLt [5, 5, 2, 1, 2, 3, 5, 0, 4] 9 = 9 ∧
    isHeapUntilC 3 2 natLt [5, 5, 2, 1, 2, 3, 5, 0, 4] 9 ≠
      isHeapUntilH 3 2 natLt [5, 5, 2, 1, 2, 3, 5, 0, 4] 9 :=
  ⟨by decide, by decide, by decide⟩

/-- Claim C5.  `gheap_is_heap_until` contract (`gheap_c.c`): the result `k`
is at most `n`, the prefix `a[0..k)` satisfies the heap invariant, and
either `k = n` or the parent→child edge ending at `k` violates the order
(so `k` is the first violation); for `n = 0` it returns `0` and
`gheap_is_heap` returns `true`. -/
theorem isHeapUntil_first_violation {α : Type} [Inhabited α] (d p : Nat)
    (lt : α → α → Bool) (a : List α) (n : Nat) (hd : 1 ≤ d) (hp : 1 ≤ p)
    (hdp : d * p ≤ SZ) (hn : n ≤ SZ) :
    isHeapUntilC d p lt a n ≤ n ∧
    IsHeap (parentI d p) lt a (isHeapUntilC d p lt a n) ∧
    (isHeapUntilC d p lt a n = n ∨
      (1 ≤ isHeapUntilC d p lt a n ∧ isHeapUntilC d p lt a n < n ∧
        lt (lget a (parentI d p (isHeapUntilC d p lt a n)))
          (lget a (isHeapUntilC d p lt a n)) = true)) ∧
    isHeapUntilC d p lt a 0 = 0 ∧ isHeapC d p lt a 0 = true := by
  obtain ⟨g1, g2, g3⟩ := isHeapUntilC_spec d p hd hp hdp lt a n hn
  exact ⟨g1, g2, g3, rfl, rfl⟩

theorem isHeapUntil_first_violation_witness :
    isHeapUntilC 2 1 natLt [3, 1, 4, 1] 4 ≤ 4 ∧
    IsHeap (parentI 2 1) natLt [3, 1, 4, 1] (isHeapUntilC 2 1 natLt
      [3, 1, 4, 1] 4) ∧
    (isHeapUntilC 2 1 natLt [3, 1, 4, 1] 4 = 4 ∨
      (1 ≤ isHeapUntilC 2 1 natLt [3, 1, 4, 1] 4 ∧
        isHeapUntilC 2 1 natLt [3, 1, 4, 1] 4 < 4 ∧
        natLt (lget [3, 1, 4, 1] (parentI 2 1 (isHeapUntilC 2 1 natLt
          [3, 1, 4, 1] 4)))
          (lget [3, 1, 4, 1] (isHeapUntilC 2 1 natLt [3, 1, 4, 1] 4)) =
          true)) ∧
    isHeapUntilC 2 1 natLt [3, 1, 4, 1] 0 = 0 ∧
    isHeapC 2 1 natLt [3, 1, 4, 1] 0 = true :=
  isHeapUntil_first_violation 2 1 natLt [3, 1, 4, 1] 4 (by norm_num)
    (by norm_num) (by decide) (by decide)

/-- Claim C8.  Sift-down tie-break: both `_move_up_max_child` (`gheap_c.c`)
and `_gheap_get_max_child_index` (`gheap.h`) choose a child that no examined
child strictly exceeds, and among all such maximal children they choose the
one with the highest index. -/
theorem maxChild_tie_break {α : Type} [Inhabited α] {lt : α → α → Bool}
    (hswo : IsSWO lt) (a : List α) (hole ci cnt : Nat) :
    (∀ i, i < cnt →
      lt (lget a ((moveUpMaxChild lt a cnt hole ci).2)) (lget a (ci + i)) =
        false) ∧
    (moveUpMaxChild lt a cnt hole ci).2 = getMaxChildIndexH lt a ci cnt ∧
    (∀ j, j < cnt →
      (∀ i, i < cnt → lt (lget a (ci + j)) (lget a (ci + i)) = false) →
      ci + j ≤ getMaxChildIndexH lt a ci cnt) := by
  refine ⟨?_, rfl, ?_⟩
  · intro i hi
    exact scanMax_max hswo a ci cnt i hi
  · intro j hj hmax
    have := scanMax_largest a ci cnt j hj hmax
    show ci + j ≤ ci + scanMax lt a ci cnt
    omega

theorem maxChild_tie_break_witness :
    ((∀ i, i < 5 →
      natLt (lget [9, 7, 7, 9, 3]
        ((moveUpMaxChild natLt [9, 7, 7, 9, 3] 5 0 0).2))
        (lget [9, 7, 7, 9, 3] (0 + i)) = false) ∧
    (moveUpMaxChild natLt [9, 7, 7, 9, 3] 5 0 0).2 =
      getMaxChildIndexH natLt [9, 7, 7, 9, 3] 0 5 ∧
    (∀ j, j < 5 →
      (∀ i, i < 5 → natLt (lget [9, 7, 7, 9, 3] (0 + j))
        (lget [9, 7, 7, 9, 3] (0 + i)) = false) →
      0 + j ≤ getMaxChildIndexH natLt [9, 7, 7, 9, 3] 0 5)) ∧
    getMaxChildIndexH natLt [9, 7, 7, 9, 3] 0 5 = 3 :=
  ⟨maxChild_tie_break natLt_swo [9, 7, 7, 9, 3] 0 0 5, by decide⟩

/-- Claim C10.  Removing the last element is a frame no-op:
`gheap_remove_from_heap` with `item_index = heap_size - 1` returns the
buffer unchanged, for every fanout, page_chunks and comparator — in
particular no comparator call can influence the result. -/
theorem removeFromHeap_last_noop {α : Type} [Inhabited α] (d p : Nat)
    (lt : α → α → Bool) (a : List α) (n : Nat) (hn : 1 ≤ n) :
    removeFromHeapC d p lt a n (n - 1) = a := by
  show (if n - 1 < n - 1 then _ else a) = a
  rw [if_neg (Nat.lt_irrefl _)]

theorem removeFromHeap_last_noop_witness :
    removeFromHeapC 3 1 natLt [9, 7, 7, 9, 3] 5 4 = [9, 7, 7, 9, 3] :=
  removeFromHeap_last_noop 3 1 natLt [9, 7, 7, 9, 3] 5 (by norm_num)

end Gheap
